import Mathlib

/-!
# Verification of the pulsar deferred engine and protocol pipeline

This file is a shallow embedding, in Lean 4, of the core of the
`pulsar` asynchronous library:

* `src/pulsar/async/defer.py` — the `Deferred` callback engine,
  `Failure` error aggregation, the `DeferredGenerator` driver and
  `MultiDeferred` aggregation;
* `src/pulsar/async/transports/protocols.py` — the `Connection`
  byte-routing loop and the `Producer` connection factory.

The embedding strategy:

* Python values flowing through deferred chains are modelled by the
  inductive type `V` (plain values, raw exception instances, `Failure`
  objects, references to `Deferred` objects on a heap, and `list`/`dict`
  containers).  Python generators are not representable as chain values;
  the `DeferredGenerator` driver is modelled separately.
* The mutable graph of `Deferred` objects is a heap `Heap := List DState`
  addressed by `Nat` identifiers; `V.dref i` is a reference to heap
  member `i`.  Each method of `Deferred`/`MultiDeferred` becomes a
  state-passing function over the heap.
* The drain machinery is mutually recursive through the heap
  (`_run_callbacks` → handler → `_continue`/`_deferred_done` →
  `_run_callbacks` of another deferred), which is not structurally
  terminating in general, so every operation takes a fuel argument and
  recursion decreases it.  Theorems supply sufficient fuel; at fuel 0
  the operations return their input unchanged.
* Python exceptions raised by an operation are returned as
  `Option Err` / `Except Err` values; an operation that raises performs
  exactly the mutations the source performed before the `raise`.
-/

/-- Exception kinds raised or accumulated by the code under verification.
`runtimeError` stands for Python `RuntimeError` (raised by
`Deferred.callback` on a deferred argument, by `MultiDeferred` misuse and
by `Producer.new_connection` as `'Too many connections'`);
`alreadyCalledError` for `pulsar.AlreadyCalledError`;
`deferredFailureE n` for `defer.DeferredFailure` whose message reports
`n` failures; `other n` is a supply of distinct application errors. -/
inductive Err where
  | valueError
  | typeError
  | runtimeError
  | alreadyCalledError
  | protocolError
  | deferredFailureE (n : Nat)
  | other (n : Nat)
deriving DecidableEq, Repr

/-- The universe of Python values that flow through deferred chains:
`vnone`/`vint`/`vstr`/`vbool` are plain values, `vexc e` a raw exception
instance, `fail errs` a `Failure` holding the list of its error records,
`dref i` a reference to the `Deferred` at heap address `i`, and
`vlist`/`vdict` the `list` and `dict` containers. -/
inductive V where
  | vnone
  | vint (n : Int)
  | vstr (s : String)
  | vbool (b : Bool)
  | vexc (e : Err)
  | fail (errs : List Err)
  | dref (i : Nat)
  | vlist (l : List V)
  | vdict (l : List (String × V))

mutual

/-- Boolean structural equality on `V` (used where the source compares
values with `is not`; structural equality of immutable model values
stands in for Python object identity). -/
def V.beq : V → V → Bool
  | .vnone, .vnone => true
  | .vint a, .vint b => a == b
  | .vstr a, .vstr b => a == b
  | .vbool a, .vbool b => a == b
  | .vexc a, .vexc b => a == b
  | .fail a, .fail b => a == b
  | .dref a, .dref b => a == b
  | .vlist a, .vlist b => V.beqList a b
  | .vdict a, .vdict b => V.beqDict a b
  | _, _ => false

/-- Elementwise `V.beq` on lists. -/
def V.beqList : List V → List V → Bool
  | [], [] => true
  | x :: xs, y :: ys => V.beq x y && V.beqList xs ys
  | _, _ => false

/-- Elementwise `V.beq` on association lists. -/
def V.beqDict : List (String × V) → List (String × V) → Bool
  | [], [] => true
  | (s, x) :: xs, (t, y) :: ys => s == t && V.beq x y && V.beqDict xs ys
  | _, _ => false

end

namespace V

/-- `defer.is_failure(value)`: test for a `Failure` instance. -/
def isFailureB : V → Bool
  | .fail _ => true
  | _ => false

/-- `defer.is_async(obj)`: test for a `Deferred` instance (a heap
reference in this model). -/
def isDref : V → Bool
  | .dref _ => true
  | _ => false

/-- Test for a raw exception instance. -/
def isExc : V → Bool
  | .vexc _ => true
  | _ => false

/-- The containers recognised by `MultiDeferred._add`
(`isinstance(value, (dict, list, tuple, set, frozenset))`; the model
carries `list` and `dict`). -/
def isContainer : V → Bool
  | .vlist _ => true
  | .vdict _ => true
  | _ => false

/-- The error records of a `Failure` value (empty for non-failures). -/
def failRecs : V → List Err
  | .fail l => l
  | _ => []

end V

/-- `defer.as_failure(value)`: convert a raw exception instance into a
one-record `Failure`; every other value (including an existing
`Failure`) passes through unchanged.  (The source distinguishes an
exception matching the ambient `sys.exc_info()` from a bare exception
only through the captured traceback, which the model does not carry:
both become a single error record.) -/
def as_failure : V → V
  | .vexc e => .fail [e]
  | v => v

/-- A container key of a `MultiDeferred` stream: an integer index for
`list` streams, a string key for `dict` streams. -/
inductive Key where
  | ik (n : Nat)
  | sk (s : String)
deriving DecidableEq, Repr

/-- One `Deferred` callback-chain handler.  `passThrough` is the
module-level `pass_through = lambda result: result`; `hfun f` an
application-supplied (pure) callable; `cont i` the bound method
`_continue` of the deferred at heap address `i`; `mdDone i k` the
closure `lambda result: self._deferred_done(key, result)` attached by
`MultiDeferred._add_deferred` for the multideferred at address `i` and
container key `k`. -/
inductive Handler where
  | passThrough
  | hfun (f : V → Except Err V)
  | cont (i : Nat)
  | mdDone (i : Nat) (k : Key)

/-- An argument passed to `Deferred.add_callback`: either a callable
(one of the representable handlers) or any non-callable value. -/
inductive CbArg where
  | callable (hd : Handler)
  | notCallable

/-- The `_stream` container of a `MultiDeferred`: either a `list` or a
`dict` (an association list in insertion order). -/
inductive Strm where
  | slist (l : List V)
  | sdict (l : List (String × V))

/-- The state a `MultiDeferred` adds on top of `Deferred`: the `_locked`
flag, the `_stream` container, the `_deferred` pending map (key and heap
address of each still-asynchronous child), the `_failures` accumulator
(its list of error records) and the construction parameters
`fireOnOneErrback` and `handle_value`.  (`log_failure` only controls
logging, which the model does not observe.) -/
structure MDPart where
  locked : Bool
  stream : Strm
  pending : List (Key × Nat)
  failures : List Err
  fireOnOneErrback : Bool
  handleValue : Option (V → Except Err V)

/-- The state of one `Deferred` on the heap: the `_called` flag, the
`result` slot (absent until called), the `paused` counter, the
`_runningCallbacks` flag, the `_callbacks` queue of
(callback, errback) pairs, and, for `MultiDeferred` instances, the
extra `MDPart` state. -/
structure DState where
  called : Bool
  result : Option V
  paused : Nat
  running : Bool
  callbacks : List (Handler × Handler)
  md : Option MDPart

/-- A freshly constructed `Deferred()`. -/
def freshD : DState :=
  { called := false, result := none, paused := 0, running := false,
    callbacks := [], md := none }

instance : Inhabited DState := ⟨freshD⟩

/-- The heap of `Deferred` objects, addressed by position. -/
abbrev Heap := List DState

/-- Read heap member `i` (a fresh deferred when out of range; theorems
only address allocated members). -/
def hget (h : Heap) (i : Nat) : DState := h.getD i freshD

/-- Update heap member `i` in place. -/
def hset (i : Nat) (f : DState → DState) (h : Heap) : Heap :=
  h.set i (f (hget h i))

/-- `Deferred.result_or_self`: the stored `result` when the deferred has
been called and its callback queue is empty, otherwise the deferred
itself.  (Faithful to the source: the `paused` counter is *not*
consulted.) -/
def result_or_self (h : Heap) (i : Nat) : V :=
  let d := hget h i
  if d.called && d.callbacks.isEmpty then d.result.getD .vnone else .dref i

/-- `defer.maybe_async(val)` restricted to chain values: a `Deferred`
reference collapses through `result_or_self`, any other value goes
through `as_failure`.  (The generator branch of the source wraps
generators in a `DeferredGenerator`; generators are not representable
as chain values in this model and that driver is modelled separately.) -/
def maybe_async (h : Heap) : V → V
  | .dref i => result_or_self h i
  | v => as_failure v

/-- `Deferred._add_exception(e)`: promote `result` to a one-record
`Failure` if it is not one, else append the record (`Failure.append`
of an exception appends one `exc_info` record). -/
def add_exception (i : Nat) (e : Err) (h : Heap) : Heap :=
  hset i (fun s =>
    { s with result := some (match s.result with
        | some (.fail l) => .fail (l ++ [e])
        | _ => .fail [e]) }) h

/-- Update an association list at a string key, Python-`dict` style:
overwrite the first occurrence in place, else append. -/
def assocSet : List (String × V) → String → V → List (String × V)
  | [], s, v => [(s, v)]
  | (s0, v0) :: rest, s, v =>
    if s0 = s then (s0, v) :: rest else (s0, v0) :: assocSet rest s v

/-- `MultiDeferred._setitem`'s container write: on a `list` stream an
index equal to the length appends, a smaller index overwrites; on a
`dict` stream the key is written Python-style.  Mismatched key kinds do
not occur and leave the stream unchanged. -/
def strm_set : Strm → Key → V → Strm
  | .slist l, .ik n, v =>
    if n = l.length then .slist (l ++ [v]) else .slist (l.set n v)
  | .sdict l, .sk s, v => .sdict (assocSet l s v)
  | st, _, _ => st

/-- The `_stream` container as a chain value (the argument of
`self.callback(self._stream)` in `MultiDeferred._finish`). -/
def strm_to_v : Strm → V
  | .slist l => .vlist l
  | .sdict l => .vdict l

/-- `MultiDeferred._setitem(key, value)`: write the stream cell and, if
the value is a `Failure`, extend `_failures` with its records. -/
def md_setitem (i : Nat) (k : Key) (v : V) (h : Heap) : Heap :=
  hset i (fun s =>
    match s.md with
    | none => s
    | some m =>
      { s with md := some { m with
          stream := strm_set m.stream k v,
          failures :=
            if v.isFailureB then m.failures ++ v.failRecs else m.failures } }) h

/-- The construction parameters a `MultiDeferred` passes on to the
children built by `_make`: `fireOnOneErrback` and `handle_value`. -/
structure MDCfg where
  fireOnOneErrback : Bool
  handleValue : Option (V → Except Err V)

/-- The configuration a multideferred passes to `_make`
(`self.fireOnOneErrback` and `self.handle_value`). -/
def md_cfg_of : Option MDPart → MDCfg
  | some m => { fireOnOneErrback := m.fireOnOneErrback, handleValue := m.handleValue }
  | none => { fireOnOneErrback := false, handleValue := none }

/-- The allocation step of `MultiDeferred.__init__`: a fresh
multideferred appended to the heap, with a stream of the data's type
(`dict` data gives a `dict` stream, anything else a `list` stream),
unlocked, with no pending children and no failures. -/
def md_alloc (cfg : MDCfg) (data : V) (h : Heap) : Heap :=
  h ++ [{ called := false, result := none, paused := 0,
          running := false, callbacks := [],
          md := some { locked := false,
                       stream := match data with
                         | .vdict _ => .sdict []
                         | _ => .slist [],
                       pending := [], failures := [],
                       fireOnOneErrback := cfg.fireOnOneErrback,
                       handleValue := cfg.handleValue } }]

mutual

/-- `Deferred._run_callbacks`: return unless called, and not running,
and not paused; then drain the queue (`drain_loop`). -/
def run_callbacks : Nat → Nat → Heap → Heap
  | 0, _, h => h
  | fuel + 1, i, h =>
    let d := hget h i
    if !d.called || d.running || d.paused != 0 then h
    else drain_loop fuel i h
termination_by structural fuel _ _ => fuel

/-- The `while self._callbacks` loop of `Deferred._run_callbacks`: pop
the next (callback, errback) pair, select the errback exactly when the
current `result` is a `Failure`, run the handler under the
`_runningCallbacks` flag, pass the returned value through
`maybe_async`, store it as the new `result`; a raised exception is
folded into `result` by `_add_exception`; if the new result is a
`Deferred`, increment `paused`, attach `_continue` to it via `add_both`
and stop draining. -/
def drain_loop : Nat → Nat → Heap → Heap
  | 0, _, h => h
  | fuel + 1, i, h =>
    match (hget h i).callbacks with
    | [] => h
    | (cb, eb) :: rest =>
      let res := (hget h i).result.getD .vnone
      let hd := if res.isFailureB then eb else cb
      let h1 := hset i (fun s =>
        { s with callbacks := rest, running := true }) h
      match eval_handler fuel hd res h1 with
      | (h2, .error e) =>
        let h3 := hset i (fun s => { s with running := false }) h2
        drain_loop fuel i (add_exception i e h3)
      | (h2, .ok v) =>
        let v2 := maybe_async h2 v
        let h3 := hset i (fun s => { s with running := false }) h2
        let h4 := hset i (fun s => { s with result := some v2 }) h3
        match v2 with
        | .dref j =>
          let h5 := hset i (fun s => { s with paused := s.paused + 1 }) h4
          add_both fuel j (.cont i) h5
        | _ => drain_loop fuel i h4
termination_by structural fuel _ _ => fuel

/-- Invoke one chain handler on the current result.  `cont i` is
`Deferred._continue`: store the incoming result, `_unpause` (decrement
`paused` and re-run the callbacks) and return the possibly-updated
`result`; `mdDone` delegates to `MultiDeferred._deferred_done`. -/
def eval_handler : Nat → Handler → V → Heap → Heap × Except Err V
  | _, .passThrough, v, h => (h, .ok v)
  | _, .hfun f, v, h => (h, f v)
  | 0, .cont _, v, h => (h, .ok v)
  | fuel + 1, .cont i, v, h =>
    let h1 := hset i (fun s =>
      { s with result := some v, paused := s.paused - 1 }) h
    let h2 := run_callbacks fuel i h1
    (h2, .ok ((hget h2 i).result.getD .vnone))
  | 0, .mdDone _ _, v, h => (h, .ok v)
  | fuel + 1, .mdDone i k, v, h => deferred_done fuel i k v h
termination_by structural fuel _ _ _ => fuel

/-- `Deferred.add_callback(callback, errback=None)`: a missing errback
defaults to `pass_through`; if both arguments are callable the pair is
appended and `_run_callbacks` runs, otherwise `TypeError` is raised
with the queue untouched.  `CbArg.notCallable` stands for any
non-callable argument. -/
def add_callback : Nat → Nat → CbArg → Option CbArg → Heap → Heap × Option Err
  | 0, _, _, _, h => (h, none)
  | fuel + 1, i, cb, ebo, h =>
    let eb := ebo.getD (.callable .passThrough)
    match cb, eb with
    | .callable c, .callable e =>
      let h1 := hset i (fun s =>
        { s with callbacks := s.callbacks ++ [(c, e)] }) h
      (run_callbacks fuel i h1, none)
    | _, _ => (h, some .typeError)
termination_by structural fuel _ _ _ _ => fuel

/-- `Deferred.add_both(callback)`: register the same callable in both
slots (internal callers always pass a callable, so no error arises). -/
def add_both : Nat → Nat → Handler → Heap → Heap
  | 0, _, _, h => h
  | fuel + 1, i, c, h => (add_callback fuel i (.callable c) (some (.callable c)) h).1
termination_by structural fuel _ _ _ => fuel

/-- `Deferred.callback(result)`: reject a `Deferred` argument with
`RuntimeError`, reject a second call with `AlreadyCalledError`;
otherwise store `as_failure(result)`, set `_called` and drain. -/
def deferred_callback : Nat → Nat → V → Heap → Heap × Option Err
  | 0, _, _, h => (h, none)
  | fuel + 1, i, v, h =>
    if v.isDref then (h, some .runtimeError)
    else if (hget h i).called then (h, some .alreadyCalledError)
    else
      let h1 := hset i (fun s =>
        { s with result := some (as_failure v), called := true }) h
      (run_callbacks fuel i h1, none)
termination_by structural fuel _ _ _ => fuel

/-- `MultiDeferred._deferred_done(key, result)`: drop the key from the
pending map, `_setitem` the settled value, and if locked with an empty
pending map and not yet called, `_finish`; the incoming result is
returned (a raised exception propagates to the caller's drain). -/
def deferred_done : Nat → Nat → Key → V → Heap → Heap × Except Err V
  | 0, _, _, v, h => (h, .ok v)
  | fuel + 1, i, k, v, h =>
    let h1 := hset i (fun s =>
      match s.md with
      | none => s
      | some m =>
        { s with md := some { m with
            pending := m.pending.filter (fun p => !(p.1 == k)) } }) h
    let h2 := md_setitem i k v h1
    let d := hget h2 i
    match d.md with
    | none => (h2, .ok v)
    | some m =>
      if m.locked && m.pending.isEmpty && !d.called then
        match md_finish fuel i h2 with
        | (h3, none) => (h3, .ok v)
        | (h3, some e) => (h3, .error e)
      else (h2, .ok v)
termination_by structural fuel _ _ _ _ => fuel

/-- `MultiDeferred._finish`: guarded by `_locked` set and no pending
children (else `RuntimeError`); settle with the `_failures` accumulator
when `fireOnOneErrback` is set and a failure was recorded, else with
the `_stream` container. -/
def md_finish : Nat → Nat → Heap → Heap × Option Err
  | 0, _, h => (h, none)
  | fuel + 1, i, h =>
    let d := hget h i
    match d.md with
    | none => (h, some .runtimeError)
    | some m =>
      if !m.locked then (h, some .runtimeError)
      else if !m.pending.isEmpty then (h, some .runtimeError)
      else if m.fireOnOneErrback && !m.failures.isEmpty then
        deferred_callback fuel i (.fail m.failures) h
      else deferred_callback fuel i (strm_to_v m.stream) h
termination_by structural fuel _ _ => fuel

/-- `MultiDeferred.lock()`: raise `RuntimeError` when already locked;
set `_locked` and `_finish` immediately when nothing is pending. -/
def md_lock : Nat → Nat → Heap → Heap × Option Err
  | 0, _, h => (h, none)
  | fuel + 1, i, h =>
    let d := hget h i
    match d.md with
    | none => (h, some .runtimeError)
    | some m =>
      if m.locked then (h, some .runtimeError)
      else
        let h1 := hset i (fun s =>
          match s.md with
          | none => s
          | some m2 => { s with md := some { m2 with locked := true } }) h
        if m.pending.isEmpty then md_finish fuel i h1 else (h1, none)

/-- `MultiDeferred._add(key, value)`: raise when locked; lift the value
through `maybe_async`; recursively wrap a `dict`/`list` container via
`_make`; apply the `handle_value` hook to non-asynchronous values
(re-adding when it returns a different value, recording `as_failure`
of a raised exception); `_setitem` the value, and for a still
asynchronous value record it in the pending map and attach the
`_deferred_done` continuation with `add_both`
(`_add_deferred`).  (The source's generalised-generator materialisation
has no representable input in this model.) -/
def md_add : Nat → Nat → Key → V → Heap → Heap × Option Err
  | 0, _, _, _, h => (h, none)
  | fuel + 1, i, k, v, h =>
    let d := hget h i
    match d.md with
    | none => (h, some .runtimeError)
    | some m =>
      if m.locked then (h, some .runtimeError)
      else
        let v1 := maybe_async h v
        match (if v1.isContainer then md_make fuel i v1 h else (h, v1, none)) with
        | (h2, _, some e) => (h2, some e)
        | (h2, v2, none) =>
          match m.handleValue, v2.isDref with
          | some hv, false =>
            match hv v2 with
            | .error e => md_store fuel i k (.fail [e]) h2
            | .ok val =>
              if !(V.beq val v2) then md_add fuel i k val h2
              else md_store fuel i k v2 h2
          | _, _ => md_store fuel i k v2 h2
termination_by structural fuel _ _ _ _ => fuel

/-- The tail of `MultiDeferred._add` after the `handle_value` hook:
`_setitem` the value and, when it is still asynchronous,
`_add_deferred` — record the key in the pending map and attach the
`_deferred_done` continuation with `add_both`. -/
def md_store (fuel i : Nat) (k : Key) (vv : V) (hh : Heap) : Heap × Option Err :=
  let h3 := md_setitem i k vv hh
  match vv with
  | .dref j =>
    let h4 := hset i (fun s =>
      match s.md with
      | none => s
      | some mm =>
        { s with md := some { mm with
            pending := mm.pending ++ [(k, j)] } }) h3
    (add_both fuel j (.mdDone i k) h4, none)
  | _ => (h3, none)

/-- `MultiDeferred._make(value)`: build a child `MultiDeferred` over the
container with the parent's `fireOnOneErrback` and `handle_value`,
lock it, and collapse it through `maybe_async`. -/
def md_make : Nat → Nat → V → Heap → Heap × V × Option Err
  | 0, _, v, h => (h, v, none)
  | fuel + 1, i, v, h =>
    match md_new fuel (md_cfg_of (hget h i).md) v h with
    | (h1, _, some e) => (h1, v, some e)
    | (h1, cid, none) =>
      match md_lock fuel cid h1 with
      | (h2, some e) => (h2, v, some e)
      | (h2, none) => (h2, maybe_async h2 (.dref cid), none)
termination_by structural fuel _ _ _ => fuel

/-- `MultiDeferred.__init__(data, ...)`: allocate a fresh multideferred
whose stream type follows the data (`dict` data gives a `dict` stream,
anything else a `list` stream), then `update(data)` for container data
(non-container data does not arise in the verified scenarios). -/
def md_new : Nat → MDCfg → V → Heap → Heap × Nat × Option Err
  | 0, _, _, h => (h, 0, none)
  | fuel + 1, cfg, data, h =>
    match data with
    | .vlist l =>
      match md_update_list fuel h.length 0 l (md_alloc cfg data h) with
      | (h2, e) => (h2, h.length, e)
    | .vdict l =>
      match md_update_dict fuel h.length l (md_alloc cfg data h) with
      | (h2, e) => (h2, h.length, e)
    | _ => (md_alloc cfg data h, h.length, none)
termination_by structural fuel _ _ _ => fuel

/-- `MultiDeferred.update` over `list` data: `_add` each value at its
enumerated index (starting from the current stream length). -/
def md_update_list : Nat → Nat → Nat → List V → Heap → Heap × Option Err
  | 0, _, _, _, h => (h, none)
  | _ + 1, _, _, [], h => (h, none)
  | fuel + 1, cid, start, x :: rest, h =>
    match md_add fuel cid (.ik start) x h with
    | (h1, some e) => (h1, some e)
    | (h1, none) => md_update_list fuel cid (start + 1) rest h1
termination_by structural fuel _ _ _ _ => fuel

/-- `MultiDeferred.update` over `dict` data: `_add` each key-value
pair. -/
def md_update_dict : Nat → Nat → List (String × V) → Heap → Heap × Option Err
  | 0, _, _, h => (h, none)
  | _ + 1, _, [], h => (h, none)
  | fuel + 1, cid, (s, x) :: rest, h =>
    match md_add fuel cid (.sk s) x h with
    | (h1, some e) => (h1, some e)
    | (h1, none) => md_update_dict fuel cid rest h1
termination_by structural fuel _ _ _ => fuel
end

/-- `Deferred.add_errback(errback)`: `add_callback(pass_through, errback)`. -/
def add_errback (fuel i : Nat) (eb : CbArg) (h : Heap) : Heap × Option Err :=
  add_callback fuel i (.callable .passThrough) (some eb) h

/-- `defer.multi_async(iterable, ...)`:
`MultiDeferred(iterable, ...).lock()`; returns the heap, the address of
the multideferred and any raised exception. -/
def multi_async (fuel : Nat) (cfg : MDCfg) (data : V) (h : Heap) :
    Heap × Nat × Option Err :=
  match md_new fuel cfg data h with
  | (h1, cid, some e) => (h1, cid, some e)
  | (h1, cid, none) =>
    match md_lock fuel cid h1 with
    | (h2, e) => (h2, cid, e)

/-! ## `Failure.raise_all` (defer.py, `Failure`)

A `Failure` stores `traces`, a list of `(errorType, errvalue, traceback)`
records.  For `raise_all` only two aspects of a record are observable:
which record it is and whether its error value is an `Exception`
instance; `ErrRec` carries exactly those.  Logging (`self.log()`) has no
observable effect in the model. -/

/-- One record of `Failure.traces`: the error and whether the record's
error value is an `Exception` instance
(`isinstance(self.traces[pos][1], Exception)`). -/
structure ErrRec where
  err : Err
  isExcInstance : Bool
deriving DecidableEq, Repr

/-- What a call to `Failure.raise_all` raises: nothing, a re-raised
record (`raise_error_trace(error, trace)`), or a `DeferredFailure`
whose message reports the count of failures. -/
inductive RaiseOut where
  | noRaise
  | reraise (r : ErrRec)
  | deferredFailureR (n : Nat)
deriving DecidableEq, Repr

/-- The `else` arm of `Failure.raise_all`: raise `DeferredFailure`
reporting the count when there is at least one record, else fall
through (raising nothing). -/
def raise_all_else (traces : List ErrRec) : List ErrRec × RaiseOut :=
  if traces.length = 0 then (traces, .noRaise)
  else (traces, .deferredFailureR traces.length)

/-- `Failure.raise_all(first=True)`: look at the record at position
`pos` (`0` when `first` else `-1`); when the list is nonempty and that
record's error value is an `Exception`, `self.traces.pop()` — which
always removes the **last** record — and re-raise the popped record;
otherwise raise `DeferredFailure` reporting the count (nothing when
empty). -/
def raise_all (first : Bool) (traces : List ErrRec) : List ErrRec × RaiseOut :=
  let pos := if first then traces.head? else traces.getLast?
  match pos with
  | some r =>
    if r.isExcInstance then
      (traces.dropLast, .reraise (traces.getLast?.getD r))
    else raise_all_else traces
  | none => raise_all_else traces

/-! ## `Producer.new_connection` (protocols.py, `Producer`)

The producer's mutable state relevant to `new_connection` is the
`_received` counter and the `_max_connections` cap; the
`_concurrent_connections` set is mutated only by the
`connection_made`/`connection_lost` events, which `new_connection`
merely binds. -/

/-- The `Producer` state: the monotone `_received` counter, the
`_max_connections` cap (0 = no limit) and the keep-alive `timeout`
passed on to new connections. -/
structure Producer where
  received : Nat
  max_connections : Nat
  timeout : Nat
deriving DecidableEq, Repr

/-- The observable identity of a `Connection` built by
`connection_factory(address, session, timeout, consumer_factory,
producer)`: its address token, session number and timeout.  (The
`bind_event`/`copy_many_times_events` wiring installs listeners on the
new connection and is not observable through the claims.) -/
structure ConnRec where
  address : Nat
  session : Nat
  timeout : Nat
deriving DecidableEq, Repr

/-- `Producer.new_connection(address, ...)`: when `max_connections` is
set and `received ≥ max_connections`, raise
`RuntimeError('Too many connections')` leaving the producer unchanged
and building nothing; otherwise increment `received`, use the new value
as the session number and build the connection. -/
def new_connection (p : Producer) (address : Nat) :
    Producer × Option ConnRec × Option Err :=
  if p.max_connections != 0 && decide (p.max_connections ≤ p.received) then
    (p, none, some .runtimeError)
  else
    let session := p.received + 1
    ({ p with received := session },
     some { address := address, session := session, timeout := p.timeout },
     none)

/-! ## `DeferredGenerator._consume` (defer.py)

The driver consumes a Python generator.  A generator is modelled as the
list of events it produces: each `next()` either yields a value
(`yieldv`, or one of the sentinels `NOT_DONE` / `CLEAR_ERRORS`) or
raises an exception (`raiseE`, after which the generator is exhausted:
every further `next()` raises `StopIteration`); an exhausted list
raises `StopIteration`.  Yielded values contain no deferreds in this
model, so `maybe_async` on them reduces to `as_failure`, and the
asynchronous branch of `_check_async` (the timeout/ re-poll path) is
unreachable; `NOT_DONE` posts `self._consume` — with no argument, hence
a `None` last result — back onto the loop, which the single-threaded
model runs immediately. -/

/-- One event of the driven generator. -/
inductive GItem where
  | yieldv (v : V)
  | notDone
  | clearErrors
  | raiseE (e : Err)

/-- Conclusion (`DeferredGenerator.conclude`): the deferred is called
back with the accumulated `errors` if any, else with the last result.
Returns the final error list and the settled value. -/
def conclude (errors : List Err) (last : V) : List Err × V :=
  (errors, if errors.isEmpty then last else .fail errors)

/-- `DeferredGenerator._consume(last_result)` together with
`_check_async` and `should_stop`: a `Failure` last result is appended
to `errors` and concludes the driver when `max_errors` is set and
reached; `StopIteration` (exhausted list) concludes with the last
result; a raised exception is appended, concluding when the threshold
is reached and otherwise continuing (the generator now exhausted, with
a `None` last result); `NOT_DONE` re-enters with a `None` last result;
`CLEAR_ERRORS` clears the accumulated errors and continues with `None`;
any other yielded value becomes, through `as_failure`, the next last
result. -/
def consume (me : Nat) (errors : List Err) (gen : List GItem) (last : V) :
    List Err × V :=
  let errors1 := if last.isFailureB then errors ++ last.failRecs else errors
  if last.isFailureB && (me != 0 && decide (me ≤ errors1.length)) then
    conclude errors1 .vnone
  else
    match gen with
    | [] => conclude errors1 last
    | .raiseE e :: _ =>
      let errors2 := errors1 ++ [e]
      if me != 0 && decide (me ≤ errors2.length) then conclude errors2 .vnone
      else consume me errors2 [] .vnone
    | .notDone :: rest => consume me errors1 rest .vnone
    | .clearErrors :: rest => consume me [] rest .vnone
    | .yieldv v :: rest => consume me errors1 rest (as_failure v)
termination_by gen.length
decreasing_by all_goals (simp_all; try omega)

/-- `DeferredGenerator.__init__`: normalise `max_errors`
(`max(1, max_errors) if max_errors else 0`) and start consuming with no
errors and a `None` last result; the returned pair is the accumulated
error list and the value the driver's deferred settles with. -/
def deferred_generator (gen : List GItem) (max_errors : Nat) : List Err × V :=
  consume (if max_errors != 0 then max 1 max_errors else 0) [] gen .vnone

/-- The error records a driven generator contributes to `errors`, in
order: a yielded value contributes the records of its `as_failure`
image, a raised exception contributes itself and exhausts the
generator, the sentinels contribute nothing. -/
def genErrs : List GItem → List Err
  | [] => []
  | .yieldv v :: rest => (as_failure v).failRecs ++ genErrs rest
  | .notDone :: rest => genErrs rest
  | .clearErrors :: rest => genErrs rest
  | .raiseE e :: _ => [e]

/-- The value `last_result` holds when the generator finally raises
`StopIteration`: each plain yield replaces it by its `as_failure`
image, each sentinel resumption replaces it by `None`. -/
def lastVal : List GItem → V → V
  | [], last => last
  | .yieldv v :: rest, _ => lastVal rest (as_failure v)
  | .notDone :: rest, _ => lastVal rest .vnone
  | .clearErrors :: rest, _ => lastVal rest .vnone
  | .raiseE _ :: _, _ => .vnone

/-- A generator event compatible with counting errors one at a time:
yields are either non-failures or single-record failures, and the
error-discarding `CLEAR_ERRORS` sentinel does not occur. -/
def SingleErrItem : GItem → Prop
  | .yieldv v => (as_failure v).isFailureB = false ∨ ∃ e, as_failure v = .fail [e]
  | .clearErrors => False
  | .notDone => True
  | .raiseE _ => True

/-! ## `Connection.data_received` (protocols.py, `Connection`)

Bytes are lists of `Nat`.  An application consumer is modelled by its
`data_received` behaviour: for each incoming chunk, the leftover bytes
it returns and whether it called `finished()` during the call (which,
via `Connection.finished`, fires `post_request` and the consumer's
`finish` event and clears the connection's current consumer). -/

/-- The observable behaviour of one `ProtocolConsumer`: for each chunk
passed to `data_received`, the returned leftover bytes and whether the
consumer finished (detached) during the call. -/
structure ConsumerBeh where
  step : List Nat → List Nat × Bool

/-- The `Connection` state routed through `data_received`: the current
consumer (with its `_data_received_count`), the factory for new
consumers, the `_processed` counter, the idle-timeout seconds, whether
an idle timeout is armed, and whether the transport is closed. -/
structure ConnState where
  current : Option (ConsumerBeh × Nat)
  consumer_factory : ConsumerBeh
  processed : Nat
  timeout : Nat
  idle_armed : Bool
  closed : Bool

/-- `Connection._add_idle_timeout`: arm the idle timer when the
transport is open, no timer is armed and a timeout is configured. -/
def add_idle_timeout (c : ConnState) : ConnState :=
  if !c.closed && !c.idle_armed && c.timeout != 0 then
    { c with idle_armed := true }
  else c

/-- The `while data:` loop of `Connection.data_received`: with no
current consumer, build one via the factory (which installs itself via
`set_consumer`, incrementing `_processed`); forward the chunk to
`consumer._data_received` (incrementing its counter and running its
behaviour); if leftover bytes remain and a current consumer is still
installed, raise `ProtocolError`, aborting the loop. -/
def data_received_loop (fuel : Nat) (c : ConnState) (data : List Nat) :
    ConnState × Option Err :=
  match fuel with
  | 0 => (c, none)
  | fuel + 1 =>
    match data with
    | [] => (c, none)
    | _ =>
      let (c1, beh, cnt) :=
        match c.current with
        | some (beh, cnt) => (c, beh, cnt)
        | none =>
          let beh := c.consumer_factory
          ({ c with current := some (beh, 0), processed := c.processed + 1 },
           beh, 0)
      let (leftover, fin) := beh.step data
      let c2 := { c1 with current := if fin then none else some (beh, cnt + 1) }
      if !leftover.isEmpty && c2.current.isSome then (c2, some .protocolError)
      else data_received_loop fuel c2 leftover

/-- `Connection.data_received(data)`: cancel any armed idle timeout,
run the routing loop, and re-arm the idle timeout if the loop finished
without raising. -/
def conn_data_received (fuel : Nat) (c : ConnState) (data : List Nat) :
    ConnState × Option Err :=
  let c0 := { c with idle_armed := false }
  match data_received_loop fuel c0 data with
  | (c1, none) => (add_idle_timeout c1, none)
  | (c1, some e) => (c1, some e)

/-! ## Heap infrastructure lemmas

`CalledLe h h2` says every deferred called in `h` is still called in
`h2`; no interpreter operation ever clears a `called` flag
(`called_mono`), which underpins the single-settlement property. -/

/-- Heap evolution never un-calls a deferred. -/
def CalledLe (h h2 : Heap) : Prop :=
  ∀ k, (hget h k).called = true → (hget h2 k).called = true

theorem calledLe_trans {a b c : Heap} (h1 : CalledLe a b) (h2 : CalledLe b c) :
    CalledLe a c := fun k hk => h2 k (h1 k hk)

theorem hget_hset (h : Heap) (i k : Nat) (f : DState → DState) :
    hget (hset i f h) k =
      if i = k ∧ i < h.length then f (hget h i) else hget h k := by
  unfold hget hset
  by_cases hik : i = k
  · subst hik
    by_cases hlen : i < h.length
    · rw [if_pos ⟨rfl, hlen⟩, List.getD_eq_getElem?_getD,
        List.getElem?_set_self hlen]
      rfl
    · rw [if_neg (fun hc => hlen hc.2),
        List.set_eq_of_length_le (Nat.le_of_not_lt hlen)]
  · rw [if_neg (fun hc => hik hc.1), List.getD_eq_getElem?_getD,
      List.getElem?_set_ne hik, ← List.getD_eq_getElem?_getD]

theorem calledLe_hset {i : Nat} {f : DState → DState} (h : Heap)
    (hf : ∀ s, s.called = true → (f s).called = true) :
    CalledLe h (hset i f h) := by
  intro k hk
  rw [hget_hset]
  by_cases hik : i = k ∧ i < h.length
  · rw [if_pos hik]
    exact hf _ (hik.1 ▸ hk)
  · rw [if_neg hik]
    exact hk

theorem calledLe_append (h : Heap) (d : DState) : CalledLe h (h ++ [d]) := by
  intro k hk
  have hlt : k < h.length := by
    by_contra hge
    have hd : hget h k = freshD := by
      unfold hget
      exact List.getD_eq_default _ _ (Nat.le_of_not_lt hge)
    rw [hd] at hk
    simp [freshD] at hk
  unfold hget at *
  rw [List.getD_eq_getElem?_getD, List.getElem?_append_left hlt,
    ← List.getD_eq_getElem?_getD]
  exact hk

/-- Any update of the `md` part of a state keeps the `called` flag. -/
theorem md_update_keeps_called :
    ∀ s : DState, ∀ g : MDPart → MDPart, s.called = true →
      (match s.md with
       | none => s
       | some m => { s with md := some (g m) } : DState).called = true := by
  rintro ⟨c, r, p, ru, cb, md⟩ g hs
  cases md <;> simpa using hs

/-- `_setitem` never changes the `called` flag of any heap member. -/
theorem calledLe_md_setitem (i : Nat) (k : Key) (v : V) (h : Heap) :
    CalledLe h (md_setitem i k v h) := by
  unfold md_setitem
  exact calledLe_hset h (fun s hs => md_update_keeps_called s _ hs)

theorem called_mono (fuel : Nat) :
    (∀ i h, CalledLe h (run_callbacks fuel i h)) ∧
    (∀ i h, CalledLe h (drain_loop fuel i h)) ∧
    (∀ hd v h, CalledLe h (eval_handler fuel hd v h).1) ∧
    (∀ i cb ebo h, CalledLe h (add_callback fuel i cb ebo h).1) ∧
    (∀ i c h, CalledLe h (add_both fuel i c h)) ∧
    (∀ i v h, CalledLe h (deferred_callback fuel i v h).1) ∧
    (∀ i k v h, CalledLe h (deferred_done fuel i k v h).1) ∧
    (∀ i h, CalledLe h (md_finish fuel i h).1) ∧
    (∀ i h, CalledLe h (md_lock fuel i h).1) ∧
    (∀ i k v h, CalledLe h (md_add fuel i k v h).1) ∧
    (∀ i v h, CalledLe h (md_make fuel i v h).1) ∧
    (∀ cfg data h, CalledLe h (md_new fuel cfg data h).1) ∧
    (∀ cid s l h, CalledLe h (md_update_list fuel cid s l h).1) ∧
    (∀ cid l h, CalledLe h (md_update_dict fuel cid l h).1) := by
  induction fuel with
  | zero =>
    refine ⟨fun _ _ => fun k hk => hk, fun _ _ => fun k hk => hk, ?_,
      fun _ _ _ _ => fun k hk => hk, fun _ _ _ => fun k hk => hk,
      fun _ _ _ => fun k hk => hk, fun _ _ _ _ => fun k hk => hk,
      fun _ _ => fun k hk => hk, fun _ _ => fun k hk => hk,
      fun _ _ _ _ => fun k hk => hk, fun _ _ _ => fun k hk => hk,
      fun _ _ _ => fun k hk => hk, fun _ _ _ _ => fun k hk => hk,
      fun _ _ _ => fun k hk => hk⟩
    intro hd v h
    cases hd <;> exact fun k hk => hk
  | succ fuel ih =>
    obtain ⟨ihRun, ihDrain, ihEval, ihAddCb, ihAddBoth, ihDefCb, ihDefDone,
      ihMdFinish, ihMdLock, ihMdAdd, ihMdMake, ihMdNew, ihMdUpdL, ihMdUpdD⟩ := ih
    have hRun : ∀ i h, CalledLe h (run_callbacks (fuel + 1) i h) := by
      intro i h
      simp only [run_callbacks]
      split
      · exact fun k hk => hk
      · exact ihDrain i h
    have hDrain : ∀ i h, CalledLe h (drain_loop (fuel + 1) i h) := by
      intro i h
      simp only [drain_loop]
      split
      · exact fun k hk => hk
      · rename_i cb eb rest heq
        have h01 : CalledLe h (hset i (fun s =>
            { s with callbacks := rest, running := true }) h) :=
          calledLe_hset h (fun s hs => hs)
        split
        · rename_i h2 e heq2
          have h12 : CalledLe (hset i (fun s =>
              { s with callbacks := rest, running := true }) h) h2 := by
            have hh := ihEval
              (if ((hget h i).result.getD V.vnone).isFailureB then eb else cb)
              ((hget h i).result.getD V.vnone)
              (hset i (fun s =>
                { s with callbacks := rest, running := true }) h)
            rw [heq2] at hh
            exact hh
          have hB : CalledLe h
              (hset i (fun s => { s with running := false }) h2) :=
            calledLe_trans (calledLe_trans h01 h12)
              (calledLe_hset h2 (fun s hs => hs))
          have hC : CalledLe h (add_exception i e
              (hset i (fun s => { s with running := false }) h2)) :=
            calledLe_trans hB (calledLe_hset _ (fun s hs => hs))
          exact calledLe_trans hC (ihDrain i _)
        · rename_i h2 v heq2
          have h12 : CalledLe (hset i (fun s =>
              { s with callbacks := rest, running := true }) h) h2 := by
            have hh := ihEval
              (if ((hget h i).result.getD V.vnone).isFailureB then eb else cb)
              ((hget h i).result.getD V.vnone)
              (hset i (fun s =>
                { s with callbacks := rest, running := true }) h)
            rw [heq2] at hh
            exact hh
          have hA : CalledLe h h2 := calledLe_trans h01 h12
          have hB : CalledLe h
              (hset i (fun s => { s with running := false }) h2) :=
            calledLe_trans hA (calledLe_hset h2 (fun s hs => hs))
          have hC : CalledLe h
              (hset i (fun s => { s with result := some (maybe_async h2 v) })
                (hset i (fun s => { s with running := false }) h2)) :=
            calledLe_trans hB (calledLe_hset _ (fun s hs => hs))
          split
          · rename_i j heqv
            have hD : CalledLe h
                (hset i (fun s => { s with paused := s.paused + 1 })
                  (hset i (fun s => { s with result := some (maybe_async h2 v) })
                    (hset i (fun s => { s with running := false }) h2))) :=
              calledLe_trans hC (calledLe_hset _ (fun s hs => hs))
            exact calledLe_trans hD (ihAddBoth j (.cont i) _)
          · exact calledLe_trans hC (ihDrain i _)
    have hEval : ∀ hd v h, CalledLe h (eval_handler (fuel + 1) hd v h).1 := by
      intro hd v h
      cases hd with
      | passThrough => exact fun k hk => hk
      | hfun f => exact fun k hk => hk
      | cont j =>
        simp only [eval_handler]
        have hB : CalledLe h (hset j (fun s =>
            { s with result := some v, paused := s.paused - 1 }) h) :=
          calledLe_hset h (fun s hs => hs)
        exact calledLe_trans hB (ihRun j _)
      | mdDone j kk =>
        simp only [eval_handler]
        exact ihDefDone j kk v h
    have hAddCb : ∀ i cb ebo h, CalledLe h (add_callback (fuel + 1) i cb ebo h).1 := by
      intro i cb ebo h
      simp only [add_callback]
      split
      · rename_i c e heq
        have hB : CalledLe h (hset i (fun s =>
            { s with callbacks := s.callbacks ++ [(c, e)] }) h) :=
          calledLe_hset h (fun s hs => hs)
        exact calledLe_trans hB (ihRun i _)
      · exact fun k hk => hk
    have hAddBoth : ∀ i c h, CalledLe h (add_both (fuel + 1) i c h) := by
      intro i c h
      simp only [add_both]
      exact ihAddCb i _ _ h
    have hDefCb : ∀ i v h, CalledLe h (deferred_callback (fuel + 1) i v h).1 := by
      intro i v h
      simp only [deferred_callback]
      split
      · exact fun k hk => hk
      · split
        · exact fun k hk => hk
        · have hB : CalledLe h (hset i (fun s =>
              { s with result := some (as_failure v), called := true }) h) :=
            calledLe_hset h (fun s _ => rfl)
          exact calledLe_trans hB (ihRun i _)
    have hDefDone : ∀ i k v h, CalledLe h (deferred_done (fuel + 1) i k v h).1 := by
      intro i k v h
      simp only [deferred_done]
      have h01 : CalledLe h (hset i (fun s =>
          match s.md with
          | none => s
          | some m =>
            { s with md := some { m with
                pending := m.pending.filter (fun p => !(p.1 == k)) } }) h) :=
        calledLe_hset h (fun s hs => md_update_keeps_called s _ hs)
      have h02 : CalledLe h (md_setitem i k v (hset i (fun s =>
          match s.md with
          | none => s
          | some m =>
            { s with md := some { m with
                pending := m.pending.filter (fun p => !(p.1 == k)) } }) h)) :=
        calledLe_trans h01
          (calledLe_hset _ (fun s hs => md_update_keeps_called s _ hs))
      split
      · exact h02
      · rename_i m hm
        split
        · split
          · rename_i h3 heq3
            have h23 : CalledLe (md_setitem i k v (hset i (fun s =>
                match s.md with
                | none => s
                | some m =>
                  { s with md := some { m with
                      pending := m.pending.filter (fun p => !(p.1 == k)) } }) h)) h3 := by
              have hh := ihMdFinish i (md_setitem i k v (hset i (fun s =>
                match s.md with
                | none => s
                | some m =>
                  { s with md := some { m with
                      pending := m.pending.filter (fun p => !(p.1 == k)) } }) h))
              rw [heq3] at hh
              exact hh
            exact calledLe_trans h02 h23
          · rename_i h3 e heq3
            have h23 : CalledLe (md_setitem i k v (hset i (fun s =>
                match s.md with
                | none => s
                | some m =>
                  { s with md := some { m with
                      pending := m.pending.filter (fun p => !(p.1 == k)) } }) h)) h3 := by
              have hh := ihMdFinish i (md_setitem i k v (hset i (fun s =>
                match s.md with
                | none => s
                | some m =>
                  { s with md := some { m with
                      pending := m.pending.filter (fun p => !(p.1 == k)) } }) h))
              rw [heq3] at hh
              exact hh
            exact calledLe_trans h02 h23
        · exact h02
    have hMdFinish : ∀ i h, CalledLe h (md_finish (fuel + 1) i h).1 := by
      intro i h
      simp only [md_finish]
      split
      · exact fun k hk => hk
      · split
        · exact fun k hk => hk
        · split
          · exact fun k hk => hk
          · split
            · exact ihDefCb i _ h
            · exact ihDefCb i _ h
    have hMdLock : ∀ i h, CalledLe h (md_lock (fuel + 1) i h).1 := by
      intro i h
      simp only [md_lock]
      split
      · exact fun k hk => hk
      · split
        · exact fun k hk => hk
        · have hB : CalledLe h (hset i (fun s =>
              match s.md with
              | none => s
              | some m2 => { s with md := some { m2 with locked := true } }) h) :=
            calledLe_hset h (fun s hs => md_update_keeps_called s _ hs)
          split
          · exact calledLe_trans hB (ihMdFinish i _)
          · exact hB
    have hMdStoreIH : ∀ j kk vv hh, CalledLe hh (md_store fuel j kk vv hh).1 := by
      intro j kk vv hh
      simp only [md_store]
      split
      · rename_i jj
        have hB : CalledLe hh (md_setitem j kk (V.dref jj) hh) :=
          calledLe_md_setitem j kk (V.dref jj) hh
        have hC : CalledLe hh (hset j (fun s =>
            match s.md with
            | none => s
            | some mm => { s with md := some { mm with
                pending := mm.pending ++ [(kk, jj)] } })
            (md_setitem j kk (V.dref jj) hh)) :=
          calledLe_trans hB
            (calledLe_hset _ (fun s hs => md_update_keeps_called s _ hs))
        exact calledLe_trans hC (ihAddBoth jj (.mdDone j kk) _)
      · exact calledLe_md_setitem j kk _ hh
    have hMdAdd : ∀ i k v h, CalledLe h (md_add (fuel + 1) i k v h).1 := by
      intro i k v h
      simp only [md_add]
      split
      · exact fun kk hk => hk
      · rename_i m hm
        split
        · exact fun kk hk => hk
        · have hIf : CalledLe h ((if (maybe_async h v).isContainer then
              md_make fuel i (maybe_async h v) h
              else (h, maybe_async h v, none)) : Heap × V × Option Err).1 := by
            split
            · exact ihMdMake i _ h
            · exact fun kk hk => hk
          split
          · rename_i h2 vx e heqm
            rw [heqm] at hIf
            exact hIf
          · rename_i h2 v2 heqm
            have hA : CalledLe h h2 := by rw [heqm] at hIf; exact hIf
            split
            · rename_i hv hhv hdref
              split
              · exact calledLe_trans hA (hMdStoreIH i k _ h2)
              · split
                · exact calledLe_trans hA (ihMdAdd i k _ h2)
                · exact calledLe_trans hA (hMdStoreIH i k _ h2)
            · exact calledLe_trans hA (hMdStoreIH i k _ h2)
    have hMdMake : ∀ i v h, CalledLe h (md_make (fuel + 1) i v h).1 := by
      intro i v h
      simp only [md_make]
      split
      · rename_i h1 x e heqn
        have hh := ihMdNew (md_cfg_of (hget h i).md) v h
        rw [heqn] at hh
        exact hh
      · rename_i h1 cid heqn
        have hh1 : CalledLe h h1 := by
          have hh := ihMdNew (md_cfg_of (hget h i).md) v h
          rw [heqn] at hh
          exact hh
        split
        · rename_i h2 e heql
          have hh2 := ihMdLock cid h1
          rw [heql] at hh2
          exact calledLe_trans hh1 hh2
        · rename_i h2 heql
          have hh2 := ihMdLock cid h1
          rw [heql] at hh2
          exact calledLe_trans hh1 hh2
    have hMdNew : ∀ cfg data h, CalledLe h (md_new (fuel + 1) cfg data h).1 := by
      intro cfg data h
      simp only [md_new]
      split
      · rename_i l
        rcases heqU : md_update_list fuel h.length 0 l (md_alloc cfg (V.vlist l) h)
          with ⟨h2, e⟩
        have hh := ihMdUpdL h.length 0 l (md_alloc cfg (V.vlist l) h)
        rw [heqU] at hh
        exact calledLe_trans (calledLe_append h _) hh
      · rename_i l
        rcases heqU : md_update_dict fuel h.length l (md_alloc cfg (V.vdict l) h)
          with ⟨h2, e⟩
        have hh := ihMdUpdD h.length l (md_alloc cfg (V.vdict l) h)
        rw [heqU] at hh
        exact calledLe_trans (calledLe_append h _) hh
      · exact calledLe_append h _
    have hMdUpdL : ∀ cid s l h, CalledLe h (md_update_list (fuel + 1) cid s l h).1 := by
      intro cid s l h
      cases l with
      | nil => exact fun k hk => hk
      | cons x rest =>
        simp only [md_update_list]
        split
        · rename_i h1 e heqA
          have hh := ihMdAdd cid (.ik s) x h
          rw [heqA] at hh
          exact hh
        · rename_i h1 heqA
          have hh := ihMdAdd cid (.ik s) x h
          rw [heqA] at hh
          exact calledLe_trans hh (ihMdUpdL cid (s + 1) rest h1)
    have hMdUpdD : ∀ cid l h, CalledLe h (md_update_dict (fuel + 1) cid l h).1 := by
      intro cid l h
      cases l with
      | nil => exact fun k hk => hk
      | cons x rest =>
        simp only [md_update_dict]
        split
        · rename_i h1 e heqA
          have hh := ihMdAdd cid (.sk x.1) x.2 h
          rw [heqA] at hh
          exact hh
        · rename_i h1 heqA
          have hh := ihMdAdd cid (.sk x.1) x.2 h
          rw [heqA] at hh
          exact calledLe_trans hh (ihMdUpdD cid rest h1)
    exact ⟨hRun, hDrain, hEval, hAddCb, hAddBoth, hDefCb, hDefDone,
      hMdFinish, hMdLock, hMdAdd, hMdMake, hMdNew, hMdUpdL, hMdUpdD⟩

/-! ## Theorems -/

/-- C5, counterexample to the claim as stated: on a `Failure` holding
two exception records, `raise_all(first=True)` consults the first
record but pops and re-raises the **last** one (`self.traces.pop()`
pops from the tail); and on an empty `Failure` nothing at all is
raised (the `N == 0` case falls through both `DeferredFailure`
branches). -/
theorem raise_all_c5_counterexample :
    (raise_all true [⟨.other 1, true⟩, ⟨.other 2, true⟩]).2
      = .reraise ⟨.other 2, true⟩ ∧
    (⟨.other 2, true⟩ : ErrRec) ≠ ⟨.other 1, true⟩ ∧
    (raise_all true []).2 = .noRaise := by
  decide

/-- C5, amended: `raise_all` consults the record at the chosen position
(first when `first=True`, else last); if the list is nonempty and that
record's value is an exception it pops and re-raises the **last**
record (so only `first=False` removes and re-raises the consulted
record); if the list is nonempty and the consulted record's value is
not an exception it raises `DeferredFailure` reporting the count; on an
empty `Failure` it raises nothing. -/
theorem raise_all_c5_amended (l : List ErrRec) :
    (l = [] →
      raise_all true l = ([], .noRaise) ∧ raise_all false l = ([], .noRaise)) ∧
    (∀ a b, l.head? = some a → l.getLast? = some b →
      (a.isExcInstance = true →
        raise_all true l = (l.dropLast, .reraise b)) ∧
      (b.isExcInstance = true →
        raise_all false l = (l.dropLast, .reraise b)) ∧
      (a.isExcInstance = false →
        raise_all true l = (l, .deferredFailureR l.length)) ∧
      (b.isExcInstance = false →
        raise_all false l = (l, .deferredFailureR l.length))) := by
  constructor
  · rintro rfl
    constructor <;> rfl
  · intro a b ha hb
    have hne : l ≠ [] := by rintro rfl; simp at ha
    have hlen : l.length ≠ 0 := by
      cases l with
      | nil => exact absurd rfl hne
      | cons x xs => simp
    have helse : raise_all_else l = (l, .deferredFailureR l.length) := by
      simp [raise_all_else, hlen]
    refine ⟨?_, ?_, ?_, ?_⟩ <;> intro hexc <;>
      simp [raise_all, ha, hb, hexc, helse]

/-- C5, witness for the amended theorem at a concrete two-record
failure: `first=True` pops and re-raises the last record. -/
theorem raise_all_c5_amended_witness :
    raise_all true [⟨.other 1, true⟩, ⟨.other 2, true⟩]
      = ([⟨.other 1, true⟩], .reraise ⟨.other 2, true⟩) := by
  have h := (raise_all_c5_amended [⟨.other 1, true⟩, ⟨.other 2, true⟩]).2
    ⟨.other 1, true⟩ ⟨.other 2, true⟩ rfl rfl
  exact h.1 rfl

/-- The `Producer` obtained from a fresh producer capped at `M` after
`k` calls to `new_connection` (address token 0). -/
def connect_iter (M : Nat) : Nat → Producer
  | 0 => { received := 0, max_connections := M, timeout := 0 }
  | k + 1 => (new_connection (connect_iter M k) 0).1

/-- Along the iteration below the cap, `received` counts the calls. -/
theorem connect_iter_received (M k : Nat) (hk : k ≤ M) :
    connect_iter M k = { received := k, max_connections := M, timeout := 0 } := by
  induction k with
  | zero => rfl
  | succ n ih =>
    have hn : n ≤ M := Nat.le_of_succ_le hk
    have : ¬ M ≤ n := Nat.not_le.mpr (Nat.lt_of_succ_le hk)
    simp [connect_iter, ih hn, new_connection, this]

/-- C7: with `max_connections = M > 0`, every call below the cap
increments `received` by one and uses the new value as the session
number of the connection it builds; along the iteration from a fresh
producer the `k`-th call (k < M) succeeds with session `k + 1`, and
the `(M+1)`-th call raises `RuntimeError('Too many connections')`
leaving `received` unchanged and building no connection. -/
theorem new_connection_c7 (M k : Nat) (p : Producer) (addr : Nat)
    (hM : 0 < M) (hk : k < M) :
    (¬(p.max_connections ≠ 0 ∧ p.max_connections ≤ p.received) →
      new_connection p addr =
        ({ p with received := p.received + 1 },
         some { address := addr, session := p.received + 1,
                timeout := p.timeout }, none)) ∧
    new_connection (connect_iter M k) 0 =
      ({ received := k + 1, max_connections := M, timeout := 0 },
       some { address := 0, session := k + 1, timeout := 0 }, none) ∧
    new_connection (connect_iter M M) 0 =
      ({ received := M, max_connections := M, timeout := 0 },
       none, some .runtimeError) := by
  refine ⟨?_, ?_, ?_⟩
  · intro hok
    cases hg : (p.max_connections != 0 && decide (p.max_connections ≤ p.received)) with
    | false => simp [new_connection, hg]
    | true =>
      exfalso
      simp only [Bool.and_eq_true, bne_iff_ne, decide_eq_true_eq] at hg
      exact hok hg
  · rw [connect_iter_received M k (Nat.le_of_lt hk)]
    have : ¬ M ≤ k := Nat.not_le.mpr hk
    simp [new_connection, this]
  · rw [connect_iter_received M M (Nat.le_refl M)]
    have hM0 : M ≠ 0 := by omega
    simp [new_connection, hM0]

/-- C7, witness at `M = 2`: the two calls under the cap succeed with
sessions 1 and 2, the third fails with the producer unchanged. -/
theorem new_connection_c7_witness :
    new_connection (connect_iter 2 1) 0 =
      ({ received := 2, max_connections := 2, timeout := 0 },
       some { address := 0, session := 2, timeout := 0 }, none) ∧
    new_connection (connect_iter 2 2) 0 =
      ({ received := 2, max_connections := 2, timeout := 0 },
       none, some .runtimeError) :=
  ⟨(new_connection_c7 2 1 ⟨0, 2, 0⟩ 0 (by decide) (by decide)).2.1,
   (new_connection_c7 2 1 ⟨0, 2, 0⟩ 0 (by decide) (by decide)).2.2⟩

/-- C9: whenever an iteration of `Connection.data_received` forwards a
nonempty chunk to the current consumer and the consumer returns
nonempty leftover bytes without having finished (so it is still the
current consumer), the call raises `ProtocolError`. -/
theorem data_received_c9 (fuel : Nat) (c : ConnState)
    (data leftover : List Nat) (beh : ConsumerBeh) (cnt : Nat)
    (hcur : c.current = some (beh, cnt)) (hdata : data ≠ [])
    (hstep : beh.step data = (leftover, false)) (hleft : leftover ≠ []) :
    conn_data_received (fuel + 1) c data = (
      { c with idle_armed := false,
               current := some (beh, cnt + 1) }, some .protocolError) := by
  have hloop : data_received_loop (fuel + 1) { c with idle_armed := false } data =
      ({ c with idle_armed := false, current := some (beh, cnt + 1) },
       some .protocolError) := by
    cases data with
    | nil => exact absurd rfl hdata
    | cons x xs =>
      simp [data_received_loop, hcur, hstep, hleft]
  simp [conn_data_received, hloop]

/-- C9, witness: an echoing consumer (returns its input, never
finishes) on one byte triggers the `ProtocolError`. -/
theorem data_received_c9_witness :
    conn_data_received 1
      { current := some (⟨fun d => (d, false)⟩, 0),
        consumer_factory := ⟨fun d => (d, false)⟩,
        processed := 1, timeout := 0, idle_armed := false, closed := false }
      [1] = (
      { current := some (⟨fun d => (d, false)⟩, 1),
        consumer_factory := ⟨fun d => (d, false)⟩,
        processed := 1, timeout := 0, idle_armed := false, closed := false },
      some .protocolError) :=
  data_received_c9 0 _ [1] [1] ⟨fun d => (d, false)⟩ 0 rfl
    (by simp) rfl (by simp)

/-- C10: `Deferred.add_callback` with a non-callable callback or a
supplied non-callable errback raises `TypeError` and returns the heap
exactly as it was: no pair is appended anywhere and no draining
occurs. -/
theorem add_callback_c10 (fuel i : Nat) (cb : CbArg) (ebo : Option CbArg)
    (h : Heap) (hbad : cb = .notCallable ∨ ebo = some .notCallable) :
    add_callback (fuel + 1) i cb ebo h = (h, some .typeError) := by
  rcases hbad with hcb | heb
  · subst hcb
    cases heb : (ebo.getD (.callable .passThrough)) <;>
      simp [add_callback, heb]
  · subst heb
    cases cb <;> simp [add_callback]

/-- C10, witness: a non-callable callback on a fresh deferred. -/
theorem add_callback_c10_witness :
    add_callback 1 0 .notCallable none [freshD] = ([freshD], some .typeError) :=
  add_callback_c10 0 0 .notCallable none [freshD] (Or.inl rfl)

/-- C1: a first `Deferred.callback(v)` on an uncalled deferred (with a
non-deferred argument) raises nothing; a second `callback(w)` on the
resulting heap raises `AlreadyCalledError` and leaves the heap exactly
as it was; and `callback` with a `Deferred` argument raises
`RuntimeError` leaving the heap exactly as it was — in particular it
leaves the deferred unsettled. -/
theorem callback_c1 (fuel fuel2 i j : Nat) (v w : V) (h : Heap)
    (hv : v.isDref = false) (hw : w.isDref = false)
    (hnc : (hget h i).called = false) (hlen : i < h.length) :
    (deferred_callback (fuel + 1) i v h).2 = none ∧
    (deferred_callback (fuel2 + 1) i w (deferred_callback (fuel + 1) i v h).1).2
      = some .alreadyCalledError ∧
    (deferred_callback (fuel2 + 1) i w (deferred_callback (fuel + 1) i v h).1).1
      = (deferred_callback (fuel + 1) i v h).1 ∧
    deferred_callback (fuel + 1) i (V.dref j) h = (h, some .runtimeError) := by
  have hcalled : (hget (deferred_callback (fuel + 1) i v h).1 i).called = true := by
    simp only [deferred_callback, hv, Bool.false_eq_true, if_false, hnc]
    have hbase : (hget (hset i (fun s =>
        { s with result := some (as_failure v), called := true }) h) i).called
        = true := by
      rw [hget_hset]
      simp [hlen]
    exact (called_mono fuel).1 i _ i hbase
  refine ⟨?_, ?_, ?_, ?_⟩
  · simp [deferred_callback, hv, hnc]
  · set H1 := (deferred_callback (fuel + 1) i v h).1 with hH1
    simp only [deferred_callback, hw, Bool.false_eq_true, if_false, hcalled,
      if_true]
  · set H1 := (deferred_callback (fuel + 1) i v h).1 with hH1
    simp only [deferred_callback, hw, Bool.false_eq_true, if_false, hcalled,
      if_true]
  · simp [deferred_callback, V.isDref]

/-- C1, witness: a fresh deferred, first callback with 5 succeeds, the
second with 6 raises `AlreadyCalledError` without touching the heap,
and a deferred argument raises `RuntimeError` leaving the heap as it
was. -/
theorem callback_c1_witness :
    (deferred_callback 1 0 (V.vint 5) [freshD]).2 = none ∧
    (deferred_callback 1 0 (V.vint 6) (deferred_callback 1 0 (V.vint 5) [freshD]).1).2
      = some .alreadyCalledError ∧
    (deferred_callback 1 0 (V.vint 6) (deferred_callback 1 0 (V.vint 5) [freshD]).1).1
      = (deferred_callback 1 0 (V.vint 5) [freshD]).1 ∧
    deferred_callback 1 0 (V.dref 0) [freshD] = ([freshD], some .runtimeError) :=
  callback_c1 0 0 0 0 (V.vint 5) (V.vint 6) [freshD] rfl rfl rfl (by decide)


/-- Reading the written cell after `hset` (in range). -/
theorem hget_hset_self {i : Nat} {h : Heap} (f : DState → DState)
    (hlen : i < h.length) : hget (hset i f h) i = f (hget h i) := by
  rw [hget_hset]
  simp [hlen]

/-- `hset` preserves the heap size. -/
theorem hset_length (i : Nat) (f : DState → DState) (h : Heap) :
    (hset i f h).length = h.length := by
  unfold hset
  exact List.length_set h i _

/-- Out-of-range reads give a fresh deferred. -/
theorem hget_oob {i : Nat} {h : Heap} (hge : h.length ≤ i) : hget h i = freshD :=
  List.getD_eq_default _ _ hge

/-- Application of a pure chain handler (`pass_through` or an
application-supplied callable). -/
def happ : Handler → V → Except Err V
  | .passThrough, v => .ok v
  | .hfun f, v => f v
  | _, v => .ok v

/-- A callable that never returns a `Deferred`. -/
def NoDrefF (f : V → Except Err V) : Prop :=
  ∀ v w, f v = .ok w → w.isDref = false

/-- Handlers that neither touch the heap nor return deferreds: the
pure fragment over which the callback chain behaves as a fold. -/
def PureH : Handler → Prop
  | .passThrough => True
  | .hfun f => NoDrefF f
  | _ => False

/-- One chain step as the specification states it: select the errback
exactly when the current result is a `Failure`, run the handler, lift
its output through `as_failure`; a raised exception is appended to the
current `Failure` result (or promotes it to one). -/
def drain_spec_step (r : V) (p : Handler × Handler) : V :=
  match happ (if r.isFailureB then p.2 else p.1) r with
  | .ok w => as_failure w
  | .error e =>
    match r with
    | .fail l => .fail (l ++ [e])
    | _ => .fail [e]

/-- The specification of a full drain over pure handlers: the left
fold of `drain_spec_step`, i.e. each handler receives the output of its
predecessor. -/
def drain_spec (r : V) (ps : List (Handler × Handler)) : V :=
  ps.foldl drain_spec_step r

/-- Pure handlers evaluate without touching the heap, at any fuel. -/
theorem eval_handler_pure (fuel : Nat) (hd : Handler) (v : V) (h : Heap)
    (hp : PureH hd) : eval_handler fuel hd v h = (h, happ hd v) := by
  cases hd with
  | passThrough => cases fuel <;> rfl
  | hfun f => cases fuel <;> rfl
  | cont j => exact hp.elim
  | mdDone j k => exact hp.elim

/-- `maybe_async` on a non-deferred value is `as_failure`. -/
theorem maybe_async_not_dref (h : Heap) (v : V) (hd : v.isDref = false) :
    maybe_async h v = as_failure v := by
  cases v <;> simp_all [maybe_async, V.isDref]

/-- `as_failure` cannot create a deferred reference. -/
theorem as_failure_not_dref (v : V) (hd : v.isDref = false) :
    (as_failure v).isDref = false := by
  cases v <;> simp_all [as_failure, V.isDref]

/-- Pure handler outputs are never deferred references. -/
theorem happ_not_dref {hd : Handler} {r w : V} (hp : PureH hd)
    (hr : r.isDref = false) (hw : happ hd r = .ok w) : w.isDref = false := by
  cases hd with
  | passThrough =>
    simp only [happ] at hw
    cases hw
    exact hr
  | hfun f => exact hp r w hw
  | cont j => exact hp.elim
  | mdDone j k => exact hp.elim

/-- The specification step keeps values non-deferred. -/
theorem drain_spec_step_not_dref {r : V} (p : Handler × Handler)
    (hp1 : PureH p.1) (hp2 : PureH p.2) (hr : r.isDref = false) :
    (drain_spec_step r p).isDref = false := by
  unfold drain_spec_step
  cases hap : happ (if r.isFailureB then p.2 else p.1) r with
  | ok w =>
    have hpp : PureH (if r.isFailureB then p.2 else p.1) := by
      split
      · exact hp2
      · exact hp1
    exact as_failure_not_dref w (happ_not_dref hpp hr hap)
  | error e =>
    cases r <;> simp [V.isDref]

/-- The drain loop of `_run_callbacks`, over pure handlers, computes
exactly the specification fold `drain_spec` and empties the queue. -/
theorem drain_loop_pure (ps : List (Handler × Handler)) :
    ∀ (i : Nat) (h : Heap) (r : V),
    (hget h i).called = true → (hget h i).running = false →
    (hget h i).paused = 0 → (hget h i).callbacks = ps →
    (hget h i).result = some r → r.isDref = false →
    (∀ p ∈ ps, PureH p.1 ∧ PureH p.2) →
    (hget (drain_loop ps.length i h) i).result = some (drain_spec r ps) ∧
    (hget (drain_loop ps.length i h) i).callbacks = [] ∧
    (hget (drain_loop ps.length i h) i).called = true := by
  induction ps with
  | nil =>
    intro i h r hc hru hp hcb hres hrd hpure
    exact ⟨by simpa [drain_loop, drain_spec] using hres,
      by simpa [drain_loop] using hcb, by simpa [drain_loop] using hc⟩
  | cons p rest ih =>
    intro i h r hc hru hp hcb hres hrd hpure
    have hlen : i < h.length := by
      by_contra hge
      rw [hget_oob (Nat.le_of_not_lt hge)] at hc
      simp [freshD] at hc
    obtain ⟨hp1, hp2⟩ := hpure p (List.mem_cons_self p rest)
    have hpure2 : ∀ q ∈ rest, PureH q.1 ∧ PureH q.2 :=
      fun q hq => hpure q (List.mem_cons_of_mem p hq)
    have hpp : PureH (if r.isFailureB then p.2 else p.1) := by
      split
      · exact hp2
      · exact hp1
    have hstep : drain_spec r (p :: rest) = drain_spec (drain_spec_step r p) rest := by
      simp [drain_spec]
    simp only [List.length_cons, drain_loop, hcb, hres, Option.getD_some]
    rw [eval_handler_pure rest.length _ r _ hpp]
    have hlen1 : i < (hset i (fun s =>
        { s with callbacks := rest, running := true }) h).length := by
      rw [hset_length]; exact hlen
    have hlen2 : i < (hset i (fun s => { s with running := false })
        (hset i (fun s => { s with callbacks := rest, running := true }) h)).length := by
      rw [hset_length, hset_length]; exact hlen
    cases hap : happ (if r.isFailureB then p.2 else p.1) r with
    | error e =>
      have hspec : drain_spec_step r p = (match r with
          | .fail l => .fail (l ++ [e])
          | _ => .fail [e]) := by
        unfold drain_spec_step
        rw [hap]
        cases r <;> rfl
      set H3 := add_exception i e
          (hset i (fun s => { s with running := false })
            (hset i (fun s => { s with callbacks := rest, running := true }) h))
        with hH3
      have hg3 : hget H3 i
          = { hget h i with
              callbacks := rest, running := false,
              result := some (drain_spec_step r p) } := by
        rw [hH3]
        unfold add_exception
        rw [hget_hset_self _ hlen2, hget_hset_self _ hlen1,
          hget_hset_self _ hlen, hres, hspec]
        cases r <;> simp
      have hih := ih i H3 (drain_spec_step r p)
        (by rw [hg3]; exact hc) (by rw [hg3]) (by rw [hg3]; exact hp)
        (by rw [hg3]) (by rw [hg3])
        (drain_spec_step_not_dref p hp1 hp2 hrd) hpure2
      rw [hstep]
      exact hih
    | ok w =>
      have hwd : w.isDref = false := happ_not_dref hpp hrd hap
      have hma : maybe_async (hset i (fun s =>
          { s with callbacks := rest, running := true }) h) w = as_failure w :=
        maybe_async_not_dref _ w hwd
      dsimp only
      rw [hma]
      have hspec : drain_spec_step r p = as_failure w := by
        unfold drain_spec_step
        rw [hap]
      set H4 := hset i (fun s => { s with result := some (as_failure w) })
          (hset i (fun s => { s with running := false })
            (hset i (fun s => { s with callbacks := rest, running := true }) h))
        with hH4
      have hg4 : hget H4 i
          = { hget h i with
              callbacks := rest, running := false,
              result := some (as_failure w) } := by
        rw [hH4, hget_hset_self _ hlen2, hget_hset_self _ hlen1,
          hget_hset_self _ hlen]
      have hnd : (as_failure w).isDref = false := as_failure_not_dref w hwd
      have hih := ih i H4 (as_failure w)
        (by rw [hg4]; exact hc) (by rw [hg4]) (by rw [hg4]; exact hp)
        (by rw [hg4]) (by rw [hg4]) hnd hpure2
      rw [hstep, hspec]
      split
      · rename_i j hw
        rw [hw] at hnd
        simp [V.isDref] at hnd
      · exact hih

/-- Consecutive writes to one cell compose. -/
theorem hset_hset (i : Nat) (f g : DState → DState) (h : Heap) :
    hset i f (hset i g h) = hset i (fun s => f (g s)) h := by
  by_cases hlen : i < h.length
  · unfold hset
    rw [List.set_set]
    congr 1
    rw [← hset, hget_hset_self g hlen]
  · unfold hset
    rw [List.set_eq_of_length_le (Nat.le_of_not_lt hlen),
      List.set_eq_of_length_le (Nat.le_of_not_lt hlen),
      List.set_eq_of_length_le (Nat.le_of_not_lt hlen)]

/-- `hset` respects pointwise-equal updates. -/
theorem hset_congr (i : Nat) {f g : DState → DState} (h : Heap)
    (hfg : ∀ s, f s = g s) : hset i f h = hset i g h := by
  unfold hset
  rw [hfg]

/-- `_run_callbacks` on an uncalled deferred does nothing. -/
theorem run_callbacks_not_called (fuel i : Nat) (h : Heap)
    (hnc : (hget h i).called = false) : run_callbacks fuel i h = h := by
  cases fuel with
  | zero => rfl
  | succ fuel => simp [run_callbacks, hnc]

/-- Registration of a chain of (callback, errback) pairs through
`Deferred.add_callback`, in order. -/
def add_chain (fuel i : Nat) (ps : List (Handler × Handler)) (h : Heap) : Heap :=
  ps.foldl (fun hh p =>
    (add_callback fuel i (.callable p.1) (some (.callable p.2)) hh).1) h

/-- `add_callback` on an uncalled deferred appends the pair and raises
nothing; the immediate `_run_callbacks` is a no-op. -/
theorem add_callback_not_called (fuel i : Nat) (c e : Handler) (h : Heap)
    (hnc : (hget h i).called = false) :
    add_callback (fuel + 1) i (.callable c) (some (.callable e)) h
      = (hset i (fun s => { s with callbacks := s.callbacks ++ [(c, e)] }) h,
         none) := by
  simp only [add_callback, Option.getD_some]
  rw [run_callbacks_not_called]
  by_cases hlen : i < h.length
  · rw [hget_hset_self _ hlen]
    exact hnc
  · rw [hget_hset]
    simp [hlen, hnc]

/-- Writing a cell back unchanged is a no-op. -/
theorem hset_id {f : DState → DState} (i : Nat) (h : Heap)
    (hf : ∀ s, f s = s) : hset i f h = h := by
  unfold hset
  rw [hf]
  by_cases hlen : i < h.length
  · unfold hget
    rw [List.getD_eq_getElem _ _ hlen]
    apply List.ext_getElem
    · simp
    · intro n h1 h2
      rw [List.getElem_set]
      split
      · simp_all
      · rfl
  · exact List.set_eq_of_length_le (Nat.le_of_not_lt hlen)

/-- Registering a chain on an uncalled deferred just appends the pairs
in order. -/
theorem add_chain_spec (fuel i : Nat) (ps : List (Handler × Handler)) :
    ∀ h : Heap, (hget h i).called = false →
    add_chain (fuel + 1) i ps h
      = hset i (fun s => { s with callbacks := s.callbacks ++ ps }) h := by
  induction ps with
  | nil =>
    intro h hnc
    unfold add_chain
    rw [List.foldl_nil, hset_id]
    intro s
    simp
  | cons p rest ih =>
    intro h hnc
    unfold add_chain
    rw [List.foldl_cons, add_callback_not_called _ _ _ _ _ hnc]
    have hnc2 : (hget (hset i (fun s =>
        { s with callbacks := s.callbacks ++ [(p.1, p.2)] }) h) i).called = false := by
      by_cases hlen : i < h.length
      · rw [hget_hset_self _ hlen]
        exact hnc
      · rw [hget_hset]
        simp [hlen, hnc]
    have := ih (hset i (fun s =>
      { s with callbacks := s.callbacks ++ [(p.1, p.2)] }) h) hnc2
    unfold add_chain at this
    rw [this, hset_hset]
    apply hset_congr
    intro s
    simp

theorem deferred_chain_c2 (fuel i : Nat) (ps : List (Handler × Handler)) (v : V)
    (h : Heap) (hlen : i < h.length) (hfresh : hget h i = freshD)
    (hv : v.isDref = false)
    (hpure : ∀ p ∈ ps, PureH p.1 ∧ PureH p.2) :
    (deferred_callback (ps.length + 1 + 1) i v (add_chain (fuel + 1) i ps h)).2
      = none ∧
    (hget (deferred_callback (ps.length + 1 + 1) i v
        (add_chain (fuel + 1) i ps h)).1 i).result
      = some (drain_spec (as_failure v) ps) ∧
    (hget (deferred_callback (ps.length + 1 + 1) i v
        (add_chain (fuel + 1) i ps h)).1 i).callbacks = [] := by
  have hnc : (hget h i).called = false := by rw [hfresh]; rfl
  rw [add_chain_spec fuel i ps h hnc]
  have hH1 : hget (hset i (fun s =>
      { s with callbacks := s.callbacks ++ ps }) h) i
      = { freshD with callbacks := ps } := by
    rw [hget_hset_self _ hlen, hfresh]
    simp [freshD]
  have hlen1 : i < (hset i (fun s =>
      { s with callbacks := s.callbacks ++ ps }) h).length := by
    rw [hset_length]; exact hlen
  simp only [deferred_callback, hv, Bool.false_eq_true, if_false, hH1]
  have hH2 : hget (hset i (fun s =>
      { s with result := some (as_failure v), called := true })
        (hset i (fun s => { s with callbacks := s.callbacks ++ ps }) h)) i
      = { freshD with
          callbacks := ps, result := some (as_failure v), called := true } := by
    rw [hget_hset_self _ hlen1, hH1]
  simp only [run_callbacks, hH2]
  have hdrain := drain_loop_pure ps i
    (hset i (fun s => { s with result := some (as_failure v), called := true })
      (hset i (fun s => { s with callbacks := s.callbacks ++ ps }) h))
    (as_failure v)
    (by simp [hH2, freshD]) (by simp [hH2, freshD]) (by simp [hH2, freshD])
    (by simp [hH2, freshD]) (by simp [hH2, freshD])
    (as_failure_not_dref v hv) hpure
  refine ⟨rfl, ?_, ?_⟩
  · simpa using hdrain.1
  · simpa using hdrain.2.1

/-- C2: registering pure (callback, errback) pairs `ps` on a fresh
deferred and then calling `callback(v)` drains the whole queue and
leaves `result` equal to the specification fold `drain_spec`: each
handler receives the output of its predecessor, the errback slot of a
pair is selected exactly when the current result is a `Failure` (so an
errback returning a non-Failure restores callback routing), raised
exceptions accumulate on the `Failure`, and the call itself raises
nothing. -/
theorem deferred_chain_c2_full (fuel i : Nat) (ps : List (Handler × Handler))
    (v : V) (h : Heap) (hlen : i < h.length) (hfresh : hget h i = freshD)
    (hv : v.isDref = false)
    (hpure : ∀ p ∈ ps, PureH p.1 ∧ PureH p.2) :
    (deferred_callback (ps.length + 1 + 1) i v (add_chain (fuel + 1) i ps h)).2
      = none ∧
    (hget (deferred_callback (ps.length + 1 + 1) i v
        (add_chain (fuel + 1) i ps h)).1 i).result
      = some (drain_spec (as_failure v) ps) ∧
    (hget (deferred_callback (ps.length + 1 + 1) i v
        (add_chain (fuel + 1) i ps h)).1 i).callbacks = [] :=
  deferred_chain_c2 fuel i ps v h hlen hfresh hv hpure

/-- The handler `lambda x: x + 1` of the literal chain scenario. -/
def incH : Handler :=
  .hfun (fun v => match v with
    | .vint n => .ok (.vint (n + 1))
    | _ => .error .typeError)

/-- The handler that raises `ValueError("boom")`. -/
def raiseBoom : Handler := .hfun (fun _ => .error .valueError)

/-- The errback `lambda f: 42`. -/
def recover42 : Handler := .hfun (fun _ => .ok (.vint 42))

/-- The handler `lambda x: x * 2`. -/
def doubleH : Handler :=
  .hfun (fun v => match v with
    | .vint n => .ok (.vint (2 * n))
    | _ => .error .typeError)

/-- C2, witness: the spec's literal scenario — `add_callback(x+1)`,
`add_callback(raise ValueError)`, `add_errback(lambda f: 42)`,
`add_callback(x*2)`, then `callback(1)` leaves `result == 84`. -/
theorem deferred_chain_c2_witness :
    (hget (deferred_callback 6 0 (V.vint 1)
        (add_chain 1 0 [(incH, .passThrough), (raiseBoom, .passThrough),
          (.passThrough, recover42), (doubleH, .passThrough)] [freshD])).1 0).result
      = some (V.vint 84) := by
  have hpure : ∀ p ∈ [(incH, Handler.passThrough), (raiseBoom, .passThrough),
      (Handler.passThrough, recover42), (doubleH, .passThrough)],
      PureH p.1 ∧ PureH p.2 := by
    intro p hp
    fin_cases hp <;>
      refine ⟨?_, ?_⟩ <;>
      first
        | trivial
        | (intro v w hw; cases v <;> cases hw <;> rfl)
        | (intro v w hw; cases hw; rfl)
  have h := deferred_chain_c2_full 0 0
    [(incH, .passThrough), (raiseBoom, .passThrough),
     (.passThrough, recover42), (doubleH, .passThrough)]
    (V.vint 1) [freshD] (by decide) rfl rfl hpure
  exact h.2.1.trans rfl

/-- `as_failure` is the identity away from raw exception instances. -/
theorem as_failure_not_exc (v : V) (he : v.isExc = false) : as_failure v = v := by
  cases v <;> simp_all [as_failure, V.isExc]

/-- Writes to one cell do not affect other cells. -/
theorem hget_hset_ne {i k : Nat} (f : DState → DState) (h : Heap) (hik : ¬ i = k) :
    hget (hset i f h) k = hget h k := by
  rw [hget_hset]
  simp [hik]

/-- Unfolding: an application-supplied callable runs directly. -/
theorem eval_handler_hfun (fuel : Nat) (f : V → Except Err V) (v : V) (h : Heap) :
    eval_handler fuel (.hfun f) v h = (h, f v) := by
  cases fuel <;> rfl

/-- Unfolding: `_continue` stores the result, unpauses, re-runs the
callbacks and returns the updated result. -/
theorem eval_handler_cont (fuel i : Nat) (v : V) (h : Heap) :
    eval_handler (fuel + 1) (.cont i) v h
      = (run_callbacks fuel i (hset i (fun s =>
          { s with result := some v, paused := s.paused - 1 }) h),
         .ok ((hget (run_callbacks fuel i (hset i (fun s =>
          { s with result := some v, paused := s.paused - 1 }) h)) i).result.getD
            .vnone)) := rfl

/-- `_run_callbacks` on a called, idle, unpaused deferred enters the
drain loop. -/
theorem run_callbacks_go (fuel i : Nat) (h : Heap)
    (hc : (hget h i).called = true) (hru : (hget h i).running = false)
    (hp : (hget h i).paused = 0) :
    run_callbacks (fuel + 1) i h = drain_loop fuel i h := by
  simp [run_callbacks, hc, hru, hp]

/-- `callback` on an uncalled deferred with a non-deferred argument
stores the lifted result, marks called and drains. -/
theorem deferred_callback_go (fuel i : Nat) (v : V) (h : Heap)
    (hv : v.isDref = false) (hnc : (hget h i).called = false) :
    deferred_callback (fuel + 1) i v h
      = (run_callbacks fuel i (hset i (fun s =>
          { s with result := some (as_failure v), called := true }) h), none) := by
  simp [deferred_callback, hv, hnc]

/-- Draining an empty queue does nothing. -/
theorem drain_loop_empty (fuel i : Nat) (h : Heap)
    (hcb : (hget h i).callbacks = []) : drain_loop fuel i h = h := by
  cases fuel with
  | zero => rfl
  | succ fuel => simp [drain_loop, hcb]

/-- `result_or_self` of an uncalled deferred is the deferred itself. -/
theorem result_or_self_not_called (h : Heap) (i : Nat)
    (hnc : (hget h i).called = false) : result_or_self h i = .dref i := by
  simp [result_or_self, hnc]

/-- The deferred index of a value, if it is a deferred reference. -/
def drefIdx : V → Option Nat
  | .dref j => some j
  | _ => none

/-- Non-deferred values have no deferred index. -/
theorem drefIdx_not_dref {w : V} (hw : w.isDref = false) : drefIdx w = none := by
  cases w <;> simp_all [drefIdx, V.isDref]

/-- One unfolding of the drain loop on a non-Failure current result:
run the popped pair's callback and either fold a raised exception in,
pause on a deferred result, or store the lifted result and continue. -/
theorem drain_loop_step (fuel i : Nat) (h : Heap) (cb eb : Handler)
    (rest : List (Handler × Handler)) (r : V)
    (hcb : (hget h i).callbacks = (cb, eb) :: rest)
    (hres : (hget h i).result = some r) (hrf : r.isFailureB = false) :
    drain_loop (fuel + 1) i h =
      match eval_handler fuel cb r (hset i (fun s =>
          { s with callbacks := rest, running := true }) h) with
      | (h2, .error e) =>
        drain_loop fuel i (add_exception i e
          (hset i (fun s => { s with running := false }) h2))
      | (h2, .ok v) =>
        match drefIdx (maybe_async h2 v) with
        | some j =>
          add_both fuel j (.cont i)
            (hset i (fun s => { s with paused := s.paused + 1 })
              (hset i (fun s => { s with result := some (maybe_async h2 v) })
                (hset i (fun s => { s with running := false }) h2)))
        | none =>
          drain_loop fuel i
            (hset i (fun s => { s with result := some (maybe_async h2 v) })
              (hset i (fun s => { s with running := false }) h2)) := by
  conv =>
    lhs
    rw [drain_loop]
  simp only [hcb, hres, Option.getD_some, hrf, Bool.false_eq_true, if_false]
  rcases heq : eval_handler fuel cb r (hset i (fun s =>
      { s with callbacks := rest, running := true }) h) with ⟨h2, out⟩
  cases out with
  | error e => rfl
  | ok v =>
    rcases hma : maybe_async h2 v with _ | n | s | b | e | l | j | l | l <;>
      simp [hma, drefIdx]

/-- The two-deferred heap of the nested-pause scenario: deferred 0 has
a callback returning the (fresh, unsettled) deferred 1 and then a
second callback `g`; deferred 1 is fresh. -/
def c3_heap (g : V → Except Err V) : Heap :=
  [⟨false, none, 0, false,
    [(.hfun (fun _ => .ok (.dref 1)), .passThrough), (.hfun g, .passThrough)],
    none⟩,
   freshD]

/-- The heap after `d.callback(v)` in the nested-pause scenario:
deferred 0 called and paused with the reference to deferred 1 as its
result and `g` still queued; deferred 1 carries the `_continue`
continuation of deferred 0 in both slots. -/
def c3_mid (g : V → Except Err V) : Heap :=
  [⟨true, some (.dref 1), 1, false, [(.hfun g, .passThrough)], none⟩,
   ⟨false, none, 0, false, [(.cont 0, .cont 0)], none⟩]

/-- Phase 1 of the nested-pause scenario: calling back deferred 0
pauses it on the unsettled deferred 1. -/
theorem c3_phase1 (v : V) (g : V → Except Err V)
    (hv : v.isDref = false) (hvf : v.isFailureB = false) (hve : v.isExc = false) :
    (deferred_callback 9 0 v (c3_heap g)).1 = c3_mid g := by
  rw [deferred_callback_go 8 0 v (c3_heap g) hv rfl, as_failure_not_exc v hve,
    run_callbacks_go 7 0 (hset 0 (fun s =>
      { s with result := some v, called := true }) (c3_heap g)) rfl rfl rfl,
    drain_loop_step 6 0 (hset 0 (fun s =>
      { s with result := some v, called := true }) (c3_heap g))
      (.hfun (fun _ => .ok (.dref 1))) .passThrough
      [(.hfun g, .passThrough)] v rfl rfl hvf]
  rfl

/-- Phase 2 of the nested-pause scenario: calling back the inner
deferred resumes the outer chain, running `g` on the inner result. -/
theorem c3_phase2 (x w : V) (g : V → Except Err V)
    (hx : x.isDref = false) (hxf : x.isFailureB = false) (hxe : x.isExc = false)
    (hg : g x = .ok w) (hw : w.isDref = false) (hwe : w.isExc = false) :
    (deferred_callback 9 1 x (c3_mid g)).1 = hset 1 (fun s => { s with result := some w }) (hset 1 (fun s => { s with running := false }) (hset 0 (fun s => { s with result := some w }) (hset 0 (fun s => { s with running := false }) (hset 0 (fun s => { s with callbacks := [], running := true }) (hset 0 (fun s => { s with result := some x, paused := s.paused - 1 }) (hset 1 (fun s => { s with callbacks := [], running := true }) (hset 1 (fun s => { s with result := some x, called := true }) (c3_mid g)))))))) := by
  rw [deferred_callback_go 8 1 x (c3_mid g) hx rfl, as_failure_not_exc x hxe,
    run_callbacks_go 7 1 (hset 1 (fun s => { s with result := some x, called := true }) (c3_mid g)) rfl rfl rfl,
    drain_loop_step 6 1 (hset 1 (fun s => { s with result := some x, called := true }) (c3_mid g)) (.cont 0) (.cont 0) [] x rfl rfl hxf,
    eval_handler_cont 5 0 x (hset 1 (fun s => { s with callbacks := [], running := true }) (hset 1 (fun s => { s with result := some x, called := true }) (c3_mid g)))]
  dsimp only
  rw [run_callbacks_go 4 0 (hset 0 (fun s => { s with result := some x, paused := s.paused - 1 }) (hset 1 (fun s => { s with callbacks := [], running := true }) (hset 1 (fun s => { s with result := some x, called := true }) (c3_mid g)))) rfl rfl rfl,
    drain_loop_step 3 0 (hset 0 (fun s => { s with result := some x, paused := s.paused - 1 }) (hset 1 (fun s => { s with callbacks := [], running := true }) (hset 1 (fun s => { s with result := some x, called := true }) (c3_mid g)))) (.hfun g) .passThrough [] x rfl rfl hxf,
    eval_handler_hfun 3 g x (hset 0 (fun s => { s with callbacks := [], running := true }) (hset 0 (fun s => { s with result := some x, paused := s.paused - 1 }) (hset 1 (fun s => { s with callbacks := [], running := true }) (hset 1 (fun s => { s with result := some x, called := true }) (c3_mid g))))), hg]
  dsimp only
  rw [maybe_async_not_dref (hset 0 (fun s => { s with callbacks := [], running := true }) (hset 0 (fun s => { s with result := some x, paused := s.paused - 1 }) (hset 1 (fun s => { s with callbacks := [], running := true }) (hset 1 (fun s => { s with result := some x, called := true }) (c3_mid g))))) w hw, as_failure_not_exc w hwe,
    drefIdx_not_dref hw]
  dsimp only
  rw [drain_loop_empty 3 0 (hset 0 (fun s => { s with result := some w }) (hset 0 (fun s => { s with running := false }) (hset 0 (fun s => { s with callbacks := [], running := true }) (hset 0 (fun s => { s with result := some x, paused := s.paused - 1 }) (hset 1 (fun s => { s with callbacks := [], running := true }) (hset 1 (fun s => { s with result := some x, called := true }) (c3_mid g))))))) rfl,
    show ((hget (hset 0 (fun s => { s with result := some w }) (hset 0 (fun s => { s with running := false }) (hset 0 (fun s => { s with callbacks := [], running := true }) (hset 0 (fun s => { s with result := some x, paused := s.paused - 1 }) (hset 1 (fun s => { s with callbacks := [], running := true }) (hset 1 (fun s => { s with result := some x, called := true }) (c3_mid g))))))) 0).result.getD V.vnone) = w from rfl,
    maybe_async_not_dref (hset 0 (fun s => { s with result := some w }) (hset 0 (fun s => { s with running := false }) (hset 0 (fun s => { s with callbacks := [], running := true }) (hset 0 (fun s => { s with result := some x, paused := s.paused - 1 }) (hset 1 (fun s => { s with callbacks := [], running := true }) (hset 1 (fun s => { s with result := some x, called := true }) (c3_mid g))))))) w hw, as_failure_not_exc w hwe,
    drefIdx_not_dref hw]
  dsimp only
  rw [drain_loop_empty 6 1 (hset 1 (fun s => { s with result := some w }) (hset 1 (fun s => { s with running := false }) (hset 0 (fun s => { s with result := some w }) (hset 0 (fun s => { s with running := false }) (hset 0 (fun s => { s with callbacks := [], running := true }) (hset 0 (fun s => { s with result := some x, paused := s.paused - 1 }) (hset 1 (fun s => { s with callbacks := [], running := true }) (hset 1 (fun s => { s with result := some x, called := true }) (c3_mid g))))))))) rfl]

/-- C3: when a callback of deferred 0 returns the unsettled deferred 1,
the pause-depth of deferred 0 is incremented to 1 and draining stops
with its remaining callback still queued and the inner deferred as its
result; when the inner deferred is later called back with `x`, the
outer deferred resumes (pause-depth back to 0) with `x` as the current
result passed to its next callback `g`, settling with `g`'s output. -/
theorem nested_deferred_c3 (v x w : V) (g : V → Except Err V)
    (hv : v.isDref = false) (hvf : v.isFailureB = false) (hve : v.isExc = false)
    (hx : x.isDref = false) (hxf : x.isFailureB = false) (hxe : x.isExc = false)
    (hg : g x = .ok w) (hw : w.isDref = false) (hwe : w.isExc = false) :
    (hget (deferred_callback 9 0 v (c3_heap g)).1 0).paused = 1 ∧
    (hget (deferred_callback 9 0 v (c3_heap g)).1 0).callbacks
      = [(.hfun g, .passThrough)] ∧
    (hget (deferred_callback 9 0 v (c3_heap g)).1 0).result = some (.dref 1) ∧
    (hget (deferred_callback 9 0 v (c3_heap g)).1 1).called = false ∧
    (hget (deferred_callback 9 1 x
        (deferred_callback 9 0 v (c3_heap g)).1).1 0).result = some w ∧
    (hget (deferred_callback 9 1 x
        (deferred_callback 9 0 v (c3_heap g)).1).1 0).paused = 0 := by
  rw [c3_phase1 v g hv hvf hve, c3_phase2 x w g hx hxf hxe hg hw hwe]
  exact ⟨rfl, rfl, rfl, rfl, rfl, rfl⟩

/-- The second-callback `lambda v: v + \"!\"` of the spec's nested
scenario. -/
def bangF : V → Except Err V := fun s =>
  match s with
  | .vstr t => .ok (.vstr (t ++ "!"))
  | _ => .error .typeError

/-- C3: when a callback of deferred 0 returns the unsettled deferred 1,
the pause-depth of deferred 0 is incremented to 1 and draining stops
with its remaining callback still queued and the inner deferred as its
result; when the inner deferred is later called back with `x`, the
outer deferred resumes (pause-depth back to 0) with `x` as the current
result passed to its next callback `g`, settling with `g`'s output. -/
theorem nested_deferred_c3_witness :
    (hget (deferred_callback 9 0 V.vnone (c3_heap bangF)).1 0).paused = 1 ∧
    (hget (deferred_callback 9 0 V.vnone (c3_heap bangF)).1 0).callbacks
      = [(.hfun bangF, .passThrough)] ∧
    (hget (deferred_callback 9 0 V.vnone (c3_heap bangF)).1 0).result
      = some (.dref 1) ∧
    (hget (deferred_callback 9 0 V.vnone (c3_heap bangF)).1 1).called = false ∧
    (hget (deferred_callback 9 1 (V.vstr "hi")
        (deferred_callback 9 0 V.vnone (c3_heap bangF)).1).1 0).result
      = some (.vstr "hi!") ∧
    (hget (deferred_callback 9 1 (V.vstr "hi")
        (deferred_callback 9 0 V.vnone (c3_heap bangF)).1).1 0).paused = 0 :=
  nested_deferred_c3 V.vnone (V.vstr "hi") (V.vstr "hi!") bangF
    rfl rfl rfl rfl rfl rfl rfl rfl rfl

/-- A two-deferred heap whose deferred 0 has a single callback
returning the fresh deferred 1 (used to reach a called, empty-queue,
paused state). -/
def c4_heap : Heap :=
  [⟨false, none, 0, false, [(.hfun (fun _ => .ok (.dref 1)), .passThrough)], none⟩,
   freshD]

/-- C4, counterexample to the claim as stated: after `callback(None)`,
deferred 0 is called with an empty queue and pause-depth 1, a state in
which the claim says `result_or_self` returns the deferred itself
(`dref 0`) — but the source does not consult `paused` and returns the
stored result, the inner deferred `dref 1`. -/
theorem result_or_self_c4_counterexample :
    (hget (deferred_callback 9 0 V.vnone c4_heap).1 0).called = true ∧
    (hget (deferred_callback 9 0 V.vnone c4_heap).1 0).callbacks = [] ∧
    (hget (deferred_callback 9 0 V.vnone c4_heap).1 0).paused = 1 ∧
    result_or_self (deferred_callback 9 0 V.vnone c4_heap).1 0 = .dref 1 ∧
    V.dref 1 ≠ V.dref 0 := by
  refine ⟨rfl, rfl, rfl, rfl, ?_⟩
  intro hx
  injection hx with h10
  exact absurd h10 one_ne_zero

/-- C4, amended: `result_or_self` returns the stored result exactly
when the deferred has been called and its callback queue is empty —
regardless of the pause-depth — and the deferred itself otherwise. -/
theorem result_or_self_c4_amended (h : Heap) (i : Nat) :
    ((hget h i).called = true → (hget h i).callbacks = [] →
      result_or_self h i = (hget h i).result.getD V.vnone) ∧
    ((hget h i).called = false → result_or_self h i = .dref i) ∧
    ((hget h i).callbacks ≠ [] → result_or_self h i = .dref i) := by
  refine ⟨?_, ?_, ?_⟩
  · intro hc hcb
    simp [result_or_self, hc, hcb]
  · intro hc
    simp [result_or_self, hc]
  · intro hcb
    simp [result_or_self, List.isEmpty_iff, hcb]

/-- C4, witness for the amended theorem: in the reachable called,
empty-queue, paused state the stored result (the inner deferred) is
returned. -/
theorem result_or_self_c4_witness :
    result_or_self (deferred_callback 9 0 V.vnone c4_heap).1 0 = V.dref 1 :=
  ((result_or_self_c4_amended (deferred_callback 9 0 V.vnone c4_heap).1 0).1
    rfl rfl).trans rfl

/-! ### C8: the generator driver and `max_errors` -/

theorem failRecs_eq_nil {v : V} (h : v.isFailureB = false) : v.failRecs = [] := by
  cases v <;> simp_all [V.isFailureB, V.failRecs]

theorem consume_threshold (k : Nat) (hk : k ≠ 0) (gen : List GItem) :
    ∀ (errors : List Err) (last : V),
    (∀ g ∈ gen, SingleErrItem g) →
    (last.isFailureB = false ∨ ∃ e, last = .fail [e]) →
    errors.length < k →
    k ≤ errors.length + last.failRecs.length + (genErrs gen).length →
    consume k errors gen last
      = ((errors ++ last.failRecs ++ genErrs gen).take k,
         .fail ((errors ++ last.failRecs ++ genErrs gen).take k)) := by
  induction gen with
  | nil =>
    intro errors last hitems hlast hlt hcross
    rcases hlast with hlf | ⟨e, rfl⟩
    · rw [failRecs_eq_nil hlf] at hcross
      simp [genErrs] at hcross
      omega
    · have hkeq : k = errors.length + 1 := by
        simp [V.failRecs, genErrs] at hcross; omega
      have htake : (errors ++ [e]).take k = errors ++ [e] := by
        have h1 : k = (errors ++ [e]).length := by simp [hkeq]
        rw [h1, List.take_length]
      rw [consume]
      simp [V.isFailureB, V.failRecs, conclude, genErrs, hk, hkeq, htake]
  | cons g rest ih =>
    intro errors last hitems hlast hlt hcross
    have hg := hitems g (List.mem_cons_self g rest)
    have hrest : ∀ x ∈ rest, SingleErrItem x :=
      fun x hx => hitems x (List.mem_cons_of_mem g hx)
    rcases hlast with hlf | ⟨e, rfl⟩
    · have hrecs := failRecs_eq_nil hlf
      rw [hrecs] at hcross
      cases g with
      | yieldv v =>
        rw [consume]
        simp only [hlf, Bool.false_and, Bool.false_eq_true,
          not_false_eq_true, if_false]
        rw [hrecs]
        rw [ih errors (as_failure v) hrest hg hlt
          (by simp [genErrs] at hcross ⊢; omega)]
        simp [genErrs]
      | notDone =>
        rw [consume]
        simp only [hlf, Bool.false_and, Bool.false_eq_true,
          not_false_eq_true, if_false]
        rw [hrecs]
        rw [ih errors .vnone hrest (Or.inl rfl) hlt
          (by simp [genErrs, V.failRecs] at hcross ⊢; omega)]
        simp [genErrs, V.failRecs]
      | clearErrors => exact absurd hg (by simp [SingleErrItem])
      | raiseE e2 =>
        have hkeq : k = errors.length + 1 := by
          simp [genErrs] at hcross; omega
        rw [consume]
        rw [hrecs]
        have htake : (errors ++ [e2]).take k = errors ++ [e2] := by
          have h1 : k = (errors ++ [e2]).length := by simp [hkeq]
          rw [h1, List.take_length]
        simp [hlf, genErrs, conclude, hk, hkeq, htake]
    · by_cases hstop : k ≤ errors.length + 1
      · have hkeq : k = errors.length + 1 := by omega
        rw [consume.eq_def]
        have htake2 : (errors ++ [e] ++ genErrs (g :: rest)).take k
            = errors ++ [e] := by
          have h1 : k = (errors ++ [e]).length := by simp [hkeq]
          rw [h1, List.take_left]
        simp only [V.isFailureB, V.failRecs, htake2]
        rw [if_pos (by simp [hk, hkeq])]
        simp [conclude, hkeq]
      · have hlt2 : (errors ++ [e]).length < k := by simp; omega
        cases g with
        | yieldv v =>
          rw [consume]
          simp only [V.isFailureB, V.failRecs, if_true]
          rw [if_neg (by simp; omega)]
          rw [ih (errors ++ [e]) (as_failure v) hrest hg hlt2
            (by simp [genErrs, V.failRecs] at hcross ⊢; omega)]
          simp [genErrs, V.failRecs]
        | notDone =>
          rw [consume]
          simp only [V.isFailureB, V.failRecs, if_true]
          rw [if_neg (by simp; omega)]
          rw [ih (errors ++ [e]) .vnone hrest (Or.inl rfl) hlt2
            (by simp [genErrs, V.failRecs] at hcross ⊢; omega)]
          simp [genErrs, V.failRecs]
        | clearErrors => exact absurd hg (by simp [SingleErrItem])
        | raiseE e2 =>
          have hkeq : k = errors.length + 2 := by
            simp [genErrs, V.failRecs] at hcross; omega
          rw [consume]
          have htake : (errors ++ [e] ++ [e2]).take k
              = errors ++ [e] ++ [e2] := by
            have h1 : k = (errors ++ [e] ++ [e2]).length := by simp [hkeq]
            rw [h1, List.take_length]
          simp [V.isFailureB, V.failRecs, genErrs, conclude, hk, hkeq, htake]

theorem consume_unbounded (gen : List GItem) :
    ∀ (errors : List Err) (last : V),
    (∀ g ∈ gen, g ≠ GItem.clearErrors) →
    consume 0 errors gen last
      = (errors ++ last.failRecs ++ genErrs gen,
         if (errors ++ last.failRecs ++ genErrs gen).isEmpty
         then lastVal gen last
         else .fail (errors ++ last.failRecs ++ genErrs gen)) := by
  induction gen with
  | nil =>
    intro errors last hnc
    rw [consume]
    cases hlf : last.isFailureB
    · rw [failRecs_eq_nil hlf]
      simp [hlf, conclude, genErrs, lastVal]
    · cases last with
      | fail l => simp [V.isFailureB, V.failRecs, conclude, genErrs, lastVal]
      | vnone => simp [V.isFailureB] at hlf
      | vint n => simp [V.isFailureB] at hlf
      | vstr s => simp [V.isFailureB] at hlf
      | vbool b => simp [V.isFailureB] at hlf
      | vexc e => simp [V.isFailureB] at hlf
      | dref j => simp [V.isFailureB] at hlf
      | vlist l => simp [V.isFailureB] at hlf
      | vdict d => simp [V.isFailureB] at hlf
  | cons g rest ih =>
    intro errors last hnc
    have hg := hnc g (List.mem_cons_self g rest)
    have hrest : ∀ x ∈ rest, x ≠ GItem.clearErrors :=
      fun x hx => hnc x (List.mem_cons_of_mem g hx)
    have herr1 : (if last.isFailureB then errors ++ last.failRecs else errors)
        = errors ++ last.failRecs := by
      cases hlf : last.isFailureB
      · rw [failRecs_eq_nil hlf]; simp
      · rfl
    cases g with
    | yieldv v =>
      rw [consume]
      simp only [Bool.false_and, Bool.and_false, bne_self_eq_false,
        Bool.false_eq_true, not_false_eq_true, if_false, herr1]
      rw [ih (errors ++ last.failRecs) (as_failure v) hrest]
      simp [genErrs, lastVal]
    | notDone =>
      rw [consume]
      simp only [Bool.false_and, Bool.and_false, bne_self_eq_false,
        Bool.false_eq_true, not_false_eq_true, if_false, herr1]
      rw [ih (errors ++ last.failRecs) .vnone hrest]
      simp [genErrs, lastVal, V.failRecs]
    | clearErrors => exact absurd rfl hg
    | raiseE e =>
      rw [consume]
      simp only [Bool.false_and, Bool.and_false, bne_self_eq_false,
        Bool.false_eq_true, not_false_eq_true, if_false, herr1]
      rw [consume]
      simp [genErrs, lastVal, conclude, V.isFailureB, V.failRecs]

/-- C8: with `max_errors = k > 0`, as soon as the accumulated error
records reach `k` the driver concludes, settling with a `Failure`
holding exactly the first `k` error records of the run (further
generator events are never consumed); with `max_errors = 0` it consumes
the whole generator, concluding only at `StopIteration` with the full
accumulated error list if nonempty and with the final last result
otherwise. -/
theorem deferred_generator_c8 (k : Nat) (hk : k ≠ 0) (gen : List GItem)
    (hitems : ∀ g ∈ gen, SingleErrItem g) :
    (k ≤ (genErrs gen).length →
      deferred_generator gen k
        = ((genErrs gen).take k, .fail ((genErrs gen).take k))) ∧
    deferred_generator gen 0
      = (genErrs gen,
         if (genErrs gen).isEmpty then lastVal gen .vnone
         else .fail (genErrs gen)) := by
  have hnc : ∀ g ∈ gen, g ≠ GItem.clearErrors := by
    intro g hg hcl
    have hx := hitems g hg
    rw [hcl] at hx
    exact hx
  constructor
  · intro hlen
    have hb : (k != 0) = true := by simp [hk]
    have hmax : max 1 k = k := by omega
    rw [deferred_generator, hb]
    simp only [if_true, hmax]
    have h := consume_threshold k hk gen [] .vnone hitems (Or.inl rfl)
      (by simp only [List.length_nil]; omega)
      (by simpa [V.failRecs] using hlen)
    simpa [V.failRecs] using h
  · rw [deferred_generator]
    have h := consume_unbounded gen [] .vnone hnc
    simpa [V.failRecs] using h

/-- C8, witness: a generator yielding an exception, a plain value and
two further exceptions.  With `max_errors = 2` the driver stops at the
second error and settles with the two-record `Failure`; with
`max_errors = 0` it runs to exhaustion and settles with all three. -/
theorem deferred_generator_c8_witness :
    deferred_generator [GItem.yieldv (V.vexc .valueError), .yieldv (.vint 5),
        .yieldv (.vexc .typeError), .yieldv (.vexc (.other 3))] 2
      = ([.valueError, .typeError], .fail [.valueError, .typeError]) ∧
    deferred_generator [GItem.yieldv (V.vexc .valueError), .yieldv (.vint 5),
        .yieldv (.vexc .typeError), .yieldv (.vexc (.other 3))] 0
      = ([.valueError, .typeError, .other 3],
         .fail [.valueError, .typeError, .other 3]) := by
  have hitems : ∀ g ∈ [GItem.yieldv (V.vexc Err.valueError), .yieldv (.vint 5),
      .yieldv (.vexc .typeError), .yieldv (.vexc (.other 3))], SingleErrItem g := by
    intro g hg
    fin_cases hg
    · exact Or.inr ⟨_, rfl⟩
    · exact Or.inl rfl
    · exact Or.inr ⟨_, rfl⟩
    · exact Or.inr ⟨_, rfl⟩
  have h := deferred_generator_c8 2 (by decide) _ hitems
  refine ⟨?_, ?_⟩
  · have h1 := h.1 (by decide)
    simpa [genErrs, as_failure, V.failRecs] using h1
  · simpa [genErrs, as_failure, V.failRecs, lastVal] using h.2

/-! ### C6: MultiDeferred construction, locking and settlement -/

mutual
/-- A fully settled input tree for a `MultiDeferred` cell: a plain leaf
value or a nested `list`/`dict` container of settled trees. -/
inductive SV where
  | leaf (v : V)
  | lst (l : SVL)
  | dct (l : SVD)
inductive SVL where
  | nil
  | cons (hd : SV) (tl : SVL)
inductive SVD where
  | nil
  | cons (s : String) (hd : SV) (tl : SVD)
end

mutual
/-- The chain value denoted by a settled tree. -/
def SV.toV : SV → V
  | .leaf v => v
  | .lst l => .vlist l.toL
  | .dct d => .vdict d.toL
def SVL.toL : SVL → List V
  | .nil => []
  | .cons x r => x.toV :: r.toL
def SVD.toL : SVD → List (String × V)
  | .nil => []
  | .cons s x r => (s, x.toV) :: r.toL
end

/-- The keys of a settled `dict` tree, in order. -/
def SVD.keys : SVD → List String
  | .nil => []
  | .cons s _ r => s :: r.keys

/-- A plain chain value: not a `Deferred`, not an exception instance,
not a `Failure`, not a container. -/
def plainB (v : V) : Bool :=
  !v.isDref && !v.isExc && !v.isFailureB && !v.isContainer

/-- Distinctness of a `dict`'s keys (Python dicts cannot repeat
a key; the model's association lists are constrained to match). -/
def keysNodupB : List String → Bool
  | [] => true
  | s :: r => !(r.contains s) && keysNodupB r

mutual
/-- Well-formed settled trees: every leaf is plain and every `dict`
level has distinct keys. -/
def SV.wf : SV → Bool
  | .leaf v => plainB v
  | .lst l => l.wf
  | .dct d => d.wf && keysNodupB d.keys
def SVL.wf : SVL → Bool
  | .nil => true
  | .cons x r => x.wf && r.wf
def SVD.wf : SVD → Bool
  | .nil => true
  | .cons _ x r => x.wf && r.wf
end

mutual
/-- Interpreter fuel sufficient to `_add` one settled tree. -/
def SV.need : SV → Nat
  | .leaf _ => 1
  | .lst l => 8 + l.need
  | .dct d => 8 + d.need
/-- Fuel sufficient for `update` over settled `list` data. -/
def SVL.need : SVL → Nat
  | .nil => 1
  | .cons x r => 1 + x.need + r.need
/-- Fuel sufficient for `update` over settled `dict` data. -/
def SVD.need : SVD → Nat
  | .nil => 1
  | .cons _ x r => 1 + x.need + r.need
end

theorem hget_append_left {i : Nat} {a : Heap} (b : Heap) (h : i < a.length) :
    hget (a ++ b) i = hget a i := by
  unfold hget
  exact List.getD_append a b freshD i h

theorem hget_append_mid (a b : Heap) (m : DState) :
    hget (a ++ m :: b) a.length = m := by
  unfold hget
  rw [List.getD_append_right _ _ _ _ (Nat.le_refl _), Nat.sub_self]
  rfl

theorem hset_append_left {i : Nat} (f : DState → DState) (a b : Heap)
    (h : i < a.length) : hset i f (a ++ b) = hset i f a ++ b := by
  unfold hset
  rw [hget_append_left b h, List.set_append_left _ _ h]

theorem hset_append_mid (f : DState → DState) (a b : Heap) (m : DState) :
    hset a.length f (a ++ m :: b) = a ++ f m :: b := by
  unfold hset
  rw [hget_append_mid, List.set_append_right _ _ (Nat.le_refl _), Nat.sub_self]
  rfl

theorem as_failure_strm (st : Strm) : as_failure (strm_to_v st) = strm_to_v st := by
  cases st <;> rfl

/-- The built `DState` of a multideferred over stream `st` with pending
map `p`, before locking. -/
def mdD (locked : Bool) (st : Strm) (p : List (Key × Nat)) : DState :=
  ⟨false, none, 0, false, [], some ⟨locked, st, p, [], false, none⟩⟩

/-- The `DState` of a settled multideferred over stream `st`. -/
def mdDone (st : Strm) : DState :=
  ⟨true, some (strm_to_v st), 0, false, [], some ⟨true, st, [], [], false, none⟩⟩

/-- Replace an `hset` update function by its value at the current
cell. -/
theorem hset_eval (i : Nat) (f : DState → DState) (h : Heap) (d : DState)
    (hd : f (hget h i) = d) : hset i f h = hset i (fun _ => d) h := by
  unfold hset
  rw [hd]

theorem hset_const_const (i : Nat) (h : Heap) (d1 d2 : DState) :
    hset i (fun _ => d2) (hset i (fun _ => d1) h) = hset i (fun _ => d2) h := by
  rw [hset_hset]

theorem md_lock_settled (f cid : Nat) (h : Heap) (st : Strm)
    (hlen : cid < h.length) (hcid : hget h cid = mdD false st []) :
    md_lock (f + 5) cid h = (hset cid (fun _ => mdDone st) h, none) := by
  have hdref : (strm_to_v st).isDref = false := by cases st <;> rfl
  rw [show f + 5 = (f + 4) + 1 from rfl, md_lock, hcid]
  simp only [mdD, reduceIte, List.isEmpty_nil, Bool.not_true, Bool.not_false,
    Bool.false_and, Bool.and_false, Bool.false_eq_true, Bool.true_eq_false,
    if_true, if_false]
  rw [hset_eval cid _ h (mdD true st []) (by rw [hcid]; rfl)]
  rw [show f + 4 = (f + 3) + 1 from rfl, md_finish,
    hget_hset_self _ hlen]
  simp only [mdD, reduceIte, List.isEmpty_nil, Bool.not_true, Bool.not_false,
    Bool.false_and, Bool.and_false, Bool.false_eq_true, Bool.true_eq_false,
    if_true, if_false]
  rw [show f + 3 = (f + 2) + 1 from rfl, deferred_callback, hdref]
  simp only [Bool.false_eq_true, if_false]
  rw [hget_hset_self _ hlen]
  simp only [mdD, Bool.false_eq_true, if_false]
  rw [hset_hset]
  rw [hset_eval cid _ h (mdDone st)
    (by dsimp only; rw [as_failure_strm]; rfl)]
  rw [show f + 2 = (f + 1) + 1 from rfl, run_callbacks,
    hget_hset_self _ hlen]
  simp only [mdDone, Bool.not_true, Bool.false_or, bne_self_eq_false,
    Bool.or_self, Bool.false_eq_true, if_false, reduceIte]
  rw [drain_loop, hget_hset_self _ hlen]

theorem hset_self_id (i : Nat) (h : Heap) (d : DState) (hd : hget h i = d) :
    hset i (fun _ => d) h = h := by
  subst hd
  unfold hset hget
  by_cases hlen : i < h.length
  · rw [List.getD_eq_getElem _ _ hlen]
    apply List.ext_getElem
    · simp
    · intro n h1 h2
      rw [List.getElem_set]
      split
      · simp_all
      · rfl
  · exact List.set_eq_of_length_le (Nat.le_of_not_lt hlen)

theorem hset_comm {i j : Nat} (hne : i ≠ j) (f g : DState → DState) (h : Heap) :
    hset i f (hset j g h) = hset j g (hset i f h) := by
  unfold hset
  rw [show hget (List.set h j (g (hget h j))) i = hget h i from
      hget_hset_ne g h (fun e => hne e.symm),
    show hget (List.set h i (f (hget h i))) j = hget h j from
      hget_hset_ne f h hne]
  exact List.set_comm _ _ _ (fun e => hne e.symm)

theorem assocSet_fresh (l : List (String × V)) (s : String) (v : V)
    (hs : s ∉ l.map Prod.fst) : assocSet l s v = l ++ [(s, v)] := by
  induction l with
  | nil => rfl
  | cons p rest ih =>
    simp only [List.map_cons, List.mem_cons, not_or] at hs
    rw [assocSet, if_neg (fun e => hs.1 e.symm), ih hs.2]
    rfl


theorem md_store_not_dref (fuel i : Nat) (k : Key) (vv : V) (h : Heap)
    (hv : vv.isDref = false) :
    md_store fuel i k vv h = (md_setitem i k vv h, none) := by
  cases vv <;> simp_all [md_store, V.isDref]

theorem md_setitem_mdD (i : Nat) (k : Key) (v : V) (h : Heap) {lk : Bool}
    (s : Strm) (p : List (Key × Nat)) (hcid : hget h i = mdD lk s p)
    (hvf : v.isFailureB = false) :
    md_setitem i k v h
      = hset i (fun _ => mdD lk (strm_set s k v) p) h := by
  unfold md_setitem
  exact hset_eval _ _ _ _ (by rw [hcid]; dsimp only [mdD]; rw [hvf]; rfl)

theorem result_or_self_mdDone (h : Heap) (i : Nat) (st : Strm)
    (hi : hget h i = mdDone st) : result_or_self h i = strm_to_v st := by
  unfold result_or_self
  rw [hi]
  rfl

theorem md_add_step (f cid : Nat) (k : Key) (v : V) (h : Heap) (s : Strm)
    (p : List (Key × Nat)) (hcid : hget h cid = mdD false s p)
    (hvd : v.isDref = false) (hve : v.isExc = false) :
    md_add (f + 1) cid k v h
      = (match (if v.isContainer then md_make f cid v h else (h, v, none)) with
         | (h2, _, some e) => (h2, some e)
         | (h2, v2, none) => md_store f cid k v2 h2) := by
  rw [md_add, hcid]
  dsimp only [mdD]
  rw [maybe_async_not_dref h v hvd, as_failure_not_exc v hve]
  rfl

theorem plainB_split {v : V} (hp : plainB v = true) :
    v.isDref = false ∧ v.isExc = false ∧ v.isFailureB = false ∧
      v.isContainer = false := by
  simp only [plainB, Bool.and_eq_true, Bool.not_eq_true'] at hp
  exact ⟨hp.1.1.1, hp.1.1.2, hp.1.2, hp.2⟩

mutual

theorem md_add_settled (x : SV) :
    ∀ (f cid : Nat) (k : Key) (s : Strm) (p : List (Key × Nat)) (h : Heap),
    x.wf = true → cid < h.length → hget h cid = mdD false s p →
    ∃ ext, md_add (f + x.need) cid k x.toV h
      = (hset cid (fun _ => mdD false (strm_set s k x.toV) p) (h ++ ext),
         none) := by
  intro f cid k s p h hwf hlen hcid
  cases x with
  | leaf v =>
    simp only [SV.wf] at hwf
    obtain ⟨hd, he, hf, hc⟩ := plainB_split hwf
    refine ⟨[], ?_⟩
    simp only [SV.need, SV.toV]
    rw [md_add_step f cid k v h s p hcid hd he, hc]
    simp only [Bool.false_eq_true, reduceIte]
    rw [md_store_not_dref _ _ _ _ _ hd, md_setitem_mdD _ _ _ _ _ _ hcid hf,
      List.append_nil]
  | lst l =>
    simp only [SV.wf] at hwf
    simp only [SV.need, SV.toV]
    obtain ⟨ext1, hupd⟩ := md_update_list_settled l (f + 5) h.length 0 [] []
      (h ++ [mdD false (.slist []) []]) hwf rfl (by simp)
      (hget_append_mid h [] _)
    simp only [List.nil_append] at hupd
    have hlen1 : h.length
        < (h ++ [mdD false (Strm.slist []) []] ++ ext1).length := by
      simp
    have hget1 : hget (hset h.length
        (fun _ => mdD false (.slist l.toL) [])
        (h ++ [mdD false (Strm.slist []) []] ++ ext1)) h.length
        = mdD false (.slist l.toL) [] := hget_hset_self _ hlen1
    have hlen1s : h.length
        < (hset h.length (fun _ => mdD false (.slist l.toL) [])
            (h ++ [mdD false (Strm.slist []) []] ++ ext1)).length := by
      rw [hset_length]; exact hlen1
    have hget2 : hget (hset h.length (fun _ => mdDone (.slist l.toL))
        (hset h.length (fun _ => mdD false (.slist l.toL) [])
          (h ++ [mdD false (Strm.slist []) []] ++ ext1))) h.length
        = mdDone (.slist l.toL) :=
      hget_hset_self _ (by rw [hset_length]; exact hlen1)
    have hmk : md_make (f + 7 + SVL.need l) cid (V.vlist l.toL) h
        = (hset h.length (fun _ => mdDone (.slist l.toL))
             (hset h.length (fun _ => mdD false (.slist l.toL) [])
               (h ++ [mdD false (Strm.slist []) []] ++ ext1)),
           V.vlist l.toL, none) := by
      rw [show f + 7 + SVL.need l = (f + 6 + SVL.need l) + 1 from by omega,
        md_make, hcid]
      rw [show md_cfg_of (mdD false s p).md = (⟨false, none⟩ : MDCfg)
        from rfl]
      rw [show f + 6 + SVL.need l = (f + 5 + SVL.need l) + 1 from by omega,
        md_new]
      rw [show md_alloc ⟨false, none⟩ (V.vlist l.toL) h
          = h ++ [mdD false (Strm.slist []) []] from rfl]
      rw [hupd]
      dsimp only []
      rw [show f + 5 + SVL.need l + 1 = (f + 1 + SVL.need l) + 5
        from by omega]
      rw [md_lock_settled (f + 1 + SVL.need l) h.length _ (.slist l.toL)
        hlen1s hget1]
      dsimp only []
      rw [show maybe_async (hset h.length (fun _ => mdDone (.slist l.toL))
            (hset h.length (fun _ => mdD false (.slist l.toL) [])
              (h ++ [mdD false (Strm.slist []) []] ++ ext1)))
            (V.dref h.length)
          = result_or_self (hset h.length (fun _ => mdDone (.slist l.toL))
            (hset h.length (fun _ => mdD false (.slist l.toL) [])
              (h ++ [mdD false (Strm.slist []) []] ++ ext1))) h.length
          from rfl]
      rw [result_or_self_mdDone _ _ _ hget2]
      rfl
    refine ⟨mdDone (.slist l.toL) :: ext1, ?_⟩
    rw [show f + (8 + SVL.need l) = (f + 7 + SVL.need l) + 1 from by omega]
    rw [md_add_step (f + 7 + SVL.need l) cid k (V.vlist l.toL) h s p hcid
      rfl rfl]
    simp only [V.isContainer, reduceIte]
    rw [hmk]
    dsimp only []
    rw [md_store_not_dref (f + 7 + SVL.need l) cid k (V.vlist l.toL) _ rfl]
    have hcidB : hget (hset h.length (fun _ => mdDone (.slist l.toL))
        (hset h.length (fun _ => mdD false (.slist l.toL) [])
          (h ++ [mdD false (Strm.slist []) []] ++ ext1))) cid
        = mdD false s p := by
      rw [hget_hset_ne _ _ (by omega : ¬ h.length = cid),
        hget_hset_ne _ _ (by omega : ¬ h.length = cid),
        hget_append_left ext1 (by simp; omega),
        hget_append_left [mdD false (Strm.slist []) []] hlen, hcid]
    rw [md_setitem_mdD cid k (V.vlist l.toL) _ s p hcidB rfl]
    rw [hset_const_const, List.append_assoc, List.singleton_append,
      hset_append_mid]
  | dct d =>
    simp only [SV.wf] at hwf
    simp only [Bool.and_eq_true] at hwf
    obtain ⟨hwd, hnd⟩ := hwf
    simp only [SV.need, SV.toV]
    obtain ⟨ext1, hupd⟩ := md_update_dict_settled d (f + 5) h.length [] []
      (h ++ [mdD false (.sdict []) []]) hwd hnd (by simp) (by simp)
      (hget_append_mid h [] _)
    simp only [List.nil_append] at hupd
    have hlen1 : h.length
        < (h ++ [mdD false (Strm.sdict []) []] ++ ext1).length := by
      simp
    have hget1 : hget (hset h.length
        (fun _ => mdD false (.sdict d.toL) [])
        (h ++ [mdD false (Strm.sdict []) []] ++ ext1)) h.length
        = mdD false (.sdict d.toL) [] := hget_hset_self _ hlen1
    have hlen1s : h.length
        < (hset h.length (fun _ => mdD false (.sdict d.toL) [])
            (h ++ [mdD false (Strm.sdict []) []] ++ ext1)).length := by
      rw [hset_length]; exact hlen1
    have hget2 : hget (hset h.length (fun _ => mdDone (.sdict d.toL))
        (hset h.length (fun _ => mdD false (.sdict d.toL) [])
          (h ++ [mdD false (Strm.sdict []) []] ++ ext1))) h.length
        = mdDone (.sdict d.toL) :=
      hget_hset_self _ (by rw [hset_length]; exact hlen1)
    have hmk : md_make (f + 7 + SVD.need d) cid (V.vdict d.toL) h
        = (hset h.length (fun _ => mdDone (.sdict d.toL))
             (hset h.length (fun _ => mdD false (.sdict d.toL) [])
               (h ++ [mdD false (Strm.sdict []) []] ++ ext1)),
           V.vdict d.toL, none) := by
      rw [show f + 7 + SVD.need d = (f + 6 + SVD.need d) + 1 from by omega,
        md_make, hcid]
      rw [show md_cfg_of (mdD false s p).md = (⟨false, none⟩ : MDCfg)
        from rfl]
      rw [show f + 6 + SVD.need d = (f + 5 + SVD.need d) + 1 from by omega,
        md_new]
      rw [show md_alloc ⟨false, none⟩ (V.vdict d.toL) h
          = h ++ [mdD false (Strm.sdict []) []] from rfl]
      rw [hupd]
      dsimp only []
      rw [show f + 5 + SVD.need d + 1 = (f + 1 + SVD.need d) + 5
        from by omega]
      rw [md_lock_settled (f + 1 + SVD.need d) h.length _ (.sdict d.toL)
        hlen1s hget1]
      dsimp only []
      rw [show maybe_async (hset h.length (fun _ => mdDone (.sdict d.toL))
            (hset h.length (fun _ => mdD false (.sdict d.toL) [])
              (h ++ [mdD false (Strm.sdict []) []] ++ ext1)))
            (V.dref h.length)
          = result_or_self (hset h.length (fun _ => mdDone (.sdict d.toL))
            (hset h.length (fun _ => mdD false (.sdict d.toL) [])
              (h ++ [mdD false (Strm.sdict []) []] ++ ext1))) h.length
          from rfl]
      rw [result_or_self_mdDone _ _ _ hget2]
      rfl
    refine ⟨mdDone (.sdict d.toL) :: ext1, ?_⟩
    rw [show f + (8 + SVD.need d) = (f + 7 + SVD.need d) + 1 from by omega]
    rw [md_add_step (f + 7 + SVD.need d) cid k (V.vdict d.toL) h s p hcid
      rfl rfl]
    simp only [V.isContainer, reduceIte]
    rw [hmk]
    dsimp only []
    rw [md_store_not_dref (f + 7 + SVD.need d) cid k (V.vdict d.toL) _ rfl]
    have hcidB : hget (hset h.length (fun _ => mdDone (.sdict d.toL))
        (hset h.length (fun _ => mdD false (.sdict d.toL) [])
          (h ++ [mdD false (Strm.sdict []) []] ++ ext1))) cid
        = mdD false s p := by
      rw [hget_hset_ne _ _ (by omega : ¬ h.length = cid),
        hget_hset_ne _ _ (by omega : ¬ h.length = cid),
        hget_append_left ext1 (by simp; omega),
        hget_append_left [mdD false (Strm.sdict []) []] hlen, hcid]
    rw [md_setitem_mdD cid k (V.vdict d.toL) _ s p hcidB rfl]
    rw [hset_const_const, List.append_assoc, List.singleton_append,
      hset_append_mid]

theorem md_update_list_settled (l : SVL) :
    ∀ (f cid start : Nat) (s : List V) (p : List (Key × Nat)) (h : Heap),
    l.wf = true → start = s.length → cid < h.length →
    hget h cid = mdD false (.slist s) p →
    ∃ ext, md_update_list (f + l.need) cid start l.toL h
      = (hset cid (fun _ => mdD false (.slist (s ++ l.toL)) p) (h ++ ext),
         none) := by
  intro f cid start s p h hwf hstart hlen hcid
  cases l with
  | nil =>
    refine ⟨[], ?_⟩
    simp only [SVL.need, SVL.toL]
    rw [md_update_list, List.append_nil, List.append_nil,
      hset_self_id _ _ _ hcid]
  | cons x r =>
    simp only [SVL.wf] at hwf
    simp only [Bool.and_eq_true] at hwf
    obtain ⟨hwx, hwr⟩ := hwf
    simp only [SVL.need, SVL.toL]
    rw [show f + (1 + x.need + SVL.need r) = (f + x.need + SVL.need r) + 1
      from by omega]
    rw [md_update_list]
    obtain ⟨ext1, hadd⟩ := md_add_settled x (f + SVL.need r) cid (.ik start)
      (.slist s) p h hwx hlen hcid
    nth_rewrite 1 [show f + x.need + SVL.need r = f + SVL.need r + x.need
      from by omega]
    rw [hadd]
    dsimp only []
    rw [hstart]
    rw [show strm_set (.slist s) (.ik s.length) x.toV = .slist (s ++ [x.toV])
      from by dsimp only [strm_set]; rw [if_pos rfl]]
    obtain ⟨ext2, hrec⟩ := md_update_list_settled r (f + x.need) cid
      (s.length + 1) (s ++ [x.toV]) p
      (hset cid (fun _ => mdD false (.slist (s ++ [x.toV])) p) (h ++ ext1))
      hwr (by simp) (by rw [hset_length]; simp; omega)
      (hget_hset_self _ (by simp; omega))
    rw [hrec]
    refine ⟨ext1 ++ ext2, ?_⟩
    rw [← hset_append_left _ (h ++ ext1) ext2 (by simp; omega),
      hset_const_const]
    simp only [List.append_assoc, List.singleton_append]

theorem md_update_dict_settled (d : SVD) :
    ∀ (f cid : Nat) (a : List (String × V)) (p : List (Key × Nat)) (h : Heap),
    d.wf = true → keysNodupB d.keys = true →
    (∀ key ∈ d.keys, key ∉ a.map Prod.fst) → cid < h.length →
    hget h cid = mdD false (.sdict a) p →
    ∃ ext, md_update_dict (f + d.need) cid d.toL h
      = (hset cid (fun _ => mdD false (.sdict (a ++ d.toL)) p) (h ++ ext),
         none) := by
  intro f cid a p h hwf hnd hfresh hlen hcid
  cases d with
  | nil =>
    refine ⟨[], ?_⟩
    simp only [SVD.need, SVD.toL]
    rw [md_update_dict, List.append_nil, List.append_nil,
      hset_self_id _ _ _ hcid]
  | cons s0 x r =>
    simp only [SVD.wf] at hwf
    simp only [Bool.and_eq_true] at hwf
    obtain ⟨hwx, hwr⟩ := hwf
    simp only [SVD.keys, keysNodupB, Bool.and_eq_true,
      Bool.not_eq_true'] at hnd
    obtain ⟨hs0, hndr⟩ := hnd
    have hs0nm : s0 ∉ r.keys := by simpa using hs0
    have hfr0 : s0 ∉ a.map Prod.fst :=
      hfresh s0 (by simp [SVD.keys])
    simp only [SVD.need, SVD.toL]
    rw [show f + (1 + x.need + SVD.need r) = (f + x.need + SVD.need r) + 1
      from by omega]
    rw [md_update_dict]
    obtain ⟨ext1, hadd⟩ := md_add_settled x (f + SVD.need r) cid (.sk s0)
      (.sdict a) p h hwx hlen hcid
    nth_rewrite 1 [show f + x.need + SVD.need r = f + SVD.need r + x.need
      from by omega]
    rw [hadd]
    dsimp only []
    rw [show strm_set (.sdict a) (.sk s0) x.toV
        = .sdict (a ++ [(s0, x.toV)])
      from by dsimp only [strm_set]; rw [assocSet_fresh a s0 x.toV hfr0]]
    obtain ⟨ext2, hrec⟩ := md_update_dict_settled r (f + x.need) cid
      (a ++ [(s0, x.toV)]) p
      (hset cid (fun _ => mdD false (.sdict (a ++ [(s0, x.toV)])) p)
        (h ++ ext1))
      hwr hndr
      (by
        intro key hkey
        simp only [List.map_append, List.map_cons, List.map_nil,
          List.mem_append, List.mem_singleton, not_or]
        refine ⟨hfresh key (by simp [SVD.keys, hkey]), ?_⟩
        intro he
        exact hs0nm (he ▸ hkey))
      (by rw [hset_length]; simp; omega)
      (hget_hset_self _ (by simp; omega))
    rw [hrec]
    refine ⟨ext1 ++ ext2, ?_⟩
    rw [← hset_append_left _ (h ++ ext1) ext2 (by simp; omega),
      hset_const_const]
    simp only [List.append_assoc, List.singleton_append]

end

/-- The state of a leaf deferred watched by the multideferred at `cid`
under container key `k` (fresh, with the `_deferred_done` continuation
attached in both slots). -/
def watchD (cid : Nat) (k : Key) : DState :=
  ⟨false, none, 0, false, [(.mdDone cid k, .mdDone cid k)], none⟩

/-- The state of a leaf deferred after it has settled with `v` and its
continuation has run. -/
def doneD (v : V) : DState := ⟨true, some v, 0, false, [], none⟩

theorem strm_to_v_not_dref (st : Strm) : (strm_to_v st).isDref = false := by
  cases st <;> rfl

theorem deferred_done_more (f cid : Nat) (k : Key) (v : V) (h : Heap)
    (s : Strm) (P : List (Key × Nat)) (hlen : cid < h.length)
    (hcid : hget h cid = mdD true s P) (hvf : v.isFailureB = false)
    (hP1 : P.filter (fun q => !(q.1 == k)) ≠ []) :
    deferred_done (f + 8) cid k v h
      = (hset cid
          (fun _ => mdD true (strm_set s k v)
            (P.filter (fun q => !(q.1 == k)))) h, .ok v) := by
  rw [show f + 8 = (f + 7) + 1 from rfl, deferred_done]
  rw [hset_eval cid _ h (mdD true s (P.filter (fun q => !(q.1 == k))))
    (by rw [hcid]; rfl)]
  rw [md_setitem_mdD cid k v
      (hset cid (fun _ => mdD true s (P.filter (fun q => !(q.1 == k)))) h)
      s (P.filter (fun q => !(q.1 == k))) (hget_hset_self _ hlen) hvf]
  rw [hset_const_const]
  rw [hget_hset_self _ hlen]
  dsimp only [mdD]
  rw [show (P.filter (fun q => !(q.1 == k))).isEmpty = false from by
    simp [List.isEmpty_iff, hP1]]
  rfl

theorem deferred_done_last (f cid : Nat) (k : Key) (v : V) (h : Heap)
    (s : Strm) (P : List (Key × Nat)) (hlen : cid < h.length)
    (hcid : hget h cid = mdD true s P) (hvf : v.isFailureB = false)
    (hP1 : P.filter (fun q => !(q.1 == k)) = []) :
    deferred_done (f + 8) cid k v h
      = (hset cid (fun _ => mdDone (strm_set s k v)) h, .ok v) := by
  rw [show f + 8 = (f + 7) + 1 from rfl, deferred_done]
  rw [hset_eval cid _ h (mdD true s [])
    (by rw [hcid]; dsimp only [mdD]; rw [hP1])]
  rw [md_setitem_mdD cid k v
      (hset cid (fun _ => mdD true s []) h)
      s [] (hget_hset_self _ hlen) hvf]
  rw [hset_const_const]
  rw [hget_hset_self _ hlen]
  simp only [mdD, List.isEmpty_nil, Bool.not_true, Bool.not_false,
    Bool.and_true, Bool.true_and, Bool.and_false, Bool.false_and,
    Bool.true_eq_false, Bool.false_eq_true, if_true, if_false, reduceIte]
  rw [show f + 7 = (f + 6) + 1 from rfl, md_finish]
  rw [hget_hset_self _ hlen]
  simp only [mdD, List.isEmpty_nil, Bool.not_true, Bool.not_false,
    Bool.and_true, Bool.true_and, Bool.and_false, Bool.false_and,
    Bool.true_eq_false, Bool.false_eq_true, if_true, if_false, reduceIte]
  rw [show f + 6 = (f + 5) + 1 from rfl, deferred_callback,
    strm_to_v_not_dref]
  simp only [Bool.false_eq_true, if_false]
  rw [hget_hset_self _ hlen]
  simp only [mdD, Bool.false_eq_true, if_false]
  rw [hset_hset]
  rw [hset_eval cid _ h (mdDone (strm_set s k v))
    (by dsimp only; rw [as_failure_strm]; rfl)]
  rw [show f + 5 = (f + 4) + 1 from rfl, run_callbacks,
    hget_hset_self _ hlen]
  simp only [mdDone, Bool.not_true, Bool.false_or, bne_self_eq_false,
    Bool.or_self, Bool.false_eq_true, if_false, reduceIte]
  rw [drain_loop, hget_hset_self _ hlen]

theorem settle_drain (f j cid : Nat) (k : Key) (v : V) (h : Heap)
    (D : DState) (hjlen : j < h.length) (hne : cid ≠ j)
    (hj : hget h j = watchD cid k)
    (hvd : v.isDref = false) (hve : v.isExc = false)
    (hvf : v.isFailureB = false)
    (hdd : deferred_done (f + 8) cid k v
        (hset j (fun _ => (⟨true, some v, 0, true, [], none⟩ : DState)) h)
      = (hset cid (fun _ => D)
          (hset j (fun _ => (⟨true, some v, 0, true, [], none⟩ : DState)) h),
         .ok v)) :
    deferred_callback (f + 12) j v h
      = (hset j (fun _ => doneD v) (hset cid (fun _ => D) h), none) := by
  rw [show f + 12 = (f + 11) + 1 from rfl,
    deferred_callback_go (f + 11) j v h hvd (by rw [hj]; rfl)]
  rw [hset_eval j _ h
    (⟨true, some v, 0, false, [(.mdDone cid k, .mdDone cid k)], none⟩ : DState)
    (by rw [hj]; dsimp only [watchD]; rw [as_failure_not_exc v hve])]
  rw [show f + 11 = (f + 10) + 1 from rfl,
    run_callbacks_go (f + 10) j _ (by rw [hget_hset_self _ hjlen])
      (by rw [hget_hset_self _ hjlen]) (by rw [hget_hset_self _ hjlen])]
  rw [show f + 10 = (f + 9) + 1 from rfl,
    drain_loop_step (f + 9) j _ (.mdDone cid k) (.mdDone cid k) [] v
      (by rw [hget_hset_self _ hjlen]) (by rw [hget_hset_self _ hjlen]) hvf]
  rw [hset_hset]
  rw [hset_eval j _ h (⟨true, some v, 0, true, [], none⟩ : DState) rfl]
  rw [show f + 9 = (f + 8) + 1 from rfl, eval_handler]
  rw [hdd]
  dsimp only []
  rw [maybe_async_not_dref _ v hvd, as_failure_not_exc v hve,
    drefIdx_not_dref hvd]
  dsimp only []
  rw [show hset cid (fun _ => D)
      (hset j (fun _ => (⟨true, some v, 0, true, [], none⟩ : DState)) h)
    = hset j (fun _ => (⟨true, some v, 0, true, [], none⟩ : DState))
      (hset cid (fun _ => D) h) from hset_comm hne _ _ h]
  rw [hset_hset, hset_hset]
  rw [hset_eval j _ (hset cid (fun _ => D) h) (doneD v) rfl]
  rw [drain_loop_empty _ _ _ (by
    rw [hget_hset_self _ (by rw [hset_length]; exact hjlen)]; rfl)]

theorem settle_step_more (f j cid : Nat) (k : Key) (v : V) (h : Heap)
    (s : Strm) (P : List (Key × Nat))
    (hjlen : j < h.length) (hclen : cid < h.length) (hne : cid ≠ j)
    (hj : hget h j = watchD cid k) (hcid : hget h cid = mdD true s P)
    (hvd : v.isDref = false) (hve : v.isExc = false)
    (hvf : v.isFailureB = false)
    (hP1 : P.filter (fun q => !(q.1 == k)) ≠ []) :
    deferred_callback (f + 12) j v h
      = (hset j (fun _ => doneD v)
          (hset cid (fun _ => mdD true (strm_set s k v)
            (P.filter (fun q => !(q.1 == k)))) h), none) :=
  settle_drain f j cid k v h _ hjlen hne hj hvd hve hvf
    (deferred_done_more f cid k v _ s P
      (by rw [hset_length]; exact hclen)
      (by rw [hget_hset_ne _ _ (fun e => hne e.symm)]; exact hcid)
      hvf hP1)

theorem settle_step_last (f j cid : Nat) (k : Key) (v : V) (h : Heap)
    (s : Strm) (P : List (Key × Nat))
    (hjlen : j < h.length) (hclen : cid < h.length) (hne : cid ≠ j)
    (hj : hget h j = watchD cid k) (hcid : hget h cid = mdD true s P)
    (hvd : v.isDref = false) (hve : v.isExc = false)
    (hvf : v.isFailureB = false)
    (hP1 : P.filter (fun q => !(q.1 == k)) = []) :
    deferred_callback (f + 12) j v h
      = (hset j (fun _ => doneD v)
          (hset cid (fun _ => mdDone (strm_set s k v)) h), none) :=
  settle_drain f j cid k v h _ hjlen hne hj hvd hve hvf
    (deferred_done_last f cid k v _ s P
      (by rw [hset_length]; exact hclen)
      (by rw [hget_hset_ne _ _ (fun e => hne e.symm)]; exact hcid)
      hvf hP1)

/-- Settle a sequence of watched leaf deferreds in order: each gets
`callback(w j)` with the given fuel. -/
def settle_list (fuel : Nat) (w : Nat → V) : List (Key × Nat) → Heap → Heap
  | [], h => h
  | q :: rest, h =>
    settle_list fuel w rest (deferred_callback fuel q.2 (w q.2) h).1

/-- The stream after writing each settled value at its key, in settle
order. -/
def strmFold (w : Nat → V) (s : Strm) (ord : List (Key × Nat)) : Strm :=
  ord.foldl (fun st q => strm_set st q.1 (w q.2)) s

theorem settle_go (ord : List (Key × Nat)) :
    ∀ (f : Nat) (P : List (Key × Nat)) (s : Strm) (B ext : Heap)
      (w : Nat → V),
    (∀ q ∈ ord, q ∈ P) →
    (ord.map Prod.fst).Nodup →
    (∀ q ∈ P, ∀ q' ∈ P, q.2 = q'.2 → q = q') →
    (∀ q ∈ P, (w q.2).isDref = false ∧ (w q.2).isExc = false ∧
      (w q.2).isFailureB = false) →
    (∀ q ∈ P, q.2 < B.length) →
    (∀ q ∈ ord, hget B q.2 = watchD B.length q.1) →
    P ≠ [] →
    ∃ B2 : Heap, B2.length = B.length ∧
      settle_list (f + 12) w ord (B ++ mdD true s P :: ext)
        = B2 ++
            (if P.filter (fun q => !((ord.map Prod.fst).contains q.1)) = []
             then mdDone (strmFold w s ord)
             else mdD true (strmFold w s ord)
               (P.filter (fun q => !((ord.map Prod.fst).contains q.1))))
            :: ext := by
  induction ord with
  | nil =>
    intro f P s B ext w hsub hknd hinj hw hbl hwatch hPne
    refine ⟨B, rfl, ?_⟩
    rw [settle_list]
    have hfilt : P.filter
        (fun q => !((([] : List (Key × Nat)).map Prod.fst).contains q.1))
        = P := List.filter_eq_self.mpr (fun a _ => rfl)
    rw [hfilt, if_neg hPne]
    rfl
  | cons q rest ih =>
    intro f P s B ext w hsub hknd hinj hw hbl hwatch hPne
    obtain ⟨k, j⟩ := q
    have hqP : (k, j) ∈ P := hsub _ (List.mem_cons_self _ _)
    have hrsub : ∀ q ∈ rest, q ∈ P :=
      fun q hq => hsub q (List.mem_cons_of_mem _ hq)
    simp only [List.map_cons, List.nodup_cons] at hknd
    obtain ⟨hknotin, hkndr⟩ := hknd
    have hjB : j < B.length := hbl _ hqP
    have hwv := hw _ hqP
    have hstep0 : hget (B ++ mdD true s P :: ext) j = watchD B.length k :=
      (hget_append_left _ hjB).trans (hwatch _ (List.mem_cons_self _ _))
    have hcid0 : hget (B ++ mdD true s P :: ext) B.length = mdD true s P :=
      hget_append_mid B ext _
    by_cases hP1 : P.filter (fun q => !(q.1 == k)) = []
    · -- final settlement: everything else already resolved
      have hrest : rest = [] := by
        cases rest with
        | nil => rfl
        | cons q' r' =>
          exfalso
          have hq'P : q' ∈ P := hrsub _ (List.mem_cons_self _ _)
          have hq'k : ¬ q'.1 = k := by
            intro he
            exact hknotin (he ▸ List.mem_map_of_mem Prod.fst
              (List.mem_cons_self _ _))
          have : q' ∈ P.filter (fun q => !(q.1 == k)) :=
            List.mem_filter.mpr ⟨hq'P, by simp [hq'k]⟩
          rw [hP1] at this
          exact absurd this (List.not_mem_nil q')
      subst hrest
      refine ⟨hset j (fun _ => doneD (w j)) B, by rw [hset_length], ?_⟩
      rw [settle_list]
      rw [settle_step_last f j B.length k (w j) _ s P
        (by simp [hjB]; omega) (by simp) (by omega)
        hstep0 hcid0 hwv.1 hwv.2.1 hwv.2.2 hP1]
      dsimp only []
      rw [settle_list]
      rw [hset_append_mid, hset_append_left _ B _ hjB]
      have hfilt : P.filter
          (fun q => !(((((k, j) :: ([] : List (Key × Nat)))).map
            Prod.fst).contains q.1)) = [] := by
        have hcongr : P.filter
            (fun q => !(((((k, j) :: ([] : List (Key × Nat)))).map
              Prod.fst).contains q.1))
            = P.filter (fun q => !(q.1 == k)) := by
          apply List.filter_congr
          intro a _
          simp only [List.map_cons, List.map_nil, List.contains_cons]
          cases hak : a.1 == k <;> rfl
        rw [hcongr, hP1]
      rw [hfilt]
      rfl
    · -- more children pending afterwards
      refine ?_
      have hstep := settle_step_more f j B.length k (w j)
        (B ++ mdD true s P :: ext) s P
        (by simp [hjB]; omega) (by simp) (by omega)
        hstep0 hcid0 hwv.1 hwv.2.1 hwv.2.2 hP1
      obtain ⟨B2, hlen2, heq⟩ := ih f (P.filter (fun q => !(q.1 == k)))
        (strm_set s k (w j)) (hset j (fun _ => doneD (w j)) B) ext w
        (by
          intro q' hq'
          have hq'P : q' ∈ P := hrsub _ hq'
          have hq'k : ¬ q'.1 = k := by
            intro he
            exact hknotin (he ▸ List.mem_map_of_mem Prod.fst hq')
          exact List.mem_filter.mpr ⟨hq'P, by simp [hq'k]⟩)
        hkndr
        (by
          intro a ha b hb hab
          exact hinj a (List.mem_of_mem_filter ha) b
            (List.mem_of_mem_filter hb) hab)
        (by
          intro a ha
          exact hw a (List.mem_of_mem_filter ha))
        (by
          intro a ha
          rw [hset_length]
          exact hbl a (List.mem_of_mem_filter ha))
        (by
          intro a ha
          have haP : a ∈ P := hrsub _ ha
          have hanej : ¬ a.2 = j := by
            intro he
            have hak : a = (k, j) := hinj a haP (k, j) hqP he
            have h1 : a.1 ∈ List.map Prod.fst rest :=
              List.mem_map_of_mem Prod.fst ha
            rw [hak] at h1
            exact hknotin h1
          rw [hset_length, hget_hset_ne _ _ (fun e => hanej e.symm)]
          exact hwatch a (List.mem_cons_of_mem _ ha))
        hP1
      refine ⟨B2, by rw [hlen2, hset_length], ?_⟩
      rw [settle_list, hstep]
      dsimp only []
      rw [hset_append_mid, hset_append_left _ B _ hjB]
      rw [heq]
      have hfiltc : (P.filter (fun q => !(q.1 == k))).filter
          (fun q => !((rest.map Prod.fst).contains q.1))
          = P.filter
            (fun q => !(((((k, j) :: rest)).map Prod.fst).contains q.1)) := by
        rw [List.filter_filter]
        apply List.filter_congr
        intro a _
        simp only [List.map_cons, List.contains_cons, Bool.not_or]
        rw [Bool.and_comm]
      rw [hfiltc]
      rfl

/-- One top-level entry of the verified container: a settled tree or an
unsettled leaf deferred (by heap address). -/
inductive Ent where
  | sval (sv : SV)
  | edef (j : Nat)

/-- The chain value of an entry before any settlement. -/
def Ent.toV : Ent → V
  | .sval sv => sv.toV
  | .edef j => .dref j

/-- The value an entry resolves to once the leaf at `j` settles with
`w j`. -/
def Ent.res (w : Nat → V) : Ent → V
  | .sval sv => sv.toV
  | .edef j => w j

/-- Fuel sufficient to `_add` one entry. -/
def Ent.need : Ent → Nat
  | .sval sv => sv.need
  | .edef _ => 3

/-- The leaf addresses of a `list` of entries, in order. -/
def entLeaves : List Ent → List Nat
  | [] => []
  | .sval _ :: r => entLeaves r
  | .edef j :: r => j :: entLeaves r

/-- The leaf addresses of a `dict` of entries, in order. -/
def entLeavesD : List (String × Ent) → List Nat
  | [] => []
  | (_, .sval _) :: r => entLeavesD r
  | (_, .edef j) :: r => j :: entLeavesD r

/-- The pending map a `list` container registers, enumerating from
`start`. -/
def pendL : Nat → List Ent → List (Key × Nat)
  | _, [] => []
  | start, .sval _ :: r => pendL (start + 1) r
  | start, .edef j :: r => (.ik start, j) :: pendL (start + 1) r

/-- The pending map a `dict` container registers. -/
def pendD : List (String × Ent) → List (Key × Nat)
  | [] => []
  | (_, .sval _) :: r => pendD r
  | (s, .edef j) :: r => (.sk s, j) :: pendD r

/-- Fuel sufficient for `update` over a `list` of entries. -/
def needEL : List Ent → Nat
  | [] => 1
  | e :: r => 1 + e.need + needEL r

/-- Fuel sufficient for `update` over a `dict` of entries. -/
def needED : List (String × Ent) → Nat
  | [] => 1
  | (_, e) :: r => 1 + e.need + needED r

/-- Attach the watcher state for every pending child leaf. -/
def regAll (cid : Nat) (P : List (Key × Nat)) (h : Heap) : Heap :=
  P.foldl (fun hh q => hset q.2 (fun _ => watchD cid q.1) hh) h

theorem regAll_length (cid : Nat) (P : List (Key × Nat)) (h : Heap) :
    (regAll cid P h).length = h.length := by
  induction P generalizing h with
  | nil => rfl
  | cons q r ih => rw [regAll, List.foldl_cons, ← regAll, ih, hset_length]

theorem regAll_snoc (cid : Nat) (P : List (Key × Nat)) (k : Key) (j : Nat)
    (h : Heap) :
    regAll cid (P ++ [(k, j)]) h
      = hset j (fun _ => watchD cid k) (regAll cid P h) := by
  rw [regAll, List.foldl_append]
  rfl

theorem regAll_get_ne (cid : Nat) (P : List (Key × Nat)) {j : Nat} :
    ∀ h : Heap, j ∉ P.map Prod.snd → hget (regAll cid P h) j = hget h j := by
  induction P with
  | nil => intro h _; rfl
  | cons q r ih =>
    intro h hj
    simp only [List.map_cons, List.mem_cons, not_or] at hj
    rw [regAll, List.foldl_cons, ← regAll, ih _ hj.2,
      hget_hset_ne _ _ (fun e => hj.1 e.symm)]

theorem regAll_get_mem (cid : Nat) (P : List (Key × Nat)) :
    ∀ h : Heap, (P.map Prod.snd).Nodup →
    ∀ q ∈ P, q.2 < h.length → hget (regAll cid P h) q.2 = watchD cid q.1 := by
  induction P with
  | nil => intro h _ q hq; exact absurd hq (List.not_mem_nil q)
  | cons q0 r ih =>
    intro h hnd q hq hlt
    simp only [List.map_cons, List.nodup_cons] at hnd
    rw [regAll, List.foldl_cons, ← regAll]
    rcases List.mem_cons.mp hq with heq | hmem
    · subst heq
      rw [regAll_get_ne _ _ _ hnd.1, hget_hset_self _ hlt]
    · exact ih (hset q0.2 (fun _ => watchD cid q0.1) h) hnd.2 q hmem
        (by rw [hset_length]; exact hlt)

theorem md_add_dref (f cid : Nat) (k : Key) (j : Nat) (h : Heap)
    (s : Strm) (P : List (Key × Nat)) (hcid : hget h cid = mdD false s P)
    (hj : hget h j = freshD) (hne : j ≠ cid) (hclen : cid < h.length) :
    md_add (f + 3) cid k (.dref j) h
      = (hset j (fun _ => watchD cid k)
          (hset cid
            (fun _ => mdD false (strm_set s k (.dref j)) (P ++ [(k, j)])) h),
         none) := by
  rw [show f + 3 = (f + 2) + 1 from rfl, md_add, hcid]
  dsimp only [mdD]
  rw [show maybe_async h (V.dref j) = result_or_self h j from rfl,
    result_or_self_not_called h j (by rw [hj]; rfl)]
  dsimp only [V.isContainer, V.isDref]
  simp only [Bool.false_eq_true, if_false, Bool.true_eq_false, reduceIte]
  rw [md_store]
  rw [md_setitem_mdD cid k (V.dref j) h s P hcid rfl]
  rw [hset_eval cid (fun st =>
      match st.md with
      | none => st
      | some mm => { st with md := some { mm with
          pending := mm.pending ++ [(k, j)] } })
    (hset cid (fun _ => mdD false (strm_set s k (V.dref j)) P) h)
    (mdD false (strm_set s k (V.dref j)) (P ++ [(k, j)]))
    (by rw [hget_hset_self _ hclen]; rfl)]
  rw [hset_const_const]
  rw [show f + 2 = (f + 1) + 1 from rfl, add_both]
  rw [add_callback_not_called f j _ _ _
    (by rw [hget_hset_ne _ _ (fun e => hne e.symm), hj]; rfl)]
  dsimp only []
  rw [hset_eval j _ (hset cid
      (fun _ => mdD false (strm_set s k (V.dref j)) (P ++ [(k, j)])) h)
    (watchD cid k)
    (by rw [hget_hset_ne _ _ (fun e => hne e.symm), hj]; rfl)]
  rfl


theorem hget_append_mid2 (a b : Heap) (m : DState) {i : Nat}
    (hi : i = a.length) : hget (a ++ m :: b) i = m := by
  subst hi; exact hget_append_mid a b m

theorem hset_append_mid2 (f : DState → DState) (a b : Heap) (m : DState)
    {i : Nat} (hi : i = a.length) : hset i f (a ++ m :: b) = a ++ f m :: b := by
  subst hi; exact hset_append_mid f a b m

theorem md_update_list_root (l : List Ent) :
    ∀ (f start : Nat) (s : List V) (P : List (Key × Nat)) (h₀ ext : Heap),
    (∀ e ∈ l, match e with
      | .sval sv => sv.wf = true
      | .edef j => j < h₀.length ∧ hget h₀ j = freshD) →
    (∀ j ∈ entLeaves l, j ∉ P.map Prod.snd) →
    (entLeaves l).Nodup →
    start = s.length →
    ∃ ext2, md_update_list (f + needEL l) h₀.length start (l.map Ent.toV)
        (regAll h₀.length P h₀ ++ mdD false (.slist s) P :: ext)
      = (regAll h₀.length (P ++ pendL start l) h₀
          ++ mdD false (.slist (s ++ l.map Ent.toV)) (P ++ pendL start l)
            :: (ext ++ ext2), none) := by
  induction l with
  | nil =>
    intro f start s P h₀ ext hwf hfresh hnd hstart
    refine ⟨[], ?_⟩
    simp only [needEL, List.map_nil, pendL, List.append_nil]
    rw [md_update_list]
  | cons e r ih =>
    intro f start s P h₀ ext hwf hfresh hnd hstart
    have hClen : h₀.length
        < (regAll h₀.length P h₀ ++ mdD false (.slist s) P :: ext).length := by
      simp [regAll_length]
    have hCcid : hget (regAll h₀.length P h₀ ++ mdD false (.slist s) P :: ext)
        h₀.length = mdD false (.slist s) P :=
      hget_append_mid2 _ _ _ (regAll_length _ _ _).symm
    cases e with
    | sval sv =>
      have hwsv : sv.wf = true := hwf _ (List.mem_cons_self _ _)
      have hwfr : ∀ e ∈ r, match e with
          | Ent.sval sv => sv.wf = true
          | Ent.edef j => j < h₀.length ∧ hget h₀ j = freshD :=
        fun e he => hwf e (List.mem_cons_of_mem _ he)
      simp only [needEL, Ent.need]
      rw [show f + (1 + sv.need + needEL r) = (f + sv.need + needEL r) + 1
        from by omega]
      simp only [List.map_cons, Ent.toV]
      rw [md_update_list]
      obtain ⟨ext1, hadd⟩ := md_add_settled sv (f + needEL r) h₀.length
        (.ik start) (.slist s) P
        (regAll h₀.length P h₀ ++ mdD false (.slist s) P :: ext)
        hwsv hClen hCcid
      nth_rewrite 1 [show f + sv.need + needEL r = f + needEL r + sv.need
        from by omega]
      rw [hadd]
      dsimp only []
      rw [hstart]
      rw [show strm_set (.slist s) (.ik s.length) sv.toV
          = .slist (s ++ [sv.toV]) from by
        dsimp only [strm_set]; rw [if_pos rfl]]
      rw [show (regAll h₀.length P h₀ ++ mdD false (.slist s) P :: ext) ++ ext1
          = regAll h₀.length P h₀ ++ mdD false (.slist s) P :: (ext ++ ext1)
        from by simp]
      rw [hset_append_mid2 _ _ _ _ (regAll_length _ _ _).symm]
      obtain ⟨ext2, hrec⟩ := ih (f + sv.need) (s.length + 1) (s ++ [sv.toV])
        P h₀ (ext ++ ext1) hwfr (by simpa [entLeaves] using hfresh)
        (by simpa [entLeaves] using hnd) (by simp)
      rw [hrec]
      refine ⟨ext1 ++ ext2, ?_⟩
      simp only [pendL, List.append_assoc, List.singleton_append,
        List.cons_append, List.nil_append]
    | edef j =>
      obtain ⟨hjlen, hjfresh⟩ :
          j < h₀.length ∧ hget h₀ j = freshD := hwf _ (List.mem_cons_self _ _)
      have hwfr : ∀ e ∈ r, match e with
          | Ent.sval sv => sv.wf = true
          | Ent.edef j => j < h₀.length ∧ hget h₀ j = freshD :=
        fun e he => hwf e (List.mem_cons_of_mem _ he)
      have hjP : j ∉ P.map Prod.snd :=
        hfresh _ (by simp [entLeaves])
      simp only [entLeaves, List.nodup_cons] at hnd
      have hHj : hget (regAll h₀.length P h₀ ++ mdD false (.slist s) P :: ext) j
          = freshD := by
        rw [hget_append_left _ (by rw [regAll_length]; exact hjlen),
          regAll_get_ne _ _ _ hjP, hjfresh]
      simp only [needEL, Ent.need]
      rw [show f + (1 + 3 + needEL r) = (f + 3 + needEL r) + 1 from by omega]
      simp only [List.map_cons, Ent.toV]
      rw [md_update_list]
      nth_rewrite 1 [show f + 3 + needEL r = f + needEL r + 3 from by omega]
      rw [md_add_dref (f + needEL r) h₀.length (.ik start) j _ (.slist s) P
        hCcid hHj (by omega) hClen]
      dsimp only []
      rw [hstart]
      rw [show strm_set (.slist s) (.ik s.length) (V.dref j)
          = .slist (s ++ [V.dref j]) from by
        dsimp only [strm_set]; rw [if_pos rfl]]
      rw [hset_append_mid2 _ _ _ _ (regAll_length _ _ _).symm]
      rw [hset_append_left _ _ _ (by rw [regAll_length]; exact hjlen)]
      rw [← regAll_snoc]
      obtain ⟨ext2, hrec⟩ := ih (f + 3) (s.length + 1) (s ++ [V.dref j])
        (P ++ [(.ik s.length, j)]) h₀ ext hwfr
        (by
          intro j' hj'
          simp only [List.map_append, List.map_cons, List.map_nil,
            List.mem_append, List.mem_singleton, not_or]
          refine ⟨hfresh j' (by simp [entLeaves, hj']), ?_⟩
          intro he
          exact hnd.1 (he ▸ hj'))
        hnd.2 (by simp)
      rw [hrec]
      refine ⟨ext2, ?_⟩
      simp only [pendL, List.append_assoc, List.singleton_append,
        List.cons_append, List.nil_append]

theorem md_update_dict_root (l : List (String × Ent)) :
    ∀ (f : Nat) (a : List (String × V)) (P : List (Key × Nat)) (h₀ ext : Heap),
    (∀ p ∈ l, match p.2 with
      | Ent.sval sv => sv.wf = true
      | Ent.edef j => j < h₀.length ∧ hget h₀ j = freshD) →
    (∀ j ∈ entLeavesD l, j ∉ P.map Prod.snd) →
    (entLeavesD l).Nodup →
    (l.map Prod.fst).Nodup →
    (∀ key ∈ l.map Prod.fst, key ∉ a.map Prod.fst) →
    ∃ ext2, md_update_dict (f + needED l) h₀.length
        (l.map (fun p => (p.1, p.2.toV)))
        (regAll h₀.length P h₀ ++ mdD false (.sdict a) P :: ext)
      = (regAll h₀.length (P ++ pendD l) h₀
          ++ mdD false (.sdict (a ++ l.map (fun p => (p.1, p.2.toV))))
              (P ++ pendD l)
            :: (ext ++ ext2), none) := by
  induction l with
  | nil =>
    intro f a P h₀ ext hwf hfresh hnd hknd hkfresh
    refine ⟨[], ?_⟩
    simp only [needED, List.map_nil, pendD, List.append_nil]
    rw [md_update_dict]
  | cons p r ih =>
    obtain ⟨s0, e⟩ := p
    intro f a P h₀ ext hwf hfresh hnd hknd hkfresh
    have hClen : h₀.length
        < (regAll h₀.length P h₀ ++ mdD false (.sdict a) P :: ext).length := by
      simp [regAll_length]
    have hCcid : hget (regAll h₀.length P h₀ ++ mdD false (.sdict a) P :: ext)
        h₀.length = mdD false (.sdict a) P :=
      hget_append_mid2 _ _ _ (regAll_length _ _ _).symm
    have hwfr : ∀ p ∈ r, match p.2 with
        | Ent.sval sv => sv.wf = true
        | Ent.edef j => j < h₀.length ∧ hget h₀ j = freshD :=
      fun p hp => hwf p (List.mem_cons_of_mem _ hp)
    simp only [List.map_cons, List.nodup_cons] at hknd
    have hs0a : s0 ∉ a.map Prod.fst := hkfresh _ (by simp)
    have hkfr : ∀ key ∈ r.map Prod.fst,
        key ∉ (a ++ [(s0, e.toV)]).map Prod.fst := by
      intro key hkey
      simp only [List.map_append, List.map_cons, List.map_nil,
        List.mem_append, List.mem_singleton, not_or]
      refine ⟨hkfresh key (by simp [hkey]), ?_⟩
      intro he
      exact hknd.1 (he ▸ hkey)
    have hstrm : strm_set (.sdict a) (.sk s0) e.toV
        = .sdict (a ++ [(s0, e.toV)]) := by
      dsimp only [strm_set]
      rw [assocSet_fresh a s0 e.toV hs0a]
    cases e with
    | sval sv =>
      have hwsv : sv.wf = true := hwf _ (List.mem_cons_self _ _)
      simp only [needED, Ent.need]
      rw [show f + (1 + sv.need + needED r) = (f + sv.need + needED r) + 1
        from by omega]
      rw [show ((s0, Ent.sval sv) :: r).map (fun p => (p.1, p.2.toV))
          = (s0, sv.toV) :: r.map (fun p => (p.1, p.2.toV)) from rfl]
      rw [md_update_dict]
      obtain ⟨ext1, hadd⟩ := md_add_settled sv (f + needED r) h₀.length
        (.sk s0) (.sdict a) P
        (regAll h₀.length P h₀ ++ mdD false (.sdict a) P :: ext)
        hwsv hClen hCcid
      nth_rewrite 1 [show f + sv.need + needED r = f + needED r + sv.need
        from by omega]
      rw [hadd]
      dsimp only []
      rw [show strm_set (.sdict a) (.sk s0) sv.toV
          = .sdict (a ++ [(s0, sv.toV)]) from hstrm]
      rw [show (regAll h₀.length P h₀ ++ mdD false (.sdict a) P :: ext) ++ ext1
          = regAll h₀.length P h₀ ++ mdD false (.sdict a) P :: (ext ++ ext1)
        from by simp]
      rw [hset_append_mid2 _ _ _ _ (regAll_length _ _ _).symm]
      obtain ⟨ext2, hrec⟩ := ih (f + sv.need) (a ++ [(s0, sv.toV)])
        P h₀ (ext ++ ext1) hwfr (by simpa [entLeavesD] using hfresh)
        (by simpa [entLeavesD] using hnd) hknd.2 hkfr
      rw [hrec]
      refine ⟨ext1 ++ ext2, ?_⟩
      simp only [pendD, List.append_assoc, List.singleton_append,
        List.cons_append, List.nil_append]
    | edef j =>
      obtain ⟨hjlen, hjfresh⟩ :
          j < h₀.length ∧ hget h₀ j = freshD := hwf _ (List.mem_cons_self _ _)
      have hjP : j ∉ P.map Prod.snd :=
        hfresh _ (by simp [entLeavesD])
      simp only [entLeavesD, List.nodup_cons] at hnd
      have hHj : hget (regAll h₀.length P h₀ ++ mdD false (.sdict a) P :: ext) j
          = freshD := by
        rw [hget_append_left _ (by rw [regAll_length]; exact hjlen),
          regAll_get_ne _ _ _ hjP, hjfresh]
      simp only [needED, Ent.need]
      rw [show f + (1 + 3 + needED r) = (f + 3 + needED r) + 1 from by omega]
      rw [show ((s0, Ent.edef j) :: r).map (fun p => (p.1, p.2.toV))
          = (s0, V.dref j) :: r.map (fun p => (p.1, p.2.toV)) from rfl]
      rw [md_update_dict]
      nth_rewrite 1 [show f + 3 + needED r = f + needED r + 3 from by omega]
      rw [md_add_dref (f + needED r) h₀.length (.sk s0) j _ (.sdict a) P
        hCcid hHj (by omega) hClen]
      dsimp only []
      rw [show strm_set (.sdict a) (.sk s0) (V.dref j)
          = .sdict (a ++ [(s0, V.dref j)]) from hstrm]
      rw [hset_append_mid2 _ _ _ _ (regAll_length _ _ _).symm]
      rw [hset_append_left _ _ _ (by rw [regAll_length]; exact hjlen)]
      rw [← regAll_snoc]
      obtain ⟨ext2, hrec⟩ := ih (f + 3) (a ++ [(s0, V.dref j)])
        (P ++ [(.sk s0, j)]) h₀ ext hwfr
        (by
          intro j' hj'
          simp only [List.map_append, List.map_cons, List.map_nil,
            List.mem_append, List.mem_singleton, not_or]
          refine ⟨hfresh j' (by simp [entLeavesD, hj']), ?_⟩
          intro he
          exact hnd.1 (he ▸ hj'))
        hnd.2 hknd.2 hkfr
      rw [hrec]
      refine ⟨ext2, ?_⟩
      simp only [pendD, List.append_assoc, List.singleton_append,
        List.cons_append, List.nil_append]

theorem md_lock_pending (f cid : Nat) (h : Heap) (st : Strm)
    (P : List (Key × Nat)) (hP : P ≠ []) (hlen : cid < h.length)
    (hcid : hget h cid = mdD false st P) :
    md_lock (f + 1) cid h = (hset cid (fun _ => mdD true st P) h, none) := by
  rw [md_lock, hcid]
  dsimp only [mdD]
  rw [show P.isEmpty = false from by simp [List.isEmpty_iff, hP]]
  simp only [Bool.false_eq_true, if_false, reduceIte]
  rw [hset_eval cid _ h (mdD true st P) (by rw [hcid]; rfl)]
  rfl

/-- The container cells with the leaves in `R` still pending and all
other leaves resolved through `w`. -/
def mixedL (w : Nat → V) (R : List Nat) (l : List Ent) : List V :=
  l.map (fun e => match e with
    | .sval sv => sv.toV
    | .edef j => if j ∈ R then .dref j else w j)

theorem pendL_snd (l : List Ent) :
    ∀ start, (pendL start l).map Prod.snd = entLeaves l := by
  induction l with
  | nil => intro start; rfl
  | cons e r ih =>
    intro start
    cases e with
    | sval sv => rw [pendL, entLeaves, ih]
    | edef j => rw [pendL, entLeaves, List.map_cons, ih]

theorem pendL_snd_sub (l : List Ent) :
    ∀ start k j, (k, j) ∈ pendL start l → j ∈ entLeaves l := by
  intro start k j hm
  rw [← pendL_snd l start]
  exact List.mem_map_of_mem Prod.snd hm

theorem mixedL_cons (w : Nat → V) (R : List Nat) (e : Ent) (r : List Ent) :
    mixedL w R (e :: r)
      = (match e with
         | .sval sv => sv.toV
         | .edef j => if j ∈ R then V.dref j else w j) :: mixedL w R r := rfl

theorem mixedL_congr (w : Nat → V) (R R' : List Nat) (l : List Ent)
    (hRR : ∀ x ∈ entLeaves l, (x ∈ R ↔ x ∈ R')) :
    mixedL w R l = mixedL w R' l := by
  induction l with
  | nil => rfl
  | cons e r ih =>
    cases e with
    | sval sv =>
      rw [mixedL_cons, mixedL_cons,
        ih (fun x hx => hRR x (by rw [entLeaves]; exact hx))]
    | edef j =>
      have hj := hRR j (by rw [entLeaves]; exact List.mem_cons_self _ _)
      rw [mixedL_cons, mixedL_cons,
        ih (fun x hx => hRR x (by
          rw [entLeaves]; exact List.mem_cons_of_mem _ hx))]
      dsimp only []
      by_cases hjR : j ∈ R
      · rw [if_pos hjR, if_pos (hj.mp hjR)]
      · rw [if_neg hjR, if_neg (fun hc => hjR (hj.mpr hc))]

theorem mixedL_toV (w : Nat → V) (R : List Nat) (l : List Ent)
    (hall : ∀ x ∈ entLeaves l, x ∈ R) :
    l.map Ent.toV = mixedL w R l := by
  induction l with
  | nil => rfl
  | cons e r ih =>
    cases e with
    | sval sv =>
      rw [List.map_cons, mixedL_cons,
        ih (fun x hx => hall x (by rw [entLeaves]; exact hx))]
      rfl
    | edef j =>
      rw [List.map_cons, mixedL_cons,
        ih (fun x hx => hall x (by
          rw [entLeaves]; exact List.mem_cons_of_mem _ hx))]
      dsimp only []
      rw [if_pos (hall j (by rw [entLeaves]; exact List.mem_cons_self _ _))]
      rfl

theorem mixedL_res (w : Nat → V) (R : List Nat) (l : List Ent)
    (hnone : ∀ x ∈ entLeaves l, x ∉ R) :
    mixedL w R l = l.map (Ent.res w) := by
  induction l with
  | nil => rfl
  | cons e r ih =>
    cases e with
    | sval sv =>
      rw [mixedL_cons, List.map_cons,
        ih (fun x hx => hnone x (by rw [entLeaves]; exact hx))]
      rfl
    | edef j =>
      rw [mixedL_cons, List.map_cons,
        ih (fun x hx => hnone x (by
          rw [entLeaves]; exact List.mem_cons_of_mem _ hx))]
      dsimp only []
      rw [if_neg (hnone j (by rw [entLeaves]; exact List.mem_cons_self _ _))]
      rfl

theorem set_mixedL (l : List Ent) :
    ∀ (pre : List V) (R R' : List Nat) (k : Key) (j : Nat) (w : Nat → V),
    (k, j) ∈ pendL pre.length l → j ∈ R →
    (∀ x, x ∈ R' ↔ (x ∈ R ∧ x ≠ j)) →
    (entLeaves l).Nodup →
    strm_set (.slist (pre ++ mixedL w R l)) k (w j)
      = .slist (pre ++ mixedL w R' l) := by
  induction l with
  | nil =>
    intro pre R R' k j w hm
    exact absurd hm (List.not_mem_nil _)
  | cons e r ih =>
    intro pre R R' k j w hm hjR hR' hnd
    cases e with
    | sval sv =>
      rw [pendL] at hm
      rw [mixedL_cons, mixedL_cons]
      dsimp only []
      rw [List.append_cons pre sv.toV (mixedL w R r),
        List.append_cons pre sv.toV (mixedL w R' r)]
      exact ih (pre ++ [sv.toV]) R R' k j w (by simpa using hm) hjR hR'
        (by simpa [entLeaves] using hnd)
    | edef j0 =>
      rw [pendL] at hm
      simp only [entLeaves, List.nodup_cons] at hnd
      rcases List.mem_cons.mp hm with heq | hmem
      · have hk : k = .ik pre.length := congrArg Prod.fst heq
        have hj0 : j = j0 := congrArg Prod.snd heq
        subst hk
        subst hj0
        rw [mixedL_cons, mixedL_cons]
        dsimp only []
        rw [if_pos hjR, if_neg (fun hc => ((hR' j).mp hc).2 rfl)]
        have htail : mixedL w R r = mixedL w R' r := by
          apply mixedL_congr
          intro x hx
          have hxj : x ≠ j := fun he => hnd.1 (he ▸ hx)
          rw [hR' x]
          exact ⟨fun hxr => ⟨hxr, hxj⟩, fun hc => hc.1⟩
        rw [← htail]
        dsimp only [strm_set]
        rw [if_neg (by simp)]
        rw [List.set_append_right _ _ (Nat.le_refl _), Nat.sub_self,
          List.set_cons_zero]
      · have hjr : j ∈ entLeaves r := pendL_snd_sub r _ _ _ hmem
        have hj0j : ¬ j0 = j := fun he => hnd.1 (he ▸ hjr)
        have hcell : (if j0 ∈ R then V.dref j0 else w j0)
            = (if j0 ∈ R' then V.dref j0 else w j0) := by
          by_cases hc : j0 ∈ R
          · rw [if_pos hc, if_pos ((hR' j0).mpr ⟨hc, hj0j⟩)]
          · rw [if_neg hc,
              if_neg (fun hc' => hc ((hR' j0).mp hc').1)]
        rw [mixedL_cons, mixedL_cons]
        dsimp only []
        rw [← hcell,
          List.append_cons pre _ (mixedL w R r),
          List.append_cons pre _ (mixedL w R' r)]
        exact ih (pre ++ [if j0 ∈ R then V.dref j0 else w j0]) R R' k j w
          (by simpa using hmem) hjR hR' hnd.2

theorem strmFold_mixedL (ord : List (Key × Nat)) (l : List Ent) :
    ∀ (R : List Nat) (w : Nat → V),
    (∀ q ∈ ord, q ∈ pendL 0 l) →
    (ord.map Prod.snd).Nodup →
    (∀ x, x ∈ R ↔ x ∈ ord.map Prod.snd) →
    (entLeaves l).Nodup →
    strmFold w (.slist (mixedL w R l)) ord = .slist (l.map (Ent.res w)) := by
  induction ord with
  | nil =>
    intro R w hsub hornd hRmem hnd
    rw [strmFold]
    rw [mixedL_res w R l (fun x _ hxR => by
      have := (hRmem x).mp hxR
      simp at this)]
    rfl
  | cons q rest ih =>
    intro R w hsub hornd hRmem hnd
    obtain ⟨k, j⟩ := q
    simp only [List.map_cons, List.nodup_cons] at hornd
    have hjR : j ∈ R := (hRmem j).mpr (by simp)
    have hR' : ∀ x, x ∈ rest.map Prod.snd ↔ (x ∈ R ∧ x ≠ j) := by
      intro x
      constructor
      · intro hx
        refine ⟨(hRmem x).mpr (by simp [hx]), ?_⟩
        intro he
        exact hornd.1 (he ▸ hx)
      · intro ⟨hxR, hxj⟩
        have := (hRmem x).mp hxR
        simp only [List.map_cons, List.mem_cons] at this
        rcases this with he | hm
        · exact absurd he hxj
        · exact hm
    have hsetl := set_mixedL l [] R (rest.map Prod.snd) k j w
      (by simpa using hsub _ (List.mem_cons_self _ _)) hjR hR' hnd
    simp only [List.nil_append] at hsetl
    rw [show strmFold w (.slist (mixedL w R l)) ((k, j) :: rest)
        = strmFold w (strm_set (.slist (mixedL w R l)) k (w j)) rest
      from rfl]
    rw [hsetl]
    exact ih (rest.map Prod.snd) w
      (fun q hq => hsub q (List.mem_cons_of_mem _ hq)) hornd.2
      (fun x => Iff.rfl) hnd

/-- The `dict` cells with the leaves in `R` still pending and all other
leaves resolved through `w`. -/
def mixedD (w : Nat → V) (R : List Nat) (l : List (String × Ent)) :
    List (String × V) :=
  l.map (fun p => (p.1, match p.2 with
    | .sval sv => sv.toV
    | .edef j => if j ∈ R then V.dref j else w j))

theorem mixedD_cons (w : Nat → V) (R : List Nat) (p : String × Ent)
    (r : List (String × Ent)) :
    mixedD w R (p :: r)
      = (p.1, match p.2 with
         | .sval sv => sv.toV
         | .edef j => if j ∈ R then V.dref j else w j) :: mixedD w R r := rfl

theorem pendD_snd (l : List (String × Ent)) :
    (pendD l).map Prod.snd = entLeavesD l := by
  induction l with
  | nil => rfl
  | cons p r ih =>
    obtain ⟨s, e⟩ := p
    cases e with
    | sval sv => rw [pendD, entLeavesD, ih]
    | edef j => rw [pendD, entLeavesD, List.map_cons, ih]

theorem pendD_snd_sub (l : List (String × Ent)) (k : Key) (j : Nat)
    (hm : (k, j) ∈ pendD l) : j ∈ entLeavesD l := by
  rw [← pendD_snd l]
  exact List.mem_map_of_mem Prod.snd hm

theorem pendD_key_sub (l : List (String × Ent)) :
    ∀ (s0 : String) (j : Nat), (Key.sk s0, j) ∈ pendD l →
    s0 ∈ l.map Prod.fst := by
  induction l with
  | nil => intro s0 j hm; exact absurd hm (List.not_mem_nil _)
  | cons p r ih =>
    obtain ⟨s, e⟩ := p
    intro s0 j hm
    cases e with
    | sval sv =>
      rw [pendD] at hm
      exact List.mem_cons_of_mem _ (ih s0 j hm)
    | edef j1 =>
      rw [pendD] at hm
      rcases List.mem_cons.mp hm with heq | hmem
      · have hkey : Key.sk s0 = Key.sk s := congrArg Prod.fst heq
        have hs0s : s0 = s := by injection hkey
        rw [List.map_cons, hs0s]
        exact List.mem_cons_self _ _
      · exact List.mem_cons_of_mem _ (ih s0 j hmem)

theorem mixedD_congr (w : Nat → V) (R R' : List Nat)
    (l : List (String × Ent))
    (hRR : ∀ x ∈ entLeavesD l, (x ∈ R ↔ x ∈ R')) :
    mixedD w R l = mixedD w R' l := by
  induction l with
  | nil => rfl
  | cons p r ih =>
    obtain ⟨s, e⟩ := p
    cases e with
    | sval sv =>
      rw [mixedD_cons, mixedD_cons,
        ih (fun x hx => hRR x (by rw [entLeavesD]; exact hx))]
    | edef j =>
      have hj := hRR j (by rw [entLeavesD]; exact List.mem_cons_self _ _)
      rw [mixedD_cons, mixedD_cons,
        ih (fun x hx => hRR x (by
          rw [entLeavesD]; exact List.mem_cons_of_mem _ hx))]
      dsimp only []
      by_cases hjR : j ∈ R
      · rw [if_pos hjR, if_pos (hj.mp hjR)]
      · rw [if_neg hjR, if_neg (fun hc => hjR (hj.mpr hc))]

theorem mixedD_toV (w : Nat → V) (R : List Nat) (l : List (String × Ent))
    (hall : ∀ x ∈ entLeavesD l, x ∈ R) :
    l.map (fun p => (p.1, p.2.toV)) = mixedD w R l := by
  induction l with
  | nil => rfl
  | cons p r ih =>
    obtain ⟨s, e⟩ := p
    cases e with
    | sval sv =>
      rw [List.map_cons, mixedD_cons,
        ih (fun x hx => hall x (by rw [entLeavesD]; exact hx))]
      rfl
    | edef j =>
      rw [List.map_cons, mixedD_cons,
        ih (fun x hx => hall x (by
          rw [entLeavesD]; exact List.mem_cons_of_mem _ hx))]
      dsimp only []
      rw [if_pos (hall j (by rw [entLeavesD]; exact List.mem_cons_self _ _))]
      rfl

theorem mixedD_res (w : Nat → V) (R : List Nat) (l : List (String × Ent))
    (hnone : ∀ x ∈ entLeavesD l, x ∉ R) :
    mixedD w R l = l.map (fun p => (p.1, Ent.res w p.2)) := by
  induction l with
  | nil => rfl
  | cons p r ih =>
    obtain ⟨s, e⟩ := p
    cases e with
    | sval sv =>
      rw [mixedD_cons, List.map_cons,
        ih (fun x hx => hnone x (by rw [entLeavesD]; exact hx))]
      rfl
    | edef j =>
      rw [mixedD_cons, List.map_cons,
        ih (fun x hx => hnone x (by
          rw [entLeavesD]; exact List.mem_cons_of_mem _ hx))]
      dsimp only []
      rw [if_neg (hnone j (by rw [entLeavesD]; exact List.mem_cons_self _ _))]
      rfl

theorem assocSet_append_skip (pre : List (String × V)) (rest : List (String × V))
    (s : String) (v : V) (hs : s ∉ pre.map Prod.fst) :
    assocSet (pre ++ rest) s v = pre ++ assocSet rest s v := by
  induction pre with
  | nil => rfl
  | cons p r ih =>
    simp only [List.map_cons, List.mem_cons, not_or] at hs
    rw [List.cons_append, assocSet, if_neg (fun e => hs.1 e.symm),
      ih hs.2, List.cons_append]

theorem set_mixedD (l : List (String × Ent)) :
    ∀ (pre : List (String × V)) (R R' : List Nat) (s0 : String) (j : Nat)
      (w : Nat → V),
    (Key.sk s0, j) ∈ pendD l → j ∈ R →
    (∀ x, x ∈ R' ↔ (x ∈ R ∧ x ≠ j)) →
    (entLeavesD l).Nodup →
    (l.map Prod.fst).Nodup →
    s0 ∉ pre.map Prod.fst →
    strm_set (.sdict (pre ++ mixedD w R l)) (.sk s0) (w j)
      = .sdict (pre ++ mixedD w R' l) := by
  induction l with
  | nil =>
    intro pre R R' s0 j w hm
    exact absurd hm (List.not_mem_nil _)
  | cons p r ih =>
    obtain ⟨s1, e⟩ := p
    intro pre R R' s0 j w hm hjR hR' hnd hknd hpre
    simp only [List.map_cons, List.nodup_cons] at hknd
    cases e with
    | sval sv =>
      rw [pendD] at hm
      have hs0r : s0 ∈ r.map Prod.fst := pendD_key_sub r s0 j hm
      have hs01 : ¬ s1 = s0 := fun he => hknd.1 (he ▸ hs0r)
      rw [mixedD_cons, mixedD_cons]
      dsimp only []
      rw [List.append_cons pre (s1, sv.toV) (mixedD w R r),
        List.append_cons pre (s1, sv.toV) (mixedD w R' r)]
      exact ih (pre ++ [(s1, sv.toV)]) R R' s0 j w hm hjR hR'
        (by simpa [entLeavesD] using hnd) hknd.2
        (by
          simp only [List.map_append, List.map_cons, List.map_nil,
            List.mem_append, List.mem_singleton, not_or]
          exact ⟨hpre, fun he => hs01 he.symm⟩)
    | edef j0 =>
      rw [pendD] at hm
      simp only [entLeavesD, List.nodup_cons] at hnd
      rcases List.mem_cons.mp hm with heq | hmem
      · have hkey : Key.sk s0 = Key.sk s1 := congrArg Prod.fst heq
        have hs0s : s0 = s1 := by injection hkey
        have hj0 : j = j0 := congrArg Prod.snd heq
        subst hs0s
        subst hj0
        rw [mixedD_cons, mixedD_cons]
        dsimp only []
        rw [if_pos hjR, if_neg (fun hc => ((hR' j).mp hc).2 rfl)]
        have htail : mixedD w R r = mixedD w R' r := by
          apply mixedD_congr
          intro x hx
          have hxj : x ≠ j := fun he => hnd.1 (he ▸ hx)
          rw [hR' x]
          exact ⟨fun hxr => ⟨hxr, hxj⟩, fun hc => hc.1⟩
        rw [← htail]
        dsimp only [strm_set]
        rw [assocSet_append_skip pre _ s0 (w j) hpre, assocSet,
          if_pos rfl]
      · have hs0r : s0 ∈ r.map Prod.fst := pendD_key_sub r s0 j hmem
        have hs01 : ¬ s1 = s0 := fun he => hknd.1 (he ▸ hs0r)
        have hjr : j ∈ entLeavesD r := pendD_snd_sub r _ _ hmem
        have hj0j : ¬ j0 = j := fun he => hnd.1 (he ▸ hjr)
        have hcell : (if j0 ∈ R then V.dref j0 else w j0)
            = (if j0 ∈ R' then V.dref j0 else w j0) := by
          by_cases hc : j0 ∈ R
          · rw [if_pos hc, if_pos ((hR' j0).mpr ⟨hc, hj0j⟩)]
          · rw [if_neg hc, if_neg (fun hc' => hc ((hR' j0).mp hc').1)]
        rw [mixedD_cons, mixedD_cons]
        dsimp only []
        rw [← hcell,
          List.append_cons pre _ (mixedD w R r),
          List.append_cons pre _ (mixedD w R' r)]
        exact ih (pre ++ [(s1, if j0 ∈ R then V.dref j0 else w j0)]) R R'
          s0 j w hmem hjR hR' hnd.2 hknd.2
          (by
            simp only [List.map_append, List.map_cons, List.map_nil,
              List.mem_append, List.mem_singleton, not_or]
            exact ⟨hpre, fun he => hs01 he.symm⟩)

theorem pendD_key_sk (l : List (String × Ent)) :
    ∀ (k : Key) (j : Nat), (k, j) ∈ pendD l → ∃ s0, k = Key.sk s0 := by
  induction l with
  | nil => intro k j hm; exact absurd hm (List.not_mem_nil _)
  | cons p r ih =>
    obtain ⟨s1, e⟩ := p
    intro k j hm
    cases e with
    | sval sv => rw [pendD] at hm; exact ih k j hm
    | edef j1 =>
      rw [pendD] at hm
      rcases List.mem_cons.mp hm with heq | hmem
      · exact ⟨s1, congrArg Prod.fst heq⟩
      · exact ih k j hmem

theorem strmFold_mixedD (ord : List (Key × Nat)) (l : List (String × Ent)) :
    ∀ (R : List Nat) (w : Nat → V),
    (∀ q ∈ ord, q ∈ pendD l) →
    (ord.map Prod.snd).Nodup →
    (∀ x, x ∈ R ↔ x ∈ ord.map Prod.snd) →
    (entLeavesD l).Nodup →
    (l.map Prod.fst).Nodup →
    strmFold w (.sdict (mixedD w R l)) ord
      = .sdict (l.map (fun p => (p.1, Ent.res w p.2))) := by
  induction ord with
  | nil =>
    intro R w hsub hornd hRmem hnd hknd
    rw [strmFold]
    rw [mixedD_res w R l (fun x _ hxR => by
      have := (hRmem x).mp hxR
      simp at this)]
    rfl
  | cons q rest ih =>
    intro R w hsub hornd hRmem hnd hknd
    obtain ⟨k, j⟩ := q
    have hqm : (k, j) ∈ pendD l := hsub _ (List.mem_cons_self _ _)
    obtain ⟨s0, hk⟩ := pendD_key_sk l k j hqm
    subst hk
    simp only [List.map_cons, List.nodup_cons] at hornd
    have hjR : j ∈ R := (hRmem j).mpr (by simp)
    have hR' : ∀ x, x ∈ rest.map Prod.snd ↔ (x ∈ R ∧ x ≠ j) := by
      intro x
      constructor
      · intro hx
        refine ⟨(hRmem x).mpr (by simp [hx]), ?_⟩
        intro he
        exact hornd.1 (he ▸ hx)
      · intro ⟨hxR, hxj⟩
        have := (hRmem x).mp hxR
        simp only [List.map_cons, List.mem_cons] at this
        rcases this with he | hm
        · exact absurd he hxj
        · exact hm
    have hsetl := set_mixedD l [] R (rest.map Prod.snd) s0 j w hqm hjR hR'
      hnd hknd (by simp)
    simp only [List.nil_append] at hsetl
    rw [show strmFold w (.sdict (mixedD w R l)) ((Key.sk s0, j) :: rest)
        = strmFold w (strm_set (.sdict (mixedD w R l)) (.sk s0) (w j)) rest
      from rfl]
    rw [hsetl]
    exact ih (rest.map Prod.snd) w
      (fun q hq => hsub q (List.mem_cons_of_mem _ hq)) hornd.2
      (fun x => Iff.rfl) hnd hknd

theorem snd_nodup_inj (P : List (Key × Nat))
    (hnd : (P.map Prod.snd).Nodup) :
    ∀ q ∈ P, ∀ q' ∈ P, q.2 = q'.2 → q = q' := by
  induction P with
  | nil => intro q hq; exact absurd hq (List.not_mem_nil q)
  | cons q0 r ih =>
    intro q hq q' hq' he
    simp only [List.map_cons, List.nodup_cons] at hnd
    rcases List.mem_cons.mp hq with rfl | hqr
    · rcases List.mem_cons.mp hq' with rfl | hq'r
      · rfl
      · exact absurd (he ▸ List.mem_map_of_mem Prod.snd hq'r) hnd.1
    · rcases List.mem_cons.mp hq' with rfl | hq'r
      · exact absurd (he ▸ List.mem_map_of_mem Prod.snd hqr) hnd.1
      · exact ih hnd.2 q hqr q' hq'r he

theorem entLeaves_mem (l : List Ent) :
    ∀ j, j ∈ entLeaves l ↔ Ent.edef j ∈ l := by
  induction l with
  | nil => intro j; simp [entLeaves]
  | cons e r ih =>
    intro j
    cases e with
    | sval sv =>
      rw [entLeaves, ih, List.mem_cons]
      exact ⟨Or.inr, fun h => h.resolve_left (fun hc => by cases hc)⟩
    | edef j0 =>
      rw [entLeaves, List.mem_cons, List.mem_cons, ih]
      constructor
      · rintro (rfl | hm)
        · exact Or.inl rfl
        · exact Or.inr hm
      · rintro (he | hm)
        · exact Or.inl (by injection he)
        · exact Or.inr hm

theorem entLeavesD_mem (l : List (String × Ent)) :
    ∀ j, j ∈ entLeavesD l ↔ ∃ s, (s, Ent.edef j) ∈ l := by
  induction l with
  | nil => intro j; simp [entLeavesD]
  | cons p r ih =>
    obtain ⟨s1, e⟩ := p
    intro j
    cases e with
    | sval sv =>
      rw [entLeavesD, ih]
      constructor
      · rintro ⟨s, hs⟩
        exact ⟨s, List.mem_cons_of_mem _ hs⟩
      · rintro ⟨s, hs⟩
        rcases List.mem_cons.mp hs with he | hm
        · exact absurd (congrArg Prod.snd he) (by simp)
        · exact ⟨s, hm⟩
    | edef j0 =>
      rw [entLeavesD, List.mem_cons, ih]
      constructor
      · rintro (rfl | ⟨s, hs⟩)
        · exact ⟨s1, List.mem_cons_self _ _⟩
        · exact ⟨s, List.mem_cons_of_mem _ hs⟩
      · rintro ⟨s, hs⟩
        rcases List.mem_cons.mp hs with he | hm
        · exact Or.inl (by
            have h2 : Ent.edef j = Ent.edef j0 := congrArg Prod.snd he
            injection h2)
        · exact Or.inr ⟨s, hm⟩

theorem pendL_fst_ik (l : List Ent) :
    ∀ start k, k ∈ (pendL start l).map Prod.fst →
    ∃ n, start ≤ n ∧ k = Key.ik n := by
  induction l with
  | nil => intro start k hk; simp [pendL] at hk
  | cons e r ih =>
    intro start k hk
    cases e with
    | sval sv =>
      rw [pendL] at hk
      obtain ⟨n, hn, hkn⟩ := ih (start + 1) k hk
      exact ⟨n, by omega, hkn⟩
    | edef j =>
      rw [pendL, List.map_cons] at hk
      rcases List.mem_cons.mp hk with rfl | hm
      · exact ⟨start, Nat.le_refl _, rfl⟩
      · obtain ⟨n, hn, hkn⟩ := ih (start + 1) k hm
        exact ⟨n, by omega, hkn⟩

theorem pendL_fst_nodup (l : List Ent) :
    ∀ start, ((pendL start l).map Prod.fst).Nodup := by
  induction l with
  | nil => intro start; simp [pendL]
  | cons e r ih =>
    intro start
    cases e with
    | sval sv => rw [pendL]; exact ih (start + 1)
    | edef j =>
      rw [pendL, List.map_cons, List.nodup_cons]
      refine ⟨?_, ih (start + 1)⟩
      intro hc
      obtain ⟨n, hn, hkn⟩ := pendL_fst_ik r (start + 1) _ hc
      injection hkn with h1
      omega

theorem pendD_fst_nodup (l : List (String × Ent))
    (hknd : (l.map Prod.fst).Nodup) :
    ((pendD l).map Prod.fst).Nodup := by
  induction l with
  | nil => simp [pendD]
  | cons p r ih =>
    obtain ⟨s1, e⟩ := p
    simp only [List.map_cons, List.nodup_cons] at hknd
    cases e with
    | sval sv => rw [pendD]; exact ih hknd.2
    | edef j =>
      rw [pendD, List.map_cons, List.nodup_cons]
      refine ⟨?_, ih hknd.2⟩
      intro hc
      obtain ⟨q, hq, hq1⟩ := List.mem_map.mp hc
      obtain ⟨s0, hs0⟩ := pendD_key_sk r q.1 q.2 (by
        rw [show (q.1, q.2) = q from rfl]; exact hq)
      rw [hs0] at hq1
      injection hq1 with h1
      exact hknd.1 (h1 ▸ pendD_key_sub r s0 q.2 (hs0 ▸ hq))

theorem toV_res_nil (w : Nat → V) (l : List Ent)
    (hnl : entLeaves l = []) : l.map Ent.toV = l.map (Ent.res w) := by
  induction l with
  | nil => rfl
  | cons e r ih =>
    cases e with
    | sval sv =>
      rw [entLeaves] at hnl
      rw [List.map_cons, List.map_cons, ih hnl]
      rfl
    | edef j => simp [entLeaves] at hnl

theorem toV_res_nilD (w : Nat → V) (l : List (String × Ent))
    (hnl : entLeavesD l = []) :
    l.map (fun p => (p.1, p.2.toV)) = l.map (fun p => (p.1, Ent.res w p.2)) := by
  induction l with
  | nil => rfl
  | cons p r ih =>
    obtain ⟨s1, e⟩ := p
    cases e with
    | sval sv =>
      rw [entLeavesD] at hnl
      rw [List.map_cons, List.map_cons, ih hnl]
      rfl
    | edef j => simp [entLeavesD] at hnl

theorem multi_async_rlist (l : List Ent) (h₀ : Heap)
    (hwf : ∀ e ∈ l, match e with
      | Ent.sval sv => sv.wf = true
      | Ent.edef j => j < h₀.length ∧ hget h₀ j = freshD)
    (hnd : (entLeaves l).Nodup) :
    ∃ ext,
      (pendL 0 l = [] →
        multi_async (needEL l + 6) ⟨false, none⟩ (.vlist (l.map Ent.toV)) h₀
          = (regAll h₀.length (pendL 0 l) h₀
              ++ mdDone (.slist (l.map Ent.toV)) :: ext, h₀.length, none))
      ∧ (pendL 0 l ≠ [] →
        multi_async (needEL l + 6) ⟨false, none⟩ (.vlist (l.map Ent.toV)) h₀
          = (regAll h₀.length (pendL 0 l) h₀
              ++ mdD true (.slist (l.map Ent.toV)) (pendL 0 l) :: ext,
             h₀.length, none)) := by
  obtain ⟨ext2, hupd⟩ := md_update_list_root l 5 0 [] [] h₀ [] hwf
    (by intro j hj; simp) hnd rfl
  simp only [List.nil_append] at hupd
  have hlen2 : h₀.length
      < (regAll h₀.length (pendL 0 l) h₀
          ++ mdD false (.slist (l.map Ent.toV)) (pendL 0 l) :: ext2).length := by
    simp [regAll_length]
  have hcid2 : hget (regAll h₀.length (pendL 0 l) h₀
      ++ mdD false (.slist (l.map Ent.toV)) (pendL 0 l) :: ext2) h₀.length
      = mdD false (.slist (l.map Ent.toV)) (pendL 0 l) :=
    hget_append_mid2 _ _ _ (regAll_length _ _ _).symm
  refine ⟨ext2, ?_, ?_⟩
  · intro hP
    rw [multi_async]
    rw [show needEL l + 6 = (needEL l + 5) + 1 from by omega, md_new]
    rw [show md_alloc ⟨false, none⟩ (V.vlist (l.map Ent.toV)) h₀
        = regAll h₀.length ([] : List (Key × Nat)) h₀
          ++ mdD false (.slist []) [] :: [] from rfl]
    rw [show needEL l + 5 = 5 + needEL l from by omega, hupd]
    dsimp only []
    rw [show 5 + needEL l + 1 = (needEL l + 1) + 5 from by omega]
    rw [md_lock_settled (needEL l + 1) h₀.length _ _ hlen2 (by
      rw [hcid2, hP])]
    rw [hset_append_mid2 _ _ _ _ (regAll_length _ _ _).symm]
  · intro hP
    rw [multi_async]
    rw [show needEL l + 6 = (needEL l + 5) + 1 from by omega, md_new]
    rw [show md_alloc ⟨false, none⟩ (V.vlist (l.map Ent.toV)) h₀
        = regAll h₀.length ([] : List (Key × Nat)) h₀
          ++ mdD false (.slist []) [] :: [] from rfl]
    rw [show needEL l + 5 = 5 + needEL l from by omega, hupd]
    dsimp only []
    rw [show 5 + needEL l + 1 = (5 + needEL l) + 1 from rfl]
    rw [md_lock_pending (5 + needEL l) h₀.length _ _ _ hP hlen2 hcid2]
    rw [hset_append_mid2 _ _ _ _ (regAll_length _ _ _).symm]

theorem multi_async_rdict (l : List (String × Ent)) (h₀ : Heap)
    (hwf : ∀ p ∈ l, match p.2 with
      | Ent.sval sv => sv.wf = true
      | Ent.edef j => j < h₀.length ∧ hget h₀ j = freshD)
    (hnd : (entLeavesD l).Nodup)
    (hknd : (l.map Prod.fst).Nodup) :
    ∃ ext,
      (pendD l = [] →
        multi_async (needED l + 6) ⟨false, none⟩
            (.vdict (l.map (fun p => (p.1, p.2.toV)))) h₀
          = (regAll h₀.length (pendD l) h₀
              ++ mdDone (.sdict (l.map (fun p => (p.1, p.2.toV)))) :: ext,
             h₀.length, none))
      ∧ (pendD l ≠ [] →
        multi_async (needED l + 6) ⟨false, none⟩
            (.vdict (l.map (fun p => (p.1, p.2.toV)))) h₀
          = (regAll h₀.length (pendD l) h₀
              ++ mdD true (.sdict (l.map (fun p => (p.1, p.2.toV))))
                  (pendD l) :: ext,
             h₀.length, none)) := by
  obtain ⟨ext2, hupd⟩ := md_update_dict_root l 5 [] [] h₀ [] hwf
    (by intro j hj; simp) hnd hknd (by intro key hk; simp)
  simp only [List.nil_append] at hupd
  have hlen2 : h₀.length
      < (regAll h₀.length (pendD l) h₀
          ++ mdD false (.sdict (l.map (fun p => (p.1, p.2.toV)))) (pendD l)
            :: ext2).length := by
    simp [regAll_length]
  have hcid2 : hget (regAll h₀.length (pendD l) h₀
      ++ mdD false (.sdict (l.map (fun p => (p.1, p.2.toV)))) (pendD l)
        :: ext2) h₀.length
      = mdD false (.sdict (l.map (fun p => (p.1, p.2.toV)))) (pendD l) :=
    hget_append_mid2 _ _ _ (regAll_length _ _ _).symm
  refine ⟨ext2, ?_, ?_⟩
  · intro hP
    rw [multi_async]
    rw [show needED l + 6 = (needED l + 5) + 1 from by omega, md_new]
    rw [show md_alloc ⟨false, none⟩
          (V.vdict (l.map (fun p => (p.1, p.2.toV)))) h₀
        = regAll h₀.length ([] : List (Key × Nat)) h₀
          ++ mdD false (.sdict []) [] :: [] from rfl]
    rw [show needED l + 5 = 5 + needED l from by omega, hupd]
    dsimp only []
    rw [show 5 + needED l + 1 = (needED l + 1) + 5 from by omega]
    rw [md_lock_settled (needED l + 1) h₀.length _ _ hlen2 (by
      rw [hcid2, hP])]
    rw [hset_append_mid2 _ _ _ _ (regAll_length _ _ _).symm]
  · intro hP
    rw [multi_async]
    rw [show needED l + 6 = (needED l + 5) + 1 from by omega, md_new]
    rw [show md_alloc ⟨false, none⟩
          (V.vdict (l.map (fun p => (p.1, p.2.toV)))) h₀
        = regAll h₀.length ([] : List (Key × Nat)) h₀
          ++ mdD false (.sdict []) [] :: [] from rfl]
    rw [show needED l + 5 = 5 + needED l from by omega, hupd]
    dsimp only []
    rw [show 5 + needED l + 1 = (5 + needED l) + 1 from rfl]
    rw [md_lock_pending (5 + needED l) h₀.length _ _ _ hP hlen2 hcid2]
    rw [hset_append_mid2 _ _ _ _ (regAll_length _ _ _).symm]

/-- The verified top-level container: a finite `list` or `dict` whose
entries are settled trees or unsettled leaf deferreds. -/
inductive RootC where
  | rlist (l : List Ent)
  | rdict (l : List (String × Ent))

/-- The container as constructor data for `MultiDeferred`. -/
def RootC.toV : RootC → V
  | .rlist l => .vlist (l.map Ent.toV)
  | .rdict l => .vdict (l.map (fun p => (p.1, p.2.toV)))

/-- The fully resolved container: every cell holds the settled value of
its input. -/
def RootC.res (w : Nat → V) : RootC → V
  | .rlist l => .vlist (l.map (Ent.res w))
  | .rdict l => .vdict (l.map (fun p => (p.1, Ent.res w p.2)))

/-- The pending map of the container's asynchronous children. -/
def RootC.pend : RootC → List (Key × Nat)
  | .rlist l => pendL 0 l
  | .rdict l => pendD l

/-- The heap addresses of the container's asynchronous children. -/
def RootC.leaves : RootC → List Nat
  | .rlist l => entLeaves l
  | .rdict l => entLeavesD l

/-- Fuel sufficient to construct and lock the multideferred. -/
def RootC.need : RootC → Nat
  | .rlist l => needEL l
  | .rdict l => needED l

/-- Well-formedness over the base heap: settled trees are well formed,
leaf addresses point at fresh allocated deferreds and are distinct, and
`dict` keys are distinct. -/
def RootC.wfh (h₀ : Heap) : RootC → Prop
  | .rlist l => (∀ e ∈ l, match e with
      | Ent.sval sv => sv.wf = true
      | Ent.edef j => j < h₀.length ∧ hget h₀ j = freshD)
      ∧ (entLeaves l).Nodup
  | .rdict l => (∀ p ∈ l, match p.2 with
      | Ent.sval sv => sv.wf = true
      | Ent.edef j => j < h₀.length ∧ hget h₀ j = freshD)
      ∧ (entLeavesD l).Nodup ∧ (l.map Prod.fst).Nodup

theorem c6_phase2 (P₀ : List (Key × Nat)) (st : Strm) (h₀ ext : Heap)
    (w : Nat → V)
    (hknd : (P₀.map Prod.fst).Nodup)
    (hsnd : (P₀.map Prod.snd).Nodup)
    (hwP : ∀ q ∈ P₀, (w q.2).isDref = false ∧ (w q.2).isExc = false ∧
      (w q.2).isFailureB = false)
    (hbl : ∀ q ∈ P₀, q.2 < h₀.length)
    (hPne : P₀ ≠ [])
    (ord : List (Key × Nat)) (hperm : ord.Perm P₀) :
    (∀ pre q suf, ord = pre ++ q :: suf →
      (hget (settle_list 12 w pre
        (regAll h₀.length P₀ h₀ ++ mdD true st P₀ :: ext)) h₀.length).called
        = false)
    ∧ (hget (settle_list 12 w ord
        (regAll h₀.length P₀ h₀ ++ mdD true st P₀ :: ext)) h₀.length).called
        = true
    ∧ (hget (settle_list 12 w ord
        (regAll h₀.length P₀ h₀ ++ mdD true st P₀ :: ext)) h₀.length).result
        = some (strm_to_v (strmFold w st ord)) := by
  have hordk : (ord.map Prod.fst).Nodup :=
    (hperm.map Prod.fst).nodup_iff.mpr hknd
  have hinj := snd_nodup_inj P₀ hsnd
  have hblB : ∀ q ∈ P₀, q.2 < (regAll h₀.length P₀ h₀).length := by
    intro q hq
    rw [regAll_length]
    exact hbl q hq
  have hwatch : ∀ q ∈ P₀, hget (regAll h₀.length P₀ h₀) q.2
      = watchD (regAll h₀.length P₀ h₀).length q.1 := by
    intro q hq
    rw [regAll_length]
    exact regAll_get_mem h₀.length P₀ h₀ hsnd q hq (hbl q hq)
  refine ⟨?_, ?_⟩
  · intro pre q suf hords
    have hsubpre : ∀ x ∈ pre, x ∈ P₀ := by
      intro x hx
      exact hperm.mem_iff.mp (hords ▸ List.mem_append_left _ hx)
    have hqP₀ : q ∈ P₀ :=
      hperm.mem_iff.mp (hords ▸ List.mem_append_right _
        (List.mem_cons_self _ _))
    have hordk2 := hordk
    rw [hords, List.map_append, List.map_cons] at hordk2
    have hprek : (pre.map Prod.fst).Nodup := hordk2.of_append_left
    have hqpre : q.1 ∉ pre.map Prod.fst := by
      intro hc
      rcases List.nodup_append.mp hordk2 with ⟨_, _, hdisj⟩
      exact hdisj hc (List.mem_cons_self _ _)
    obtain ⟨B2, hlen2, hgo⟩ := settle_go pre 0 P₀ st
      (regAll h₀.length P₀ h₀) ext w hsubpre hprek hinj hwP hblB
      (fun x hx => hwatch x (hsubpre x hx)) hPne
    rw [Nat.zero_add] at hgo
    rw [hgo]
    have hne2 : P₀.filter
        (fun x => !((pre.map Prod.fst).contains x.1)) ≠ [] :=
      List.ne_nil_of_mem (List.mem_filter.mpr ⟨hqP₀, by simpa using hqpre⟩)
    rw [if_neg hne2]
    rw [hget_append_mid2 _ _ _
      (show h₀.length = B2.length from
        (hlen2.trans (regAll_length _ _ _)).symm)]
    rfl
  · have hsub : ∀ x ∈ ord, x ∈ P₀ := fun x hx => hperm.mem_iff.mp hx
    obtain ⟨B2, hlen2, hgo⟩ := settle_go ord 0 P₀ st
      (regAll h₀.length P₀ h₀) ext w hsub hordk hinj hwP hblB
      (fun x hx => hwatch x (hsub x hx)) hPne
    rw [Nat.zero_add] at hgo
    rw [hgo]
    have hfilt : P₀.filter
        (fun x => !((ord.map Prod.fst).contains x.1)) = [] := by
      rw [List.filter_eq_nil]
      intro a ha
      have : a.1 ∈ ord.map Prod.fst :=
        List.mem_map_of_mem Prod.fst (hperm.mem_iff.mpr ha)
      simp [this]
    rw [if_pos hfilt]
    rw [hget_append_mid2 _ _ _
      (show h₀.length = B2.length from
        (hlen2.trans (regAll_length _ _ _)).symm)]
    exact ⟨rfl, rfl⟩

/-- C6: for every finite `list` or `dict` container `c` whose entries
are settled values, settled nested `list`/`dict` trees, or distinct
fresh unsettled deferreds, `multi_async` (that is,
`MultiDeferred(c).lock()`) raises nothing; the multideferred is settled
immediately exactly when no entry is asynchronous; and for every order
in which the asynchronous children are later called back, the
multideferred stays unsettled until the last child settles and then
settles with the container of the same shape in which every cell holds
the settled value of its input (nested collections substituted by their
resolved containers). -/
theorem multi_async_c6 (c : RootC) (h₀ : Heap) (w : Nat → V)
    (hwf : RootC.wfh h₀ c)
    (hw : ∀ j ∈ c.leaves, (w j).isDref = false ∧ (w j).isExc = false ∧
      (w j).isFailureB = false) :
    ∃ H₁, multi_async (c.need + 6) ⟨false, none⟩ c.toV h₀
        = (H₁, h₀.length, none)
      ∧ ((hget H₁ h₀.length).called = true ↔ c.leaves = [])
      ∧ (c.leaves = [] → (hget H₁ h₀.length).result = some (c.res w))
      ∧ ∀ ord, ord.Perm c.pend →
          (∀ pre q suf, ord = pre ++ q :: suf →
            (hget (settle_list 12 w pre H₁) h₀.length).called = false)
          ∧ (hget (settle_list 12 w ord H₁) h₀.length).called = true
          ∧ (hget (settle_list 12 w ord H₁) h₀.length).result
              = some (c.res w) := by
  cases c with
  | rlist l =>
    obtain ⟨hwfe, hnd⟩ := hwf
    have hwL : ∀ j ∈ entLeaves l, (w j).isDref = false ∧
        (w j).isExc = false ∧ (w j).isFailureB = false := hw
    obtain ⟨ext, hset0, hset1⟩ := multi_async_rlist l h₀ hwfe hnd
    by_cases hP : pendL 0 l = []
    · have hlv : entLeaves l = [] := by rw [← pendL_snd l 0, hP]; rfl
      have hgetH : hget (regAll h₀.length (pendL 0 l) h₀
          ++ mdDone (.slist (l.map Ent.toV)) :: ext) h₀.length
          = mdDone (.slist (l.map Ent.toV)) :=
        hget_append_mid2 _ _ _ (regAll_length _ _ _).symm
      refine ⟨_, hset0 hP, ⟨fun _ => hlv, fun _ => by rw [hgetH]; rfl⟩,
        fun _ => ?_, fun ord hperm => ?_⟩
      · rw [hgetH]
        show some (strm_to_v (.slist (l.map Ent.toV))) = _
        rw [show (RootC.res w (.rlist l)) = .vlist (l.map (Ent.res w))
          from rfl, show strm_to_v (.slist (l.map Ent.toV))
          = .vlist (l.map Ent.toV) from rfl, toV_res_nil w l hlv]
      · have hperm2 : ord.Perm ([] : List (Key × Nat)) := by
          have hperm1 : ord.Perm (pendL 0 l) := hperm
          rw [hP] at hperm1
          exact hperm1
        have hord : ord = [] := by
          cases ord with
          | nil => rfl
          | cons a r =>
            have hle := hperm2.length_eq
            simp at hle
        subst hord
        refine ⟨fun pre q suf habs => absurd habs (by simp), ?_, ?_⟩
        · show (hget _ h₀.length).called = true
          rw [show settle_list 12 w [] (regAll h₀.length (pendL 0 l) h₀
            ++ mdDone (.slist (l.map Ent.toV)) :: ext)
            = regAll h₀.length (pendL 0 l) h₀
            ++ mdDone (.slist (l.map Ent.toV)) :: ext from rfl, hgetH]
          rfl
        · rw [show settle_list 12 w [] (regAll h₀.length (pendL 0 l) h₀
            ++ mdDone (.slist (l.map Ent.toV)) :: ext)
            = regAll h₀.length (pendL 0 l) h₀
            ++ mdDone (.slist (l.map Ent.toV)) :: ext from rfl, hgetH]
          show some (strm_to_v (.slist (l.map Ent.toV))) = _
          rw [show (RootC.res w (.rlist l)) = .vlist (l.map (Ent.res w))
            from rfl, show strm_to_v (.slist (l.map Ent.toV))
            = .vlist (l.map Ent.toV) from rfl, toV_res_nil w l hlv]
    · have hsnd : ((pendL 0 l).map Prod.snd).Nodup := by
        rw [pendL_snd]; exact hnd
      have hgetH : hget (regAll h₀.length (pendL 0 l) h₀
          ++ mdD true (.slist (l.map Ent.toV)) (pendL 0 l) :: ext) h₀.length
          = mdD true (.slist (l.map Ent.toV)) (pendL 0 l) :=
        hget_append_mid2 _ _ _ (regAll_length _ _ _).symm
      have hlvne : ¬ entLeaves l = [] := by
        intro he
        exact hP (List.map_eq_nil.mp (by rw [pendL_snd]; exact he))
      have hwP : ∀ q ∈ pendL 0 l, (w q.2).isDref = false ∧
          (w q.2).isExc = false ∧ (w q.2).isFailureB = false := by
        intro q hq
        exact hwL q.2 (by
          rw [show entLeaves l = (pendL 0 l).map Prod.snd
            from (pendL_snd l 0).symm]
          exact List.mem_map_of_mem Prod.snd hq)
      have hbl : ∀ q ∈ pendL 0 l, q.2 < h₀.length := by
        intro q hq
        have hjl : q.2 ∈ entLeaves l := by
          rw [show entLeaves l = (pendL 0 l).map Prod.snd
            from (pendL_snd l 0).symm]
          exact List.mem_map_of_mem Prod.snd hq
        have := hwfe _ ((entLeaves_mem l q.2).mp hjl)
        exact this.1
      refine ⟨_, hset1 hP,
        ⟨fun hc => absurd (hgetH ▸ hc) (by simp [mdD]),
         fun he => absurd he hlvne⟩,
        fun he => absurd he hlvne, fun ord hperm => ?_⟩
      have hpermL : ord.Perm (pendL 0 l) := hperm
      obtain ⟨hunsett, hcalled, hresult⟩ := c6_phase2 (pendL 0 l)
        (.slist (l.map Ent.toV)) h₀ ext w (pendL_fst_nodup l 0) hsnd
        hwP hbl hP ord hpermL
      have hconv : strmFold w (.slist (l.map Ent.toV)) ord
          = .slist (l.map (Ent.res w)) := by
        rw [show (.slist (l.map Ent.toV) : Strm)
            = .slist (mixedL w (ord.map Prod.snd) l)
          from congrArg _ (mixedL_toV w _ l (fun x hx =>
            (hpermL.map Prod.snd).mem_iff.mpr (by
              rw [show (pendL 0 l).map Prod.snd = entLeaves l
                from pendL_snd l 0]
              exact hx)))]
        exact strmFold_mixedL ord l (ord.map Prod.snd) w
          (fun q hq => hpermL.mem_iff.mp hq)
          ((hpermL.map Prod.snd).nodup_iff.mpr hsnd)
          (fun x => Iff.rfl) hnd
      exact ⟨hunsett, hcalled, by rw [hresult, hconv]; rfl⟩
  | rdict l =>
    obtain ⟨hwfe, hnd, hknd⟩ := hwf
    have hwD : ∀ j ∈ entLeavesD l, (w j).isDref = false ∧
        (w j).isExc = false ∧ (w j).isFailureB = false := hw
    obtain ⟨ext, hset0, hset1⟩ := multi_async_rdict l h₀ hwfe hnd hknd
    by_cases hP : pendD l = []
    · have hlv : entLeavesD l = [] := by rw [← pendD_snd l, hP]; rfl
      have hgetH : hget (regAll h₀.length (pendD l) h₀
          ++ mdDone (.sdict (l.map (fun p => (p.1, p.2.toV)))) :: ext)
          h₀.length
          = mdDone (.sdict (l.map (fun p => (p.1, p.2.toV)))) :=
        hget_append_mid2 _ _ _ (regAll_length _ _ _).symm
      refine ⟨_, hset0 hP, ⟨fun _ => hlv, fun _ => by rw [hgetH]; rfl⟩,
        fun _ => ?_, fun ord hperm => ?_⟩
      · rw [hgetH]
        show some (strm_to_v (.sdict (l.map (fun p => (p.1, p.2.toV))))) = _
        rw [show (RootC.res w (.rdict l))
            = .vdict (l.map (fun p => (p.1, Ent.res w p.2))) from rfl,
          show strm_to_v (.sdict (l.map (fun p => (p.1, p.2.toV))))
            = .vdict (l.map (fun p => (p.1, p.2.toV))) from rfl,
          toV_res_nilD w l hlv]
      · have hperm2 : ord.Perm ([] : List (Key × Nat)) := by
          have hperm1 : ord.Perm (pendD l) := hperm
          rw [hP] at hperm1
          exact hperm1
        have hord : ord = [] := by
          cases ord with
          | nil => rfl
          | cons a r =>
            have hle := hperm2.length_eq
            simp at hle
        subst hord
        refine ⟨fun pre q suf habs => absurd habs (by simp), ?_, ?_⟩
        · rw [show settle_list 12 w [] (regAll h₀.length (pendD l) h₀
            ++ mdDone (.sdict (l.map (fun p => (p.1, p.2.toV)))) :: ext)
            = regAll h₀.length (pendD l) h₀
            ++ mdDone (.sdict (l.map (fun p => (p.1, p.2.toV)))) :: ext
            from rfl, hgetH]
          rfl
        · rw [show settle_list 12 w [] (regAll h₀.length (pendD l) h₀
            ++ mdDone (.sdict (l.map (fun p => (p.1, p.2.toV)))) :: ext)
            = regAll h₀.length (pendD l) h₀
            ++ mdDone (.sdict (l.map (fun p => (p.1, p.2.toV)))) :: ext
            from rfl, hgetH]
          show some (strm_to_v (.sdict (l.map (fun p => (p.1, p.2.toV))))) = _
          rw [show (RootC.res w (.rdict l))
              = .vdict (l.map (fun p => (p.1, Ent.res w p.2))) from rfl,
            show strm_to_v (.sdict (l.map (fun p => (p.1, p.2.toV))))
              = .vdict (l.map (fun p => (p.1, p.2.toV))) from rfl,
            toV_res_nilD w l hlv]
    · have hsnd : ((pendD l).map Prod.snd).Nodup := by
        rw [pendD_snd]; exact hnd
      have hgetH : hget (regAll h₀.length (pendD l) h₀
          ++ mdD true (.sdict (l.map (fun p => (p.1, p.2.toV)))) (pendD l)
            :: ext) h₀.length
          = mdD true (.sdict (l.map (fun p => (p.1, p.2.toV)))) (pendD l) :=
        hget_append_mid2 _ _ _ (regAll_length _ _ _).symm
      have hlvne : ¬ entLeavesD l = [] := by
        intro he
        exact hP (List.map_eq_nil.mp (by rw [pendD_snd]; exact he))
      have hwP : ∀ q ∈ pendD l, (w q.2).isDref = false ∧
          (w q.2).isExc = false ∧ (w q.2).isFailureB = false := by
        intro q hq
        exact hwD q.2 (by
          rw [show entLeavesD l = (pendD l).map Prod.snd
            from (pendD_snd l).symm]
          exact List.mem_map_of_mem Prod.snd hq)
      have hbl : ∀ q ∈ pendD l, q.2 < h₀.length := by
        intro q hq
        have hjl : q.2 ∈ entLeavesD l := by
          rw [show entLeavesD l = (pendD l).map Prod.snd
            from (pendD_snd l).symm]
          exact List.mem_map_of_mem Prod.snd hq
        obtain ⟨s, hs⟩ := (entLeavesD_mem l q.2).mp hjl
        have := hwfe _ hs
        exact this.1
      refine ⟨_, hset1 hP,
        ⟨fun hc => absurd (hgetH ▸ hc) (by simp [mdD]),
         fun he => absurd he hlvne⟩,
        fun he => absurd he hlvne, fun ord hperm => ?_⟩
      have hpermD : ord.Perm (pendD l) := hperm
      obtain ⟨hunsett, hcalled, hresult⟩ := c6_phase2 (pendD l)
        (.sdict (l.map (fun p => (p.1, p.2.toV)))) h₀ ext w
        (pendD_fst_nodup l hknd) hsnd hwP hbl hP ord hpermD
      have hconv : strmFold w (.sdict (l.map (fun p => (p.1, p.2.toV)))) ord
          = .sdict (l.map (fun p => (p.1, Ent.res w p.2))) := by
        rw [show (.sdict (l.map (fun p => (p.1, p.2.toV))) : Strm)
            = .sdict (mixedD w (ord.map Prod.snd) l)
          from congrArg _ (mixedD_toV w _ l (fun x hx =>
            (hpermD.map Prod.snd).mem_iff.mpr (by
              rw [show (pendD l).map Prod.snd = entLeavesD l
                from pendD_snd l]
              exact hx)))]
        exact strmFold_mixedD ord l (ord.map Prod.snd) w
          (fun q hq => hpermD.mem_iff.mp hq)
          ((hpermD.map Prod.snd).nodup_iff.mpr hsnd)
          (fun x => Iff.rfl) hnd hknd
      exact ⟨hunsett, hcalled, by rw [hresult, hconv]; rfl⟩

/-- C6, witness: the spec's literal scenario — a `MultiDeferred` over
the dict of "x" mapped to 1, "y" mapped to a fresh deferred `a` and
"z" mapped to the list of 10 and 20 is not settled after `lock()`;
after `a.callback(9)` it settles with the same dict in which "y" now
maps to 9. -/
theorem multi_async_c6_witness :
    ∃ H₁,
      multi_async (RootC.need (RootC.rdict [("x", .sval (.leaf (.vint 1))),
          ("y", .edef 0),
          ("z", .sval (.lst (.cons (.leaf (.vint 10))
            (.cons (.leaf (.vint 20)) .nil))))]) + 6) ⟨false, none⟩
        (V.vdict [("x", V.vint 1), ("y", V.dref 0),
          ("z", V.vlist [V.vint 10, V.vint 20])]) [freshD]
        = (H₁, 1, none)
      ∧ (hget H₁ 1).called = false
      ∧ (hget (settle_list 12 (fun _ => V.vint 9)
          [(Key.sk "y", 0)] H₁) 1).called = true
      ∧ (hget (settle_list 12 (fun _ => V.vint 9)
          [(Key.sk "y", 0)] H₁) 1).result
          = some (V.vdict [("x", V.vint 1), ("y", V.vint 9),
              ("z", V.vlist [V.vint 10, V.vint 20])]) := by
  obtain ⟨H₁, heq, hiff, hnil, hord⟩ := multi_async_c6
    (RootC.rdict [("x", .sval (.leaf (.vint 1))), ("y", .edef 0),
      ("z", .sval (.lst (.cons (.leaf (.vint 10))
        (.cons (.leaf (.vint 20)) .nil))))])
    [freshD] (fun _ => V.vint 9)
    (by
      refine ⟨?_, ?_, ?_⟩
      · intro p hp
        fin_cases hp
        · rfl
        · exact ⟨by decide, rfl⟩
        · rfl
      · decide
      · decide)
    (by intro j hj; exact ⟨rfl, rfl, rfl⟩)
  obtain ⟨hpre, hcall, hres⟩ := hord [(Key.sk "y", 0)] (List.Perm.refl _)
  refine ⟨H₁, heq, ?_, hcall, hres.trans rfl⟩
  have hne : ¬ (hget H₁ 1).called = true := by
    intro hc
    have h2 := hiff.mp hc
    simp [RootC.leaves, entLeavesD] at h2
  cases hc : (hget H₁ 1).called
  · rfl
  · exact absurd hc hne
